import Mathlib

/-
  Verification of the HashList container declared in src/util/hash-list.h
  (kaldi::HashList<I, T>).

  The header declares a singly linked list of (key, value) elements fused
  with a hash index: each hash bucket stores the last element of its chain
  and a link to the previously activated bucket, so that the hash part can
  be reset in time proportional to the number of buckets actually used.

  The repository provides only the class declaration (hash-list.h); the
  inline-definitions unit util/hash-list-inl.h it includes is not part of
  the sources.  The operations below are therefore modelled from the
  specification, constrained by the declared data members
  (list_head_, bucket_list_tail_, hash_size_, buckets_, freed_head_,
  allocated_, allocate_block_size_ = 1024) and by the documented behaviour
  of each member function.

  The embedding is an index-based arena: element pointers are natural
  numbers addressing a heap function, nodes carry the single next-link
  (tail) that threads both the global list and the bucket chains, exactly
  as in the source declaration.
-/

/-- Number of elements allocated in one pool block
(allocate_block_size_ in hash-list.h). -/
def allocate_block_size : Nat := 1024

/-- An element of the HashList (struct Elem in hash-list.h): key, value and
the single link that threads the element into the stored list / bucket
chain / free list. -/
structure Elem (V : Type) where
  key : Nat
  val : V
  tail : Option Nat
deriving Repr

/-- A hash bucket (struct HashBucket in hash-list.h): index of the
previously activated bucket (none models the C++ value (size_t)-1) and the
last element of this bucket's chain (none models NULL, meaning the bucket
is empty). -/
structure HashBucket where
  prev_bucket : Option Nat
  last_elem : Option Nat
deriving Repr

/-- The HashList state: the element arena (heap, heapSize), the declared
data members of kaldi::HashList, with buckets_ as a function plus its
size, and allocated_ as the list of block base addresses. -/
structure HashList (V : Type) where
  heap : Nat → Elem V
  heapSize : Nat
  list_head : Option Nat
  bucket_list_tail : Option Nat
  hash_size : Nat
  buckets : Nat → HashBucket
  bucketsSize : Nat
  freed_head : Option Nat
  allocated : List Nat

/-- Modelled from the spec: the constructor of HashList (defined in the
missing util/hash-list-inl.h).  No list, no active bucket, zero hash size,
empty free list, no allocated blocks. -/
def HashList.init (V : Type) [Inhabited V] : HashList V where
  heap := fun _ => ⟨0, default, none⟩
  heapSize := 0
  list_head := none
  bucket_list_tail := none
  hash_size := 0
  buckets := fun _ => ⟨some 0, none⟩
  bucketsSize := 0
  freed_head := none
  allocated := []

/-- Update the tail link of the element at address p. -/
def HashList.writeTail (s : HashList V) (p : Nat) (t : Option Nat) : HashList V :=
  { s with heap := Function.update s.heap p { s.heap p with tail := t } }

/-- Modelled from the spec: SetSize (defined in the missing
util/hash-list-inl.h) records the number of hash buckets and grows the
bucket array if needed, value-initialising the new slots; it must only be
called while the hash is empty. -/
def HashList.SetSize (s : HashList V) (sz : Nat) : HashList V :=
  if sz > s.bucketsSize then
    { s with hash_size := sz,
             buckets := fun i => if i < s.bucketsSize then s.buckets i else ⟨some 0, none⟩,
             bucketsSize := sz }
  else
    { s with hash_size := sz }

/-- Modelled from the spec: New (defined in the missing
util/hash-list-inl.h) pops an element from the free list if it is
non-empty; otherwise it allocates a fresh block of allocate_block_size
elements, threads the whole block into the free list, records the block in
allocated_, and pops the first element of the block. -/
def HashList.New (s : HashList V) [Inhabited V] : HashList V × Nat :=
  match s.freed_head with
  | some p => ({ s with freed_head := (s.heap p).tail }, p)
  | none =>
    let base := s.heapSize
    let heap2 : Nat → Elem V := fun i =>
      if base ≤ i ∧ i < base + allocate_block_size then
        ⟨0, default, if i + 1 < base + allocate_block_size then some (i + 1) else none⟩
      else s.heap i
    ({ s with heap := heap2,
              heapSize := base + allocate_block_size,
              allocated := s.allocated ++ [base],
              freed_head := (heap2 base).tail },
     base)

/-- Modelled from the spec: Delete (defined in the missing
util/hash-list-inl.h) pushes the element back onto the free list; it is
the opposite of New, to be called on elements previously obtained through
Clear. -/
def HashList.Delete (s : HashList V) (e : Nat) : HashList V :=
  { s with heap := Function.update s.heap e { s.heap e with tail := s.freed_head },
           freed_head := some e }

/-- The scanning loop of Find: walk the chain from cur, stopping at the
stop pointer, and return the first element whose key matches.  A fuel
argument bounds the walk (the C++ loop relies on the chain being finite).
-/
def HashList.findLoop (s : HashList V) (k : Nat) : Option Nat → Option Nat → Nat → Option Nat
  | _, _, 0 => none
  | cur, stop, fuel + 1 =>
    if cur = stop then none
    else
      match cur with
      | none => none
      | some p =>
        if (s.heap p).key = k then some p
        else s.findLoop k (s.heap p).tail stop fuel

/-- The first element of the chain of the bucket at the given index: the
element following the last element of the previously activated bucket, or
the head of the stored list when this bucket was the first one activated
(its prev_bucket link is none). -/
def HashList.chainHead (s : HashList V) (index : Nat) : Option Nat :=
  match (s.buckets index).prev_bucket with
  | none => s.list_head
  | some pb =>
    match (s.buckets pb).last_elem with
    | some q => (s.heap q).tail
    | none => none

/-- Modelled from the spec: Find (defined in the missing
util/hash-list-inl.h) computes the bucket index of the key, returns none
if the bucket is empty, and otherwise scans the bucket's chain — from the
element after the previous active bucket's last element (or the list
head) up to the element after this bucket's last element — returning the
first element whose key matches. -/
def HashList.Find (s : HashList V) (k : Nat) : Option Nat :=
  let index := k % s.hash_size
  match (s.buckets index).last_elem with
  | none => none
  | some le => s.findLoop k (s.chainHead index) ((s.heap le).tail) s.heapSize

/-- The linking phase of Insert, after a node e has been obtained from
New: set the key and value of e and splice it into the list and the hash
structure.  If the bucket is empty, e starts the bucket's chain at the
tail of the stored list (the head of the bucket list, which runs in the
opposite direction) and the bucket is pushed onto the active-bucket list;
otherwise e is appended directly after the bucket's last element. -/
def HashList.insertLink (s2 : HashList V) (e : Nat) (k : Nat) (v : V) : HashList V :=
  let index := k % s2.hash_size
  let s3 := { s2 with heap := Function.update s2.heap e ⟨k, v, (s2.heap e).tail⟩ }
  match (s3.buckets index).last_elem with
  | none =>
    let s4 :=
      match s3.bucket_list_tail with
      | none => { s3 with list_head := some e }
      | some t =>
        match (s3.buckets t).last_elem with
        | some q => s3.writeTail q (some e)
        | none => s3
    let s5 := s4.writeTail e none
    { s5 with buckets := Function.update s5.buckets index ⟨s5.bucket_list_tail, some e⟩,
              bucket_list_tail := some index }
  | some le =>
    let s4 := s3.writeTail e ((s3.heap le).tail)
    let s5 := s4.writeTail le (some e)
    { s5 with buckets := Function.update s5.buckets index ⟨(s5.buckets index).prev_bucket, some e⟩ }

/-- Modelled from the spec: Insert (defined in the missing
util/hash-list-inl.h) allocates a node with New and links it into the
stored list and the hash structure; the caller asserts the key is not
already present (no duplicate check is performed). -/
def HashList.Insert (s : HashList V) [Inhabited V] (k : Nat) (v : V) : HashList V :=
  let res := s.New
  HashList.insertLink res.1 res.2 k v

/-- Walk to the last element of the run of key k that starts at p: advance
while the next element exists and carries the same key. -/
def HashList.runEnd (s : HashList V) (k : Nat) : Nat → Nat → Nat
  | p, 0 => p
  | p, fuel + 1 =>
    match (s.heap p).tail with
    | some q => if (s.heap q).key = k then s.runEnd k q fuel else p
    | none => p

/-- The linking phase of InsertMore, after a node e has been obtained from
New: splice e at the end of the existing run of elements with the same
key, so that all elements with one key stay contiguous, insertion order
preserved inside the run, and Find keeps returning the first-inserted
one.  If the bucket's last element carries the key, e is appended there
and becomes the bucket's last element; otherwise the run is located by
scanning the bucket's chain and e is spliced right after the run's last
element. -/
def HashList.insertMoreLink (s2 : HashList V) (e : Nat) (k : Nat) (v : V) : HashList V :=
  let index := k % s2.hash_size
  let s3 := { s2 with heap := Function.update s2.heap e ⟨k, v, (s2.heap e).tail⟩ }
  match (s3.buckets index).last_elem with
  | none => s3
  | some le =>
    if (s3.heap le).key = k then
      let s4 := s3.writeTail e ((s3.heap le).tail)
      let s5 := s4.writeTail le (some e)
      { s5 with buckets := Function.update s5.buckets index ⟨(s5.buckets index).prev_bucket, some e⟩ }
    else
      match s3.findLoop k (s3.chainHead index) ((s3.heap le).tail) s3.heapSize with
      | none => s3
      | some p =>
        let q := s3.runEnd k p s3.heapSize
        let s4 := s3.writeTail e ((s3.heap q).tail)
        s4.writeTail q (some e)

/-- Modelled from the spec: InsertMore (defined in the missing
util/hash-list-inl.h) allocates a node with New and splices it next to
the existing elements with the same key; the caller asserts one element
with that key is already present. -/
def HashList.InsertMore (s : HashList V) [Inhabited V] (k : Nat) (v : V) : HashList V :=
  let res := s.New
  HashList.insertMoreLink res.1 res.2 k v

/-- The bucket-resetting loop of Clear: walk the active-bucket list from
the given bucket index through the prev_bucket links, clearing each
bucket's last element. -/
def clearBuckets (bk : Nat → HashBucket) : Option Nat → Nat → (Nat → HashBucket)
  | _, 0 => bk
  | none, _ => bk
  | some i, fuel + 1 =>
    clearBuckets (Function.update bk i ⟨(bk i).prev_bucket, none⟩) ((bk i).prev_bucket) fuel

/-- Modelled from the spec: Clear (defined in the missing
util/hash-list-inl.h) walks only the buckets touched since the last
reset, marks each of them empty, resets the active-bucket list and the
stored list, and returns the head of the stored list; ownership of the
returned chain passes to the caller, the pooled storage stays allocated.
-/
def HashList.Clear (s : HashList V) : HashList V × Option Nat :=
  ({ s with buckets := clearBuckets s.buckets s.bucket_list_tail s.bucketsSize,
            bucket_list_tail := none,
            list_head := none },
   s.list_head)

/-- GetList from hash-list.h: the head of the currently stored list,
ownership retained by the container. -/
def HashList.GetList (s : HashList V) : Option Nat := s.list_head

/-- Size from hash-list.h: the current number of hash buckets. -/
def HashList.Size (s : HashList V) : Nat := s.hash_size

/-- The pointers of the chain starting at the given head, following tail
links, bounded by fuel. -/
def HashList.chainPtrs (s : HashList V) : Option Nat → Nat → List Nat
  | _, 0 => []
  | none, _ => []
  | some p, fuel + 1 => p :: s.chainPtrs (s.heap p).tail fuel

/-- The key and value stored at address p. -/
def HashList.kvAt (s : HashList V) (p : Nat) : Nat × V := ((s.heap p).key, (s.heap p).val)

/-- The key/value pairs of the chain starting at the given head. -/
def HashList.chainKVs (s : HashList V) (h : Option Nat) : List (Nat × V) :=
  (s.chainPtrs h s.heapSize).map s.kvAt

/-- The key/value pairs of the currently stored list. -/
def HashList.liveKVs (s : HashList V) : List (Nat × V) := s.chainKVs s.list_head

/-- The pointers currently on the free list. -/
def HashList.freedPtrs (s : HashList V) : List Nat := s.chainPtrs s.freed_head s.heapSize

/-- Walk the active-bucket list from the given bucket through prev_bucket
links, collecting the visited bucket indices. -/
def activeLoop (bk : Nat → HashBucket) : Option Nat → Nat → List Nat
  | _, 0 => []
  | none, _ => []
  | some i, fuel + 1 => i :: activeLoop bk (bk i).prev_bucket fuel

/-- The indices of the buckets currently on the active-bucket list,
starting from its tail. -/
def HashList.activeBuckets (s : HashList V) : List Nat :=
  activeLoop s.buckets s.bucket_list_tail s.bucketsSize

/-- The scanning loop described by the spec's sentinel-by-hash-mismatch
sentences: follow tail links while the visited element's own key hashes
to the target bucket, returning the first key match, and stop as soon as
an element of a different bucket is reached. -/
def HashList.mismatchLoop (s : HashList V) (k index : Nat) : Option Nat → Nat → Option Nat
  | _, 0 => none
  | none, _ => none
  | some p, fuel + 1 =>
    if (s.heap p).key % s.hash_size = index then
      if (s.heap p).key = k then some p
      else s.mismatchLoop k index (s.heap p).tail fuel
    else none

/-- The lookup procedure as worded by the spec's chain-termination
sentences: start at the bucket's stored last element and follow node
links until a node whose key hashes to a different bucket is found.  This
definition follows the spec's words and is compared against Find. -/
def HashList.findByHashMismatch (s : HashList V) (k : Nat) : Option Nat :=
  let index := k % s.hash_size
  match (s.buckets index).last_elem with
  | none => none
  | some le => s.mismatchLoop k index (some le) s.heapSize

/-
  Representation predicates: a chain predicate for the tail-linked
  elements, a chain predicate for the prev_bucket-linked buckets, and the
  segment invariant tying a HashList state to an abstract list of
  per-bucket segments.
-/

/-- PtrChain h start ps stop: following tail links from start visits
exactly the pointers ps and ends at stop. -/
def PtrChain (h : Nat → Elem V) : Option Nat → List Nat → Option Nat → Prop
  | start, [], stop => start = stop
  | start, p :: ps, stop => start = some p ∧ PtrChain h (h p).tail ps stop

@[simp] theorem ptrChain_nil {h : Nat → Elem V} {a b : Option Nat} :
    PtrChain h a [] b ↔ a = b := Iff.rfl

@[simp] theorem ptrChain_cons {h : Nat → Elem V} {a b : Option Nat} {p : Nat} {ps : List Nat} :
    PtrChain h a (p :: ps) b ↔ a = some p ∧ PtrChain h (h p).tail ps b := Iff.rfl

theorem ptrChain_append {h : Nat → Elem V} {a b c : Option Nat} {xs ys : List Nat}
    (h1 : PtrChain h a xs b) (h2 : PtrChain h b ys c) : PtrChain h a (xs ++ ys) c := by
  induction xs generalizing a with
  | nil => simpa [PtrChain] using h1 ▸ h2
  | cons x xs ih =>
    obtain ⟨rfl, hrest⟩ := h1
    exact ⟨rfl, ih hrest⟩

theorem ptrChain_append_iff {h : Nat → Elem V} {a c : Option Nat} {xs ys : List Nat} :
    PtrChain h a (xs ++ ys) c ↔ ∃ b, PtrChain h a xs b ∧ PtrChain h b ys c := by
  constructor
  · intro hc
    induction xs generalizing a with
    | nil => exact ⟨a, rfl, hc⟩
    | cons x xs ih =>
      obtain ⟨rfl, hrest⟩ := hc
      obtain ⟨b, hb1, hb2⟩ := ih hrest
      exact ⟨b, ⟨rfl, hb1⟩, hb2⟩
  · rintro ⟨b, h1, h2⟩
    exact ptrChain_append h1 h2

theorem ptrChain_congr {h h' : Nat → Elem V} {a b : Option Nat} {ps : List Nat}
    (hagree : ∀ q ∈ ps, (h' q).tail = (h q).tail) :
    PtrChain h' a ps b ↔ PtrChain h a ps b := by
  induction ps generalizing a with
  | nil => exact Iff.rfl
  | cons p ps ih =>
    have hp : (h' p).tail = (h p).tail := hagree p (by simp)
    have ih2 : PtrChain h' (h p).tail ps b ↔ PtrChain h (h p).tail ps b :=
      ih (fun q hq => hagree q (by simp [hq]))
    simp [PtrChain, hp, ih2]

theorem ptrChain_concat_tail {h : Nat → Elem V} {a b : Option Nat} {xs : List Nat} {x : Nat}
    (hc : PtrChain h a (xs ++ [x]) b) : (h x).tail = b := by
  obtain ⟨m, _, hm2⟩ := ptrChain_append_iff.1 hc
  obtain ⟨_, htail⟩ := hm2
  simpa [PtrChain] using htail

theorem ptrChain_start {h : Nat → Elem V} {a b : Option Nat} {p : Nat} {ps : List Nat}
    (hc : PtrChain h a (p :: ps) b) : a = some p := hc.1

/-- The accumulator after walking a list: the last element of the list, or
the initial accumulator when the list is empty. -/
def lastD (acc : Option Nat) (xs : List Nat) : Option Nat :=
  xs.foldl (fun _ x => some x) acc

@[simp] theorem lastD_nil (acc : Option Nat) : lastD acc [] = acc := rfl

@[simp] theorem lastD_cons (acc : Option Nat) (x : Nat) (xs : List Nat) :
    lastD acc (x :: xs) = lastD (some x) xs := rfl

theorem lastD_append (acc : Option Nat) (xs ys : List Nat) :
    lastD acc (xs ++ ys) = lastD (lastD acc xs) ys := by
  simp [lastD, List.foldl_append]

@[simp] theorem lastD_concat (acc : Option Nat) (xs : List Nat) (x : Nat) :
    lastD acc (xs ++ [x]) = some x := by
  simp [lastD_append]

theorem lastD_of_ne_nil (acc acc' : Option Nat) (xs : List Nat) (hne : xs ≠ []) :
    lastD acc xs = lastD acc' xs := by
  rcases List.eq_nil_or_concat xs with rfl | ⟨ys, y, rfl⟩
  · exact absurd rfl hne
  · simp [List.concat_eq_append]

/-- IdxChain bk acc idxs: walking idxs forward, each bucket's prev_bucket
link points at the previously visited bucket (acc before the first). -/
def IdxChain (bk : Nat → HashBucket) : Option Nat → List Nat → Prop
  | _, [] => True
  | acc, i :: rest => (bk i).prev_bucket = acc ∧ IdxChain bk (some i) rest

@[simp] theorem idxChain_nil {bk : Nat → HashBucket} {acc : Option Nat} :
    IdxChain bk acc [] := trivial

@[simp] theorem idxChain_cons {bk : Nat → HashBucket} {acc : Option Nat} {i : Nat} {rest : List Nat} :
    IdxChain bk acc (i :: rest) ↔ (bk i).prev_bucket = acc ∧ IdxChain bk (some i) rest := Iff.rfl

theorem idxChain_append_iff {bk : Nat → HashBucket} {acc : Option Nat} {xs ys : List Nat} :
    IdxChain bk acc (xs ++ ys) ↔ IdxChain bk acc xs ∧ IdxChain bk (lastD acc xs) ys := by
  induction xs generalizing acc with
  | nil => simp
  | cons x xs ih => simp [ih, and_assoc]

theorem idxChain_congr {bk bk' : Nat → HashBucket} {acc : Option Nat} {idxs : List Nat}
    (hagree : ∀ i ∈ idxs, (bk' i).prev_bucket = (bk i).prev_bucket) :
    IdxChain bk' acc idxs ↔ IdxChain bk acc idxs := by
  induction idxs generalizing acc with
  | nil => simp
  | cons i rest ih =>
    have hi := hagree i (by simp)
    have ih2 : IdxChain bk' (some i) rest ↔ IdxChain bk (some i) rest :=
      ih (fun j hj => hagree j (by simp [hj]))
    simp [hi, ih2]

/-- The bucket indices of a segment list. -/
def segIdxs (segs : List (Nat × List Nat)) : List Nat := segs.map Prod.fst

/-- The element pointers of a segment list, in stored-list order. -/
def segFlat (segs : List (Nat × List Nat)) : List Nat := (segs.map Prod.snd).flatten

@[simp] theorem segIdxs_nil : segIdxs [] = [] := rfl

@[simp] theorem segIdxs_cons (sg : Nat × List Nat) (segs : List (Nat × List Nat)) :
    segIdxs (sg :: segs) = sg.1 :: segIdxs segs := rfl

@[simp] theorem segIdxs_append (l r : List (Nat × List Nat)) :
    segIdxs (l ++ r) = segIdxs l ++ segIdxs r := by simp [segIdxs]

@[simp] theorem segFlat_nil : segFlat ([] : List (Nat × List Nat)) = [] := rfl

@[simp] theorem segFlat_cons (sg : Nat × List Nat) (segs : List (Nat × List Nat)) :
    segFlat (sg :: segs) = sg.2 ++ segFlat segs := by simp [segFlat]

@[simp] theorem segFlat_append (l r : List (Nat × List Nat)) :
    segFlat (l ++ r) = segFlat l ++ segFlat r := by simp [segFlat]

/-- The pointer list of the segment for bucket index i (empty when i has
no segment). -/
def segPtrsAt (segs : List (Nat × List Nat)) (i : Nat) : List Nat :=
  match segs.find? (fun sg => sg.1 == i) with
  | some sg => sg.2
  | none => []

/-- The segment invariant: the abstract segment list segs (one entry per
active bucket, in activation order, with the bucket's element pointers in
chain order) and the free-list pointers fr describe the state s. -/
structure SegsOk (s : HashList V) (segs : List (Nat × List Nat)) (fr : List Nat) : Prop where
  chain : PtrChain s.heap s.list_head (segFlat segs) none
  nodup : (segFlat segs).Nodup
  bounded : ∀ p ∈ segFlat segs, p < s.heapSize
  nonemptySegs : ∀ sg ∈ segs, sg.2 ≠ []
  segKeys : ∀ sg ∈ segs, ∀ p ∈ sg.2, (s.heap p).key % s.hash_size = sg.1
  idxNodup : (segIdxs segs).Nodup
  idxLt : ∀ sg ∈ segs, sg.1 < s.hash_size
  lastElem : ∀ sg ∈ segs, (s.buckets sg.1).last_elem = lastD none sg.2
  inactive : ∀ i, i ∉ segIdxs segs → (s.buckets i).last_elem = none
  prevOk : IdxChain s.buckets none (segIdxs segs)
  tailOk : s.bucket_list_tail = lastD none (segIdxs segs)
  hszLe : s.hash_size ≤ s.bucketsSize
  heapBlocks : s.heapSize = allocate_block_size * s.allocated.length
  freeChain : PtrChain s.heap s.freed_head fr none
  freeNodup : fr.Nodup
  freeBounded : ∀ p ∈ fr, p < s.heapSize
  freeDisj : ∀ p ∈ fr, p ∉ segFlat segs

theorem length_le_of_nodup_lt {l : List Nat} {n : Nat}
    (hnd : l.Nodup) (hlt : ∀ x ∈ l, x < n) : l.length ≤ n := by
  have hsub : l.toFinset ⊆ Finset.range n := by
    intro x hx
    exact Finset.mem_range.2 (hlt x (List.mem_toFinset.1 hx))
  have hcard := Finset.card_le_card hsub
  simpa [List.card_toFinset, hnd.dedup, Finset.card_range] using hcard

theorem nodup_append_ne {xs ys : List Nat} (h : (xs ++ ys).Nodup) {x y : Nat}
    (hx : x ∈ xs) (hy : y ∈ ys) : x ≠ y := by
  rcases List.nodup_append.1 h with ⟨-, -, hdisj⟩
  intro he
  exact hdisj hx (he ▸ hy)

/-- Walking a finite nil-terminated chain with enough fuel recovers
exactly its pointer list. -/
theorem chainPtrs_eq {s : HashList V} {a : Option Nat} {l : List Nat}
    (hc : PtrChain s.heap a l none) {fuel : Nat} (hf : l.length ≤ fuel) :
    s.chainPtrs a fuel = l := by
  induction l generalizing a fuel with
  | nil =>
    have ha : a = none := hc
    subst ha
    cases fuel <;> simp [HashList.chainPtrs]
  | cons p ps ih =>
    obtain ⟨rfl, hrest⟩ := hc
    cases fuel with
    | zero => simp at hf
    | succ f =>
      simp only [HashList.chainPtrs]
      rw [ih hrest (by simpa using Nat.lt_succ_iff.1 (Nat.lt_of_lt_of_le (Nat.lt_succ_self _) hf))]

/-- The scanning loop of Find returns the first key match on the pointer
list between start and stop, provided the stop pointer does not alias any
listed pointer and there is enough fuel. -/
theorem findLoop_char {s : HashList V} {k : Nat} {start stop : Option Nat} {ps : List Nat}
    {fuel : Nat} (hc : PtrChain s.heap start ps stop)
    (hstop : ∀ p ∈ ps, some p ≠ stop) (hf : ps.length ≤ fuel) :
    s.findLoop k start stop fuel = ps.find? (fun p => (s.heap p).key == k) := by
  induction ps generalizing start fuel with
  | nil =>
    have ha : start = stop := hc
    subst ha
    cases fuel <;> simp [HashList.findLoop]
  | cons p ps ih =>
    obtain ⟨rfl, hrest⟩ := hc
    cases fuel with
    | zero => simp at hf
    | succ f =>
      have hne : (some p : Option Nat) ≠ stop := hstop p (by simp)
      simp only [HashList.findLoop, if_neg hne, List.find?_cons]
      by_cases hk : (s.heap p).key = k
      · simp [hk]
      · have hbeq : ((s.heap p).key == k) = false := by simpa using hk
        rw [if_neg hk, hbeq]
        exact ih hrest (fun q hq => hstop q (by simp [hq])) (by simpa using hf)

/-- Split a segment list at the (unique) segment of index i. -/
theorem segs_split {segs : List (Nat × List Nat)} {i : Nat}
    (hnd : (segIdxs segs).Nodup) (hmem : i ∈ segIdxs segs) :
    ∃ L ps R, segs = L ++ (i, ps) :: R ∧ i ∉ segIdxs L ∧ i ∉ segIdxs R ∧
      segPtrsAt segs i = ps := by
  obtain ⟨sg, hsg, rfl⟩ := List.mem_map.1 hmem
  obtain ⟨L, R, rfl⟩ := List.append_of_mem hsg
  have hnd2 : (segIdxs L ++ sg.1 :: segIdxs R).Nodup := by simpa using hnd
  rcases List.nodup_append.1 hnd2 with ⟨-, hndR, hdisj⟩
  have hiL : sg.1 ∉ segIdxs L := fun hin => hdisj hin (by simp)
  have hiR : sg.1 ∉ segIdxs R := by
    have := List.Nodup.not_mem hndR
    simpa using this
  refine ⟨L, sg.2, R, by simp, hiL, hiR, ?_⟩
  have hfind : (L ++ sg :: R).find? (fun t => t.1 == sg.1) = some sg := by
    rw [List.find?_append]
    have hL : L.find? (fun t => t.1 == sg.1) = none := by
      refine List.find?_eq_none.2 (fun t ht => ?_)
      simp only [beq_iff_eq]
      intro he
      exact hiL (he ▸ List.mem_map_of_mem Prod.fst ht)
    rw [hL]
    simp [List.find?_cons]
  simp [segPtrsAt, hfind]

theorem segPtrsAt_of_not_mem {segs : List (Nat × List Nat)} {i : Nat}
    (hmem : i ∉ segIdxs segs) : segPtrsAt segs i = [] := by
  have hfind : segs.find? (fun t => t.1 == i) = none := by
    refine List.find?_eq_none.2 (fun t ht => ?_)
    simp only [beq_iff_eq]
    intro he
    exact hmem (he ▸ List.mem_map_of_mem Prod.fst ht)
  simp [segPtrsAt, hfind]

/-- Find behaves as a linear search over the pointer segment of the key's
bucket: it returns the first element of that segment whose key matches.
-/
theorem find_char {s : HashList V} {segs : List (Nat × List Nat)} {fr : List Nat}
    (hs : SegsOk s segs fr) (k : Nat) :
    s.Find k = (segPtrsAt segs (k % s.hash_size)).find? (fun p => (s.heap p).key == k) := by
  by_cases hmem : k % s.hash_size ∈ segIdxs segs
  · obtain ⟨L, ps, R, hsegs, hiL, hiR, hat⟩ := segs_split hs.idxNodup hmem
    rw [hat]
    have hpsne : ps ≠ [] := hs.nonemptySegs (k % s.hash_size, ps) (hsegs ▸ (by simp))
    obtain ⟨ps1, le, hps⟩ : ∃ ps1 le, ps = ps1 ++ [le] := by
      rcases List.eq_nil_or_concat ps with h | ⟨ps1, le, h⟩
      · exact absurd h hpsne
      · exact ⟨ps1, le, by simpa [List.concat_eq_append] using h⟩
    have hlast : (s.buckets (k % s.hash_size)).last_elem = some le := by
      have := hs.lastElem (k % s.hash_size, ps) (hsegs ▸ (by simp))
      simpa [hps] using this
    have hchain0 : PtrChain s.heap s.list_head (segFlat L ++ (ps ++ segFlat R)) none := by
      have hc := hs.chain
      rw [hsegs] at hc
      simpa using hc
    obtain ⟨mid, hmidL, hmidR⟩ := ptrChain_append_iff.1 hchain0
    have hprev : (s.buckets (k % s.hash_size)).prev_bucket = lastD none (segIdxs L) := by
      have hprevOk := hs.prevOk
      rw [hsegs] at hprevOk
      have h2 : IdxChain s.buckets none (segIdxs L ++ k % s.hash_size :: segIdxs R) := by
        simpa using hprevOk
      exact ((idxChain_append_iff.1 h2).2).1
    have hhead : s.chainHead (k % s.hash_size) = mid := by
      rcases List.eq_nil_or_concat L with rfl | ⟨L1, lsg, hL⟩
      · have hm : s.list_head = mid := hmidL
        simp [HashList.chainHead, hprev, hm]
      · rw [List.concat_eq_append] at hL
        subst hL
        have hqne : lsg.2 ≠ [] := hs.nonemptySegs lsg (hsegs ▸ (by simp))
        obtain ⟨qs1, q, hq⟩ : ∃ qs1 q, lsg.2 = qs1 ++ [q] := by
          rcases List.eq_nil_or_concat lsg.2 with h | ⟨qs1, q, h⟩
          · exact absurd h hqne
          · exact ⟨qs1, q, by simpa [List.concat_eq_append] using h⟩
        have hlastq : (s.buckets lsg.1).last_elem = some q := by
          have := hs.lastElem lsg (hsegs ▸ (by simp))
          simpa [hq] using this
        have hprev2 : (s.buckets (k % s.hash_size)).prev_bucket = some lsg.1 := by
          rw [hprev]
          simp
        have htailq : (s.heap q).tail = mid := by
          have hmidL2 : PtrChain s.heap s.list_head ((segFlat L1 ++ qs1) ++ [q]) mid := by
            have : segFlat (L1 ++ [lsg]) = (segFlat L1 ++ qs1) ++ [q] := by
              simp [hq, List.append_assoc]
            rw [this] at hmidL
            exact hmidL
          exact ptrChain_concat_tail hmidL2
        simp [HashList.chainHead, hprev2, hlastq, htailq]
    obtain ⟨stp, hps_chain, hR_chain⟩ := ptrChain_append_iff.1 hmidR
    have hstop_eq : (s.heap le).tail = stp := by
      have : PtrChain s.heap mid (ps1 ++ [le]) stp := hps ▸ hps_chain
      exact ptrChain_concat_tail this
    have hnodupMR : (ps ++ segFlat R).Nodup := by
      have hnd := hs.nodup
      rw [hsegs] at hnd
      have : (segFlat L ++ (ps ++ segFlat R)).Nodup := by simpa using hnd
      exact (List.nodup_append.1 this).2.1
    have hstop_notin : ∀ p ∈ ps, some p ≠ stp := by
      intro p hp
      cases hRl : segFlat R with
      | nil =>
        rw [hRl] at hR_chain
        have : stp = none := hR_chain
        rw [this]
        simp
      | cons r rest =>
        rw [hRl] at hR_chain
        have hstp : stp = some r := ptrChain_start hR_chain
        rw [hstp]
        intro he
        have hpr : p = r := by simpa using he
        exact nodup_append_ne hnodupMR hp (by rw [hRl]; simp) hpr
    have hfuel : ps.length ≤ s.heapSize := by
      have hsub : ∀ p ∈ ps, p < s.heapSize := by
        intro p hp
        exact hs.bounded p (by rw [hsegs]; simp [hp])
      exact length_le_of_nodup_lt (List.nodup_append.1 hnodupMR).1 hsub
    simp only [HashList.Find, hlast, hhead, hstop_eq]
    exact findLoop_char hps_chain hstop_notin hfuel
  · have hlast := hs.inactive _ hmem
    rw [segPtrsAt_of_not_mem hmem]
    simp [HashList.Find, hlast]

@[simp] theorem writeTail_heap_same (s : HashList V) (p : Nat) (t : Option Nat) :
    (s.writeTail p t).heap p = { s.heap p with tail := t } := by
  simp [HashList.writeTail]

theorem writeTail_heap_other (s : HashList V) {p q : Nat} (t : Option Nat) (h : q ≠ p) :
    (s.writeTail p t).heap q = s.heap q := by
  simp [HashList.writeTail, Function.update_noteq h]

/-- The state equation of the occupied-bucket branch of insertLink. -/
theorem insertLink_occupied_eq {s2 : HashList V} {e k le : Nat} (v : V)
    (hlast : (s2.buckets (k % s2.hash_size)).last_elem = some le) (hne : e ≠ le) :
    s2.insertLink e k v =
      { s2 with
        heap := Function.update (Function.update s2.heap e ⟨k, v, (s2.heap le).tail⟩) le
                  { s2.heap le with tail := some e },
        buckets := Function.update s2.buckets (k % s2.hash_size)
                  ⟨(s2.buckets (k % s2.hash_size)).prev_bucket, some e⟩ } := by
  simp only [HashList.insertLink, hlast, HashList.writeTail]
  congr 1
  · funext r
    rcases eq_or_ne r le with rfl | hr
    · simp [Function.update_same, Function.update_noteq hne, Function.update_noteq (Ne.symm hne)]
    · rcases eq_or_ne r e with rfl | hr2
      · simp [Function.update_noteq hr, Function.update_same, Function.update_noteq hne,
              Function.update_noteq (Ne.symm hne)]
      · simp [Function.update_noteq hr, Function.update_noteq hr2]

/-- The state equation of the empty-bucket branch of insertLink when the
container already has active buckets: the new element is appended after
the last element q of the most recently activated bucket t. -/
theorem insertLink_active_eq {s2 : HashList V} {e k t q : Nat} (v : V)
    (hlast : (s2.buckets (k % s2.hash_size)).last_elem = none)
    (htail : s2.bucket_list_tail = some t)
    (hlastt : (s2.buckets t).last_elem = some q) (hne : e ≠ q) :
    s2.insertLink e k v =
      { s2 with
        heap := Function.update (Function.update s2.heap e ⟨k, v, none⟩) q
                  { s2.heap q with tail := some e },
        buckets := Function.update s2.buckets (k % s2.hash_size) ⟨some t, some e⟩,
        bucket_list_tail := some (k % s2.hash_size) } := by
  simp only [HashList.insertLink, hlast, htail, hlastt, HashList.writeTail]
  congr 1
  · funext r
    rcases eq_or_ne r q with rfl | hr
    · simp [Function.update_noteq (Ne.symm hne), Function.update_same, Function.update_noteq hne]
    · rcases eq_or_ne r e with rfl | hr2
      · simp [Function.update_same, Function.update_noteq hr, Function.update_noteq (Ne.symm hr)]
      · simp [Function.update_noteq hr, Function.update_noteq hr2]

/-- The state equation of the empty-bucket branch of insertLink when the
container is empty: the new element becomes the head of the stored list.
-/
theorem insertLink_first_eq {s2 : HashList V} {e k : Nat} (v : V)
    (hlast : (s2.buckets (k % s2.hash_size)).last_elem = none)
    (htail : s2.bucket_list_tail = none) :
    s2.insertLink e k v =
      { s2 with
        heap := Function.update s2.heap e ⟨k, v, none⟩,
        buckets := Function.update s2.buckets (k % s2.hash_size) ⟨none, some e⟩,
        bucket_list_tail := some (k % s2.hash_size),
        list_head := some e } := by
  simp only [HashList.insertLink, hlast, htail, HashList.writeTail]
  congr 1
  funext r
  rcases eq_or_ne r e with rfl | hr
  · simp
  · simp [Function.update_noteq hr]

theorem mem_segFlat_of_mem {segs : List (Nat × List Nat)} {sg : Nat × List Nat} {p : Nat}
    (hsg : sg ∈ segs) (hp : p ∈ sg.2) : p ∈ segFlat segs := by
  simp only [segFlat, List.mem_flatten]
  exact ⟨sg.2, List.mem_map_of_mem Prod.snd hsg, hp⟩

theorem mem_flat_insert_mid {L R : List (Nat × List Nat)} {i e p : Nat} {ps : List Nat}
    (hp : p ∈ segFlat (L ++ (i, ps ++ [e]) :: R)) :
    p ∈ segFlat (L ++ (i, ps) :: R) ∨ p = e := by
  simp only [segFlat_append, segFlat_cons] at hp ⊢
  rcases List.mem_append.1 hp with h | h
  · exact Or.inl (List.mem_append.2 (Or.inl h))
  · rcases List.mem_append.1 h with h2 | h2
    · rcases List.mem_append.1 h2 with h3 | h3
      · exact Or.inl (by simp [h3])
      · exact Or.inr (by simpa using h3)
    · exact Or.inl (by simp [h2])

/-- Appending an element to the bucket's segment (occupied-bucket branch
of insertLink) preserves the segment invariant, the new element ending the
segment of its bucket. -/
theorem segsOk_insertLink_occupied {s2 : HashList V} {segs : List (Nat × List Nat)} {fr : List Nat}
    {L R : List (Nat × List Nat)} {ps : List Nat} {k e : Nat} (v : V)
    (hs : SegsOk s2 segs fr)
    (hsegs : segs = L ++ (k % s2.hash_size, ps) :: R)
    (he1 : e ∉ segFlat segs) (he2 : e ∉ fr) (he3 : e < s2.heapSize) :
    SegsOk (s2.insertLink e k v) (L ++ (k % s2.hash_size, ps ++ [e]) :: R) fr := by
  have hmem_seg : (k % s2.hash_size, ps) ∈ segs := hsegs ▸ (by simp)
  have hpsne : ps ≠ [] := hs.nonemptySegs _ hmem_seg
  obtain ⟨ps1, le, hps⟩ : ∃ ps1 le, ps = ps1 ++ [le] := by
    rcases List.eq_nil_or_concat ps with h | ⟨ps1, le, h⟩
    · exact absurd h hpsne
    · exact ⟨ps1, le, by simpa [List.concat_eq_append] using h⟩
  have hlast : (s2.buckets (k % s2.hash_size)).last_elem = some le := by
    have := hs.lastElem _ hmem_seg
    simpa [hps] using this
  have hle_flat : le ∈ segFlat segs := by rw [hsegs]; simp [hps]
  have hne : e ≠ le := fun h => he1 (h ▸ hle_flat)
  have hflat_eq : segFlat segs = segFlat L ++ (ps ++ segFlat R) := by rw [hsegs]; simp
  have hidx := hs.idxNodup
  rw [hsegs] at hidx
  have hidx2 : (segIdxs L ++ k % s2.hash_size :: segIdxs R).Nodup := by simpa using hidx
  rcases List.nodup_append.1 hidx2 with ⟨-, hndiR, hdisjI⟩
  have hiL : k % s2.hash_size ∉ segIdxs L := fun hin => hdisjI hin (by simp)
  have hiR : k % s2.hash_size ∉ segIdxs R := by
    have := List.Nodup.not_mem hndiR
    simpa using this
  -- the new state
  rw [insertLink_occupied_eq v hlast hne]
  set heap' := Function.update (Function.update s2.heap e ⟨k, v, (s2.heap le).tail⟩) le
      { s2.heap le with tail := some e } with hheap'
  have Hle : heap' le = { s2.heap le with tail := some e } := by simp [hheap']
  have He : heap' e = ⟨k, v, (s2.heap le).tail⟩ := by
    simp [hheap', Function.update_noteq hne]
  have Hother : ∀ q, q ≠ e → q ≠ le → heap' q = s2.heap q := by
    intro q hq1 hq2
    simp [hheap', Function.update_noteq hq1, Function.update_noteq hq2]
  have Hkey : ∀ q, q ≠ e → (heap' q).key = (s2.heap q).key := by
    intro q hq
    rcases eq_or_ne q le with rfl | hq2
    · rw [Hle]
    · rw [Hother q hq hq2]
  have Htail : ∀ q, q ≠ e → q ≠ le → (heap' q).tail = (s2.heap q).tail := by
    intro q hq1 hq2
    rw [Hother q hq1 hq2]
  -- nodup bookkeeping on the old flat list
  have hnodup0 : (segFlat L ++ (ps ++ segFlat R)).Nodup := by
    have := hs.nodup
    rw [hflat_eq] at this
    exact this
  rcases List.nodup_append.1 hnodup0 with ⟨hndL, hndMR, hdisjL⟩
  rcases List.nodup_append.1 hndMR with ⟨hndps, hndR, hdisjM⟩
  have hle_ps : le ∈ ps := by simp [hps]
  have hle_nL : le ∉ segFlat L := fun hin => hdisjL hin (by simp [hle_ps])
  have hle_nR : le ∉ segFlat R := fun hin => hdisjM hle_ps hin
  have hle_nps1 : le ∉ ps1 := by
    have := hndps
    rw [hps] at this
    rcases List.nodup_append.1 this with ⟨-, -, hd⟩
    exact fun hin => hd hin (by simp)
  have he_nL : e ∉ segFlat L := fun hin => he1 (hflat_eq ▸ (by simp [hin]))
  have he_nps : e ∉ ps := fun hin => he1 (hflat_eq ▸ (by simp [hin]))
  have he_nR : e ∉ segFlat R := fun hin => he1 (hflat_eq ▸ (by simp [hin]))
  -- old chain decomposition
  have hch : PtrChain s2.heap s2.list_head (segFlat L ++ (ps ++ segFlat R)) none := by
    have := hs.chain
    rwa [hflat_eq] at this
  obtain ⟨m1, hchL, hchMR⟩ := ptrChain_append_iff.1 hch
  obtain ⟨m2, hchps, hchR⟩ := ptrChain_append_iff.1 hchMR
  have hchps2 : PtrChain s2.heap m1 (ps1 ++ [le]) m2 := hps ▸ hchps
  obtain ⟨m3, hchps1, hchle⟩ := ptrChain_append_iff.1 hchps2
  have hm3 : m3 = some le := hchle.1
  have hletail : (s2.heap le).tail = m2 := by
    have := hchle.2
    simpa using this
  constructor
  -- chain
  · show PtrChain heap' s2.list_head (segFlat (L ++ (k % s2.hash_size, ps ++ [e]) :: R)) none
    have goal_eq : segFlat (L ++ (k % s2.hash_size, ps ++ [e]) :: R)
        = segFlat L ++ (ps1 ++ ([le] ++ ([e] ++ segFlat R))) := by
      simp [hps, List.append_assoc]
    rw [goal_eq]
    have c1 : PtrChain heap' s2.list_head (segFlat L) m1 := by
      rw [ptrChain_congr (fun q hq => Htail q (fun h => he_nL (h ▸ hq)) (fun h => hle_nL (h ▸ hq)))]
      exact hchL
    have c2 : PtrChain heap' m1 ps1 m3 := by
      rw [ptrChain_congr (fun q hq => Htail q (fun h => he_nps (h ▸ (by simp [hps, hq])))
        (fun h => hle_nps1 (h ▸ hq)))]
      exact hchps1
    have c3 : PtrChain heap' m3 [le] (some e) := by
      refine ⟨hm3, ?_⟩
      simp [Hle]
    have c4 : PtrChain heap' (some e) [e] m2 := by
      refine ⟨rfl, ?_⟩
      simp [He, hletail]
    have c5 : PtrChain heap' m2 (segFlat R) none := by
      rw [ptrChain_congr (fun q hq => Htail q (fun h => he_nR (h ▸ hq)) (fun h => hle_nR (h ▸ hq)))]
      exact hchR
    exact ptrChain_append c1 (ptrChain_append c2 (ptrChain_append c3 (ptrChain_append c4 c5)))
  -- nodup
  · show (segFlat (L ++ (k % s2.hash_size, ps ++ [e]) :: R)).Nodup
    have hperm : segFlat (L ++ (k % s2.hash_size, ps ++ [e]) :: R)
        = (segFlat L ++ ps) ++ e :: segFlat R := by
      simp [List.append_assoc]
    rw [hperm]
    have hperm2 : List.Perm ((segFlat L ++ ps) ++ e :: segFlat R)
        (e :: ((segFlat L ++ ps) ++ segFlat R)) := List.perm_middle
    refine hperm2.symm.nodup ?_
    refine List.nodup_cons.2 ⟨?_, ?_⟩
    · intro hin
      exact he1 (hflat_eq ▸ (by simpa [List.append_assoc] using hin))
    · have := hs.nodup
      rw [hflat_eq] at this
      simpa [List.append_assoc] using this
  -- bounded
  · intro p hp
    rcases mem_flat_insert_mid hp with h | rfl
    · exact hs.bounded p (hsegs ▸ h)
    · exact he3
  -- nonemptySegs
  · intro sg hsg
    rcases List.mem_append.1 hsg with h | h
    · exact hs.nonemptySegs sg (hsegs ▸ (by simp [h]))
    · rcases List.mem_cons.1 h with rfl | h2
      · simp
      · exact hs.nonemptySegs sg (hsegs ▸ (by simp [h2]))
  -- segKeys
  · intro sg hsg p hp
    show (heap' p).key % s2.hash_size = sg.1
    rcases List.mem_append.1 hsg with h | h
    · have hpf : p ∈ segFlat segs := mem_segFlat_of_mem (hsegs ▸ (by simp [h])) hp
      rw [Hkey p (fun hpe => he1 (hpe ▸ hpf))]
      exact hs.segKeys sg (hsegs ▸ (by simp [h])) p hp
    · rcases List.mem_cons.1 h with rfl | h2
      · rcases List.mem_append.1 hp with h3 | h3
        · have hpf : p ∈ segFlat segs := by rw [hflat_eq]; simp [h3]
          rw [Hkey p (fun hpe => he1 (hpe ▸ hpf))]
          exact hs.segKeys _ hmem_seg p h3
        · have : p = e := by simpa using h3
          subst this
          simp [He]
      · have hpf : p ∈ segFlat segs := mem_segFlat_of_mem (hsegs ▸ (by simp [h2])) hp
        rw [Hkey p (fun hpe => he1 (hpe ▸ hpf))]
        exact hs.segKeys sg (hsegs ▸ (by simp [h2])) p hp
  -- idxNodup
  · show (segIdxs (L ++ (k % s2.hash_size, ps ++ [e]) :: R)).Nodup
    simpa using hidx
  -- idxLt
  · intro sg hsg
    rcases List.mem_append.1 hsg with h | h
    · exact hs.idxLt sg (hsegs ▸ (by simp [h]))
    · rcases List.mem_cons.1 h with rfl | h2
      · simpa using hs.idxLt _ hmem_seg
      · exact hs.idxLt sg (hsegs ▸ (by simp [h2]))
  -- lastElem
  · intro sg hsg
    rcases List.mem_append.1 hsg with h | h
    · have hne2 : sg.1 ≠ k % s2.hash_size := fun hh => hiL (hh ▸ List.mem_map_of_mem Prod.fst h)
      show (Function.update s2.buckets (k % s2.hash_size) _ sg.1).last_elem = _
      rw [Function.update_noteq hne2]
      exact hs.lastElem sg (hsegs ▸ (by simp [h]))
    · rcases List.mem_cons.1 h with rfl | h2
      · show (Function.update s2.buckets (k % s2.hash_size) _ (k % s2.hash_size)).last_elem = _
        rw [Function.update_same]
        simp
      · have hne2 : sg.1 ≠ k % s2.hash_size := fun hh => hiR (hh ▸ List.mem_map_of_mem Prod.fst h2)
        show (Function.update s2.buckets (k % s2.hash_size) _ sg.1).last_elem = _
        rw [Function.update_noteq hne2]
        exact hs.lastElem sg (hsegs ▸ (by simp [h2]))
  -- inactive
  · intro j hj
    have hj0 : j ∉ segIdxs segs := by
      rw [hsegs]
      intro hin
      apply hj
      simpa using (by simpa using hin : j ∈ segIdxs L ++ k % s2.hash_size :: segIdxs R)
    have hjne : j ≠ k % s2.hash_size := by
      intro hh
      exact hj0 (hsegs ▸ (hh ▸ (by simp)))
    show (Function.update s2.buckets (k % s2.hash_size) _ j).last_elem = none
    rw [Function.update_noteq hjne]
    exact hs.inactive j hj0
  -- prevOk
  · have hcongr : ∀ j, (Function.update s2.buckets (k % s2.hash_size)
        ⟨(s2.buckets (k % s2.hash_size)).prev_bucket, some e⟩ j).prev_bucket
        = (s2.buckets j).prev_bucket := by
      intro j
      rcases eq_or_ne j (k % s2.hash_size) with rfl | hj
      · rw [Function.update_same]
      · rw [Function.update_noteq hj]
    show IdxChain _ none (segIdxs (L ++ (k % s2.hash_size, ps ++ [e]) :: R))
    have hidxeq : segIdxs (L ++ (k % s2.hash_size, ps ++ [e]) :: R) = segIdxs segs := by
      rw [hsegs]; simp
    rw [hidxeq, idxChain_congr (fun j _ => hcongr j)]
    exact hs.prevOk
  -- tailOk
  · show s2.bucket_list_tail = lastD none (segIdxs (L ++ (k % s2.hash_size, ps ++ [e]) :: R))
    have hidxeq : segIdxs (L ++ (k % s2.hash_size, ps ++ [e]) :: R) = segIdxs segs := by
      rw [hsegs]; simp
    rw [hidxeq]
    exact hs.tailOk
  -- hszLe
  · exact hs.hszLe
  -- heapBlocks
  · exact hs.heapBlocks
  -- freeChain
  · show PtrChain heap' s2.freed_head fr none
    rw [ptrChain_congr (fun q hq => Htail q (fun h => he2 (h ▸ hq))
      (fun h => (hs.freeDisj q hq) (h ▸ hle_flat)))]
    exact hs.freeChain
  -- freeNodup
  · exact hs.freeNodup
  -- freeBounded
  · exact hs.freeBounded
  -- freeDisj
  · intro p hp hin
    rcases mem_flat_insert_mid hin with h | rfl
    · exact hs.freeDisj p hp (hsegs ▸ h)
    · exact he2 hp

/-- Activating an empty bucket (empty-bucket branch of insertLink)
preserves the segment invariant: the new element forms a fresh one-element
segment appended at the end of the activation order. -/
theorem segsOk_insertLink_active {s2 : HashList V} {segs : List (Nat × List Nat)} {fr : List Nat}
    {k e : Nat} (v : V)
    (hs : SegsOk s2 segs fr) (hsz : 0 < s2.hash_size)
    (hmem : k % s2.hash_size ∉ segIdxs segs)
    (he1 : e ∉ segFlat segs) (he2 : e ∉ fr) (he3 : e < s2.heapSize) :
    SegsOk (s2.insertLink e k v) (segs ++ [(k % s2.hash_size, [e])]) fr := by
  have hlast : (s2.buckets (k % s2.hash_size)).last_elem = none := hs.inactive _ hmem
  rcases List.eq_nil_or_concat segs with rfl | ⟨segs0, tsg, hsegs⟩
  · -- the container is empty: the new element becomes the list head
    have htail : s2.bucket_list_tail = none := by simpa using hs.tailOk
    rw [insertLink_first_eq v hlast htail]
    have He : (Function.update s2.heap e ⟨k, v, none⟩) e = ⟨k, v, none⟩ :=
      Function.update_same _ _ _
    constructor
    · show PtrChain _ (some e) (segFlat [(k % s2.hash_size, [e])]) none
      refine ⟨rfl, ?_⟩
      simp [He]
    · simp
    · intro p hp
      have : p = e := by simpa using hp
      subst this
      exact he3
    · intro sg hsg
      have : sg = (k % s2.hash_size, [e]) := by simpa using hsg
      subst this
      simp
    · intro sg hsg p hp
      have hsge : sg = (k % s2.hash_size, [e]) := by simpa using hsg
      subst hsge
      have : p = e := by simpa using hp
      subst this
      simp [He]
    · simp
    · intro sg hsg
      have : sg = (k % s2.hash_size, [e]) := by simpa using hsg
      subst this
      exact Nat.mod_lt _ hsz
    · intro sg hsg
      have : sg = (k % s2.hash_size, [e]) := by simpa using hsg
      subst this
      show (Function.update s2.buckets (k % s2.hash_size) _ (k % s2.hash_size)).last_elem = _
      rw [Function.update_same]
      simp
    · intro j hj
      have hjne : j ≠ k % s2.hash_size := by
        intro hh
        exact hj (by simp [hh])
      show (Function.update s2.buckets (k % s2.hash_size) _ j).last_elem = none
      rw [Function.update_noteq hjne]
      exact hs.inactive j (by simp)
    · show IdxChain _ none (segIdxs [(k % s2.hash_size, [e])])
      refine ⟨?_, trivial⟩
      show (Function.update s2.buckets (k % s2.hash_size) ⟨none, some e⟩
        (k % s2.hash_size, [e]).1).prev_bucket = none
      simp
    · simp
    · exact hs.hszLe
    · exact hs.heapBlocks
    · show PtrChain (Function.update s2.heap e ⟨k, v, none⟩) s2.freed_head fr none
      have hagree : ∀ r ∈ fr,
          ((Function.update s2.heap e (⟨k, v, none⟩ : Elem V)) r).tail = (s2.heap r).tail := by
        intro r hr
        have hre : r ≠ e := fun h => he2 (h ▸ hr)
        rw [Function.update_noteq hre]
      rw [ptrChain_congr hagree]
      exact hs.freeChain
    · exact hs.freeNodup
    · exact hs.freeBounded
    · intro p hp hin
      have : p = e := by simpa using hin
      exact he2 (this ▸ hp)
  · -- the container already has active buckets
    rw [List.concat_eq_append] at hsegs
    subst hsegs
    have htail : s2.bucket_list_tail = some tsg.1 := by
      have := hs.tailOk
      simpa using this
    have htmem : tsg ∈ segs0 ++ [tsg] := by simp
    have hqne : tsg.2 ≠ [] := hs.nonemptySegs tsg htmem
    obtain ⟨qs, q, hq⟩ : ∃ qs q, tsg.2 = qs ++ [q] := by
      rcases List.eq_nil_or_concat tsg.2 with h | ⟨qs, q, h⟩
      · exact absurd h hqne
      · exact ⟨qs, q, by simpa [List.concat_eq_append] using h⟩
    have hlastt : (s2.buckets tsg.1).last_elem = some q := by
      have := hs.lastElem tsg htmem
      simpa [hq] using this
    have hq_flat : q ∈ segFlat (segs0 ++ [tsg]) := by simp [hq]
    have hneq : e ≠ q := fun h => he1 (h ▸ hq_flat)
    rw [insertLink_active_eq v hlast htail hlastt hneq]
    set heap' := Function.update (Function.update s2.heap e ⟨k, v, none⟩) q
        { s2.heap q with tail := some e } with hheap'
    have Hq : heap' q = { s2.heap q with tail := some e } := by simp [hheap']
    have He : heap' e = ⟨k, v, none⟩ := by
      simp [hheap', Function.update_noteq hneq]
    have Hother : ∀ r, r ≠ e → r ≠ q → heap' r = s2.heap r := by
      intro r hr1 hr2
      simp [hheap', Function.update_noteq hr1, Function.update_noteq hr2]
    have Hkey : ∀ r, r ≠ e → (heap' r).key = (s2.heap r).key := by
      intro r hr
      rcases eq_or_ne r q with rfl | hr2
      · rw [Hq]
      · rw [Hother r hr hr2]
    have Htail : ∀ r, r ≠ e → r ≠ q → (heap' r).tail = (s2.heap r).tail := by
      intro r hr1 hr2
      rw [Hother r hr1 hr2]
    have hflat_eq : segFlat (segs0 ++ [tsg]) = (segFlat segs0 ++ qs) ++ [q] := by
      simp [hq, List.append_assoc]
    have hq_npre : q ∉ segFlat segs0 ++ qs := by
      have := hs.nodup
      rw [hflat_eq] at this
      rcases List.nodup_append.1 this with ⟨-, -, hd⟩
      intro hin
      exact hd hin (by simp)
    have hch : PtrChain s2.heap s2.list_head ((segFlat segs0 ++ qs) ++ [q]) none := by
      have := hs.chain
      rwa [hflat_eq] at this
    obtain ⟨m1, hchA, hchQ⟩ := ptrChain_append_iff.1 hch
    have hm1 : m1 = some q := hchQ.1
    constructor
    · show PtrChain heap' s2.list_head (segFlat ((segs0 ++ [tsg]) ++ [(k % s2.hash_size, [e])])) none
      have hgoal : segFlat ((segs0 ++ [tsg]) ++ [(k % s2.hash_size, [e])])
          = (segFlat segs0 ++ qs) ++ ([q] ++ [e]) := by
        simp [hq, List.append_assoc]
      rw [hgoal]
      have hpre_sub : ∀ r ∈ segFlat segs0 ++ qs, r ∈ segFlat (segs0 ++ [tsg]) := by
        intro r hr
        rw [hflat_eq]
        exact List.mem_append.2 (Or.inl hr)
      have c1 : PtrChain heap' s2.list_head (segFlat segs0 ++ qs) m1 := by
        rw [ptrChain_congr (fun r hr => Htail r
          (fun h => he1 (h ▸ hpre_sub r hr))
          (fun h => hq_npre (h ▸ hr)))]
        exact hchA
      have c2 : PtrChain heap' m1 [q] (some e) := by
        refine ⟨hm1, ?_⟩
        simp [Hq]
      have c3 : PtrChain heap' (some e) [e] none := by
        refine ⟨rfl, ?_⟩
        simp [He]
      exact ptrChain_append c1 (ptrChain_append c2 c3)
    · show (segFlat ((segs0 ++ [tsg]) ++ [(k % s2.hash_size, [e])])).Nodup
      have hgoal : segFlat ((segs0 ++ [tsg]) ++ [(k % s2.hash_size, [e])])
          = segFlat (segs0 ++ [tsg]) ++ [e] := by simp
      rw [hgoal]
      refine List.nodup_append.2 ⟨hs.nodup, by simp, ?_⟩
      intro a ha hb
      have : a = e := by simpa using hb
      exact he1 (this ▸ ha)
    · intro p hp
      have hp2 : p ∈ segFlat (segs0 ++ [tsg]) ++ [e] := by simpa using hp
      rcases List.mem_append.1 hp2 with h | h
      · exact hs.bounded p h
      · have : p = e := by simpa using h
        subst this
        exact he3
    · intro sg hsg
      rcases List.mem_append.1 hsg with h | h
      · exact hs.nonemptySegs sg h
      · have : sg = (k % s2.hash_size, [e]) := by simpa using h
        subst this
        simp
    · intro sg hsg p hp
      show (heap' p).key % s2.hash_size = sg.1
      rcases List.mem_append.1 hsg with h | h
      · have hpf : p ∈ segFlat (segs0 ++ [tsg]) := mem_segFlat_of_mem h hp
        rw [Hkey p (fun hpe => he1 (hpe ▸ hpf))]
        exact hs.segKeys sg h p hp
      · have hsge : sg = (k % s2.hash_size, [e]) := by simpa using h
        subst hsge
        have : p = e := by simpa using hp
        subst this
        simp [He]
    · show (segIdxs ((segs0 ++ [tsg]) ++ [(k % s2.hash_size, [e])])).Nodup
      have hgoal : segIdxs ((segs0 ++ [tsg]) ++ [(k % s2.hash_size, [e])])
          = segIdxs (segs0 ++ [tsg]) ++ [k % s2.hash_size] := by simp
      rw [hgoal]
      refine List.nodup_append.2 ⟨hs.idxNodup, by simp, ?_⟩
      intro a ha hb
      have : a = k % s2.hash_size := by simpa using hb
      exact hmem (this ▸ ha)
    · intro sg hsg
      rcases List.mem_append.1 hsg with h | h
      · exact hs.idxLt sg h
      · have : sg = (k % s2.hash_size, [e]) := by simpa using h
        subst this
        exact Nat.mod_lt _ hsz
    · intro sg hsg
      rcases List.mem_append.1 hsg with h | h
      · have hne2 : sg.1 ≠ k % s2.hash_size := fun hh =>
          hmem (hh ▸ List.mem_map_of_mem Prod.fst h)
        show (Function.update s2.buckets (k % s2.hash_size) _ sg.1).last_elem = _
        rw [Function.update_noteq hne2]
        exact hs.lastElem sg h
      · have : sg = (k % s2.hash_size, [e]) := by simpa using h
        subst this
        show (Function.update s2.buckets (k % s2.hash_size) _ (k % s2.hash_size)).last_elem = _
        rw [Function.update_same]
        simp
    · intro j hj
      have hjne : j ≠ k % s2.hash_size := by
        intro hh
        exact hj (by simp [hh])
      have hj0 : j ∉ segIdxs (segs0 ++ [tsg]) := by
        intro hin
        apply hj
        have h2 : j ∈ segIdxs (segs0 ++ [tsg]) ++ [k % s2.hash_size] :=
          List.mem_append.2 (Or.inl hin)
        simpa using h2
      show (Function.update s2.buckets (k % s2.hash_size) _ j).last_elem = none
      rw [Function.update_noteq hjne]
      exact hs.inactive j hj0
    · show IdxChain _ none (segIdxs ((segs0 ++ [tsg]) ++ [(k % s2.hash_size, [e])]))
      have hgoal : segIdxs ((segs0 ++ [tsg]) ++ [(k % s2.hash_size, [e])])
          = segIdxs (segs0 ++ [tsg]) ++ [k % s2.hash_size] := by simp
      rw [hgoal]
      refine idxChain_append_iff.2 ⟨?_, ?_⟩
      · have hagree2 : ∀ j ∈ segIdxs (segs0 ++ [tsg]),
            ((Function.update s2.buckets (k % s2.hash_size)
              (⟨some tsg.1, some e⟩ : HashBucket)) j).prev_bucket
            = (s2.buckets j).prev_bucket := by
          intro j hj
          have hjn : j ≠ k % s2.hash_size := fun h => hmem (h ▸ hj)
          rw [Function.update_noteq hjn]
        rw [idxChain_congr hagree2]
        exact hs.prevOk
      · refine ⟨?_, trivial⟩
        show (Function.update s2.buckets (k % s2.hash_size)
            (⟨some tsg.1, some e⟩ : HashBucket) (k % s2.hash_size, [e]).1).prev_bucket
            = lastD none (segIdxs (segs0 ++ [tsg]))
        have hfst : ((k % s2.hash_size, [e]) : Nat × List Nat).1 = k % s2.hash_size := rfl
        rw [hfst, Function.update_same, ← hs.tailOk, htail]
    · show some (k % s2.hash_size) = lastD none (segIdxs ((segs0 ++ [tsg]) ++ [(k % s2.hash_size, [e])]))
      have hgoal : segIdxs ((segs0 ++ [tsg]) ++ [(k % s2.hash_size, [e])])
          = segIdxs (segs0 ++ [tsg]) ++ [k % s2.hash_size] := by simp
      rw [hgoal, lastD_concat]
    · exact hs.hszLe
    · exact hs.heapBlocks
    · show PtrChain heap' s2.freed_head fr none
      rw [ptrChain_congr (fun r hr => Htail r (fun h => he2 (h ▸ hr))
        (fun h => (hs.freeDisj r hr) (h ▸ hq_flat)))]
      exact hs.freeChain
    · exact hs.freeNodup
    · exact hs.freeBounded
    · intro p hp hin
      have hin2 : p ∈ segFlat (segs0 ++ [tsg]) ++ [e] := by simpa using hin
      rcases List.mem_append.1 hin2 with h | h
      · exact hs.freeDisj p hp h
      · have : p = e := by simpa using h
        exact he2 (this ▸ hp)

/-- The consecutive pointers a, a+1, ..., a+n-1 (a freshly threaded pool
block's free list). -/
def consecPtrs (a n : Nat) : List Nat := (List.range n).map (a + ·)

theorem consecPtrs_succ (a n : Nat) : consecPtrs a (n + 1) = a :: consecPtrs (a + 1) n := by
  unfold consecPtrs
  rw [List.range_succ_eq_map, List.map_cons, List.map_map]
  refine congrArg₂ _ (by omega) ?_
  refine List.map_congr_left ?_
  intro j _
  simp [Function.comp]
  omega

theorem mem_consecPtrs {a n x : Nat} : x ∈ consecPtrs a n ↔ a ≤ x ∧ x < a + n := by
  unfold consecPtrs
  simp only [List.mem_map, List.mem_range]
  constructor
  · rintro ⟨j, hj, rfl⟩
    omega
  · rintro ⟨h1, h2⟩
    exact ⟨x - a, by omega, by omega⟩

theorem nodup_consecPtrs (a n : Nat) : (consecPtrs a n).Nodup := by
  unfold consecPtrs
  refine List.Nodup.map ?_ (List.nodup_range n)
  intro x y h
  exact Nat.add_left_cancel h

/-- A freshly threaded block region forms a nil-terminated pointer chain.
-/
theorem ptrChain_consec {h : Nat → Elem V} {a n bnd : Nat}
    (hn : 0 < n) (hbnd : a + n = bnd)
    (htails : ∀ j, a ≤ j → j < bnd → (h j).tail = if j + 1 < bnd then some (j + 1) else none) :
    PtrChain h (some a) (consecPtrs a n) none := by
  induction n generalizing a with
  | zero => omega
  | succ m ih =>
    rw [consecPtrs_succ]
    refine ⟨rfl, ?_⟩
    have hta := htails a (le_refl a) (by omega)
    cases m with
    | zero =>
      rw [hta, if_neg (by omega)]
      simp [consecPtrs]
    | succ m2 =>
      rw [hta, if_pos (by omega)]
      exact ih (by omega) (by omega) (fun j hj1 hj2 => htails j (by omega) hj2)

/-- The free list left after New consumes one node: the tail of the free
list if it was non-empty, otherwise the remainder of the fresh block. -/
def newFr (s : HashList V) (fr : List Nat) : List Nat :=
  match fr with
  | _ :: fr2 => fr2
  | [] => consecPtrs (s.heapSize + 1) (allocate_block_size - 1)

/-- New with a non-empty free list pops its head and changes nothing
else. -/
theorem segsOk_new_pop {s : HashList V} [Inhabited V] {segs : List (Nat × List Nat)}
    {p : Nat} {fr2 : List Nat} (hs : SegsOk s segs (p :: fr2)) :
    (s.New).2 = p ∧
    (s.New).1 = { s with freed_head := (s.heap p).tail } ∧
    SegsOk (s.New).1 segs fr2 ∧
    p ∉ segFlat segs ∧ p ∉ fr2 ∧ p < s.heapSize := by
  have hfh : s.freed_head = some p := hs.freeChain.1
  have hnew : s.New = ({ s with freed_head := (s.heap p).tail }, p) := by
    simp [HashList.New, hfh]
  have hnf : p ∉ fr2 := (List.nodup_cons.1 hs.freeNodup).1
  have hnflat : p ∉ segFlat segs := hs.freeDisj p (by simp)
  have hplt : p < s.heapSize := hs.freeBounded p (by simp)
  refine ⟨by rw [hnew], by rw [hnew], ?_, hnflat, hnf, hplt⟩
  rw [hnew]
  exact { chain := hs.chain, nodup := hs.nodup, bounded := hs.bounded,
          nonemptySegs := hs.nonemptySegs, segKeys := hs.segKeys,
          idxNodup := hs.idxNodup, idxLt := hs.idxLt, lastElem := hs.lastElem,
          inactive := hs.inactive, prevOk := hs.prevOk, tailOk := hs.tailOk,
          hszLe := hs.hszLe, heapBlocks := hs.heapBlocks,
          freeChain := hs.freeChain.2,
          freeNodup := (List.nodup_cons.1 hs.freeNodup).2,
          freeBounded := fun q hq => hs.freeBounded q (by simp [hq]),
          freeDisj := fun q hq => hs.freeDisj q (by simp [hq]) }

set_option maxRecDepth 4000 in
/-- New with an empty free list allocates one block of
allocate_block_size fresh elements, records its base address, threads the
block into the free list and pops the block's first element. -/
theorem segsOk_new_block {s : HashList V} [Inhabited V] {segs : List (Nat × List Nat)}
    (hs : SegsOk s segs []) :
    (s.New).2 = s.heapSize ∧
    SegsOk (s.New).1 segs (newFr s []) ∧
    s.heapSize ∉ segFlat segs ∧ s.heapSize ∉ newFr s [] ∧
    s.heapSize < (s.New).1.heapSize ∧
    (∀ q, q < s.heapSize → (s.New).1.heap q = s.heap q) ∧
    (s.New).1.list_head = s.list_head ∧
    (s.New).1.bucket_list_tail = s.bucket_list_tail ∧
    (s.New).1.hash_size = s.hash_size ∧
    (s.New).1.buckets = s.buckets ∧
    (s.New).1.bucketsSize = s.bucketsSize ∧
    (s.New).1.heapSize = s.heapSize + allocate_block_size ∧
    (s.New).1.allocated = s.allocated ++ [s.heapSize] := by
  have hfh : s.freed_head = none := hs.freeChain
  have habs : (1 : Nat) < allocate_block_size := by norm_num [allocate_block_size]
  set base := s.heapSize with hbase
  set heap2 : Nat → Elem V := fun i =>
    if base ≤ i ∧ i < base + allocate_block_size then
      ⟨0, default, if i + 1 < base + allocate_block_size then some (i + 1) else none⟩
    else s.heap i with hheap2
  have hnew : s.New = ({ s with heap := heap2,
                                heapSize := base + allocate_block_size,
                                allocated := s.allocated ++ [base],
                                freed_head := (heap2 base).tail }, base) := by
    simp only [HashList.New, hfh]
  have hlow : ∀ q, q < base → heap2 q = s.heap q := by
    intro q hq
    simp only [hheap2]
    rw [if_neg (by omega)]
  have hblocktails : ∀ j, base ≤ j → j < base + allocate_block_size →
      (heap2 j).tail = if j + 1 < base + allocate_block_size then some (j + 1) else none := by
    intro j h1 h2
    simp only [hheap2]
    rw [if_pos ⟨h1, h2⟩]
  have hfirst : (heap2 base).tail = some (base + 1) := by
    rw [hblocktails base (le_refl base) (by omega), if_pos (by omega)]
  have hfr2 : newFr s [] = consecPtrs (base + 1) (allocate_block_size - 1) := rfl
  have hfreechain2 : PtrChain heap2 (some (base + 1)) (consecPtrs (base + 1) (allocate_block_size - 1)) none := by
    have hb : (base + 1) + (allocate_block_size - 1) = base + allocate_block_size := by omega
    refine ptrChain_consec (by omega) hb ?_
    intro j h1 h2
    exact hblocktails j (by omega) h2
  have hflatlow : ∀ q ∈ segFlat segs, q < base := hs.bounded
  have hagree : ∀ q ∈ segFlat segs, (heap2 q).tail = (s.heap q).tail := by
    intro q hq
    rw [hlow q (hflatlow q hq)]
  refine ⟨by rw [hnew], ?_, fun hin => by have := hflatlow _ hin; omega,
    fun hin => by have := (mem_consecPtrs.1 (hfr2 ▸ hin)).1; omega,
    by rw [hnew]; show base < base + allocate_block_size; omega,
    by rw [hnew]; exact hlow,
    by rw [hnew], by rw [hnew], by rw [hnew], by rw [hnew], by rw [hnew],
    by rw [hnew], by rw [hnew]⟩
  rw [hnew]
  refine { chain := ?_, nodup := hs.nodup, bounded := ?_,
           nonemptySegs := hs.nonemptySegs, segKeys := ?_,
           idxNodup := hs.idxNodup, idxLt := hs.idxLt, lastElem := hs.lastElem,
           inactive := hs.inactive, prevOk := hs.prevOk, tailOk := hs.tailOk,
           hszLe := hs.hszLe, heapBlocks := ?_,
           freeChain := ?_, freeNodup := ?_, freeBounded := ?_, freeDisj := ?_ }
  · show PtrChain heap2 s.list_head (segFlat segs) none
    rw [ptrChain_congr hagree]
    exact hs.chain
  · intro q hq
    show q < base + allocate_block_size
    have := hflatlow q hq
    omega
  · intro sg hsg q hq
    show (heap2 q).key % s.hash_size = sg.1
    rw [hlow q (hflatlow q (mem_segFlat_of_mem hsg hq))]
    exact hs.segKeys sg hsg q hq
  · show base + allocate_block_size = allocate_block_size * (s.allocated ++ [base]).length
    have hhb := hs.heapBlocks
    simp only [List.length_append, List.length_cons, List.length_nil]
    rw [Nat.mul_add, Nat.mul_one, ← hhb, hbase]
  · show PtrChain heap2 (heap2 base).tail (newFr s []) none
    rw [hfirst, hfr2]
    exact hfreechain2
  · show (newFr s []).Nodup
    rw [hfr2]
    exact nodup_consecPtrs _ _
  · intro q hq
    show q < base + allocate_block_size
    have := mem_consecPtrs.1 (hfr2 ▸ hq)
    omega
  · intro q hq hin
    have h1 := (mem_consecPtrs.1 (hfr2 ▸ hq)).1
    have := hflatlow q hin
    omega

/-- Combined description of New: the invariant carries over with the free
list shrunk (or replaced by the fresh block's remainder), the returned
node is fresh, and all other state components are untouched. -/
theorem new_all {s : HashList V} [Inhabited V] {segs : List (Nat × List Nat)} {fr : List Nat}
    (hs : SegsOk s segs fr) :
    SegsOk (s.New).1 segs (newFr s fr) ∧
    (s.New).2 ∉ segFlat segs ∧ (s.New).2 ∉ newFr s fr ∧ (s.New).2 < (s.New).1.heapSize ∧
    (∀ q ∈ segFlat segs, (s.New).1.heap q = s.heap q) ∧
    (s.New).1.list_head = s.list_head ∧ (s.New).1.bucket_list_tail = s.bucket_list_tail ∧
    (s.New).1.hash_size = s.hash_size ∧ (s.New).1.buckets = s.buckets ∧
    (s.New).1.bucketsSize = s.bucketsSize ∧
    (s.New).1.allocated = s.allocated ++ (if fr = [] then [s.heapSize] else []) := by
  cases fr with
  | cons p fr2 =>
    obtain ⟨he, hst, hok, hnf, hnf2, hlt⟩ := segsOk_new_pop hs
    rw [hst] at hok
    rw [hst, he]
    exact ⟨hok, hnf, hnf2, hlt, fun q _ => rfl, rfl, rfl, rfl, rfl, rfl, by simp⟩
  | nil =>
    obtain ⟨he, hok, hnf, hnf2, hlt, hlow, h1, h2, h3, h4, h5, h6, h7⟩ := segsOk_new_block hs
    rw [he]
    refine ⟨hok, hnf, hnf2, hlt, ?_, h1, h2, h3, h4, h5, by rw [h7]; simp⟩
    intro q hq
    exact hlow q (hs.bounded q hq)

/-- Key/value bookkeeping of the occupied-bucket branch of insertLink. -/
theorem insertLink_occupied_kv {s2 : HashList V} {e k le : Nat} (v : V)
    (hlast : (s2.buckets (k % s2.hash_size)).last_elem = some le) (hne : e ≠ le) :
    (∀ q, q ≠ e → ((s2.insertLink e k v).heap q).key = (s2.heap q).key ∧
      ((s2.insertLink e k v).heap q).val = (s2.heap q).val) ∧
    ((s2.insertLink e k v).heap e).key = k ∧ ((s2.insertLink e k v).heap e).val = v ∧
    (s2.insertLink e k v).hash_size = s2.hash_size ∧
    (s2.insertLink e k v).heapSize = s2.heapSize ∧
    (s2.insertLink e k v).allocated = s2.allocated := by
  rw [insertLink_occupied_eq v hlast hne]
  refine ⟨?_, ?_, ?_, rfl, rfl, rfl⟩
  · intro q hq
    rcases eq_or_ne q le with rfl | hq2
    · constructor <;> simp
    · constructor <;> simp [Function.update_noteq hq2, Function.update_noteq hq]
  · simp [Function.update_noteq hne]
  · simp [Function.update_noteq hne]

/-- Key/value bookkeeping of the empty-bucket branch of insertLink with a
non-empty container. -/
theorem insertLink_active_kv {s2 : HashList V} {e k t q0 : Nat} (v : V)
    (hlast : (s2.buckets (k % s2.hash_size)).last_elem = none)
    (htail : s2.bucket_list_tail = some t)
    (hlastt : (s2.buckets t).last_elem = some q0) (hne : e ≠ q0) :
    (∀ q, q ≠ e → ((s2.insertLink e k v).heap q).key = (s2.heap q).key ∧
      ((s2.insertLink e k v).heap q).val = (s2.heap q).val) ∧
    ((s2.insertLink e k v).heap e).key = k ∧ ((s2.insertLink e k v).heap e).val = v ∧
    (s2.insertLink e k v).hash_size = s2.hash_size ∧
    (s2.insertLink e k v).heapSize = s2.heapSize ∧
    (s2.insertLink e k v).allocated = s2.allocated := by
  rw [insertLink_active_eq v hlast htail hlastt hne]
  refine ⟨?_, ?_, ?_, rfl, rfl, rfl⟩
  · intro q hq
    rcases eq_or_ne q q0 with rfl | hq2
    · constructor <;> simp
    · constructor <;> simp [Function.update_noteq hq2, Function.update_noteq hq]
  · simp [Function.update_noteq hne]
  · simp [Function.update_noteq hne]

/-- Key/value bookkeeping of the empty-bucket branch of insertLink on an
empty container. -/
theorem insertLink_first_kv {s2 : HashList V} {e k : Nat} (v : V)
    (hlast : (s2.buckets (k % s2.hash_size)).last_elem = none)
    (htail : s2.bucket_list_tail = none) :
    (∀ q, q ≠ e → ((s2.insertLink e k v).heap q).key = (s2.heap q).key ∧
      ((s2.insertLink e k v).heap q).val = (s2.heap q).val) ∧
    ((s2.insertLink e k v).heap e).key = k ∧ ((s2.insertLink e k v).heap e).val = v ∧
    (s2.insertLink e k v).hash_size = s2.hash_size ∧
    (s2.insertLink e k v).heapSize = s2.heapSize ∧
    (s2.insertLink e k v).allocated = s2.allocated := by
  rw [insertLink_first_eq v hlast htail]
  refine ⟨?_, by simp, by simp, rfl, rfl, rfl⟩
  intro q hq
  constructor <;> simp [Function.update_noteq hq]

/-- The effect of a full Insert on the segment invariant: a fresh node e
carrying (k, v) is appended to the segment of k's bucket (or starts that
bucket's segment), every other stored key/value pair is untouched, and a
pool block is allocated exactly when the free list was empty. -/
theorem segsOk_Insert {s : HashList V} [Inhabited V] {segs : List (Nat × List Nat)} {fr : List Nat}
    (hs : SegsOk s segs fr) (k : Nat) (v : V) (hsz : 0 < s.hash_size) :
    ∃ e segs',
      SegsOk (s.Insert k v) segs' (newFr s fr) ∧
      e ∉ segFlat segs ∧
      ((s.Insert k v).heap e).key = k ∧
      ((s.Insert k v).heap e).val = v ∧
      (∀ q ∈ segFlat segs, ((s.Insert k v).heap q).key = (s.heap q).key ∧
        ((s.Insert k v).heap q).val = (s.heap q).val) ∧
      (s.Insert k v).hash_size = s.hash_size ∧
      (s.Insert k v).allocated = s.allocated ++ (if fr = [] then [s.heapSize] else []) ∧
      ((k % s.hash_size ∉ segIdxs segs ∧ segs' = segs ++ [(k % s.hash_size, [e])]) ∨
       (∃ L ps R, segs = L ++ (k % s.hash_size, ps) :: R ∧ k % s.hash_size ∉ segIdxs L ∧
         k % s.hash_size ∉ segIdxs R ∧ segs' = L ++ (k % s.hash_size, ps ++ [e]) :: R)) := by
  obtain ⟨hok2, hnf, hnf2, hlt, hheap, hlh, hbt, hhsz, hbk, hbsz, hal⟩ := new_all hs
  have hins : s.Insert k v = HashList.insertLink (s.New).1 (s.New).2 k v := rfl
  have hmod : k % (s.New).1.hash_size = k % s.hash_size := by rw [hhsz]
  by_cases hmem : k % s.hash_size ∈ segIdxs segs
  · obtain ⟨L, ps, R, hsegs, hiL, hiR, -⟩ := segs_split hs.idxNodup hmem
    have hsegs2 : segs = L ++ (k % (s.New).1.hash_size, ps) :: R := by rw [hmod]; exact hsegs
    have hokIns := segsOk_insertLink_occupied v hok2 hsegs2 hnf hnf2 hlt
    rw [hmod] at hokIns
    have hmem2 : (k % (s.New).1.hash_size, ps) ∈ segs := hsegs2 ▸ (by simp)
    have hpsne : ps ≠ [] := hok2.nonemptySegs _ hmem2
    obtain ⟨ps1, le, hps⟩ : ∃ ps1 le, ps = ps1 ++ [le] := by
      rcases List.eq_nil_or_concat ps with h | ⟨ps1, le, h⟩
      · exact absurd h hpsne
      · exact ⟨ps1, le, by simpa [List.concat_eq_append] using h⟩
    have hlast : ((s.New).1.buckets (k % (s.New).1.hash_size)).last_elem = some le := by
      have := hok2.lastElem _ hmem2
      simpa [hps] using this
    have hle_flat : le ∈ segFlat segs := by
      rw [hsegs]
      simp [hps]
    have hne : (s.New).2 ≠ le := fun h => hnf (h ▸ hle_flat)
    obtain ⟨hkv1, hkv2, hkv3, hkv4, hkv5, hkv6⟩ := insertLink_occupied_kv v hlast hne
    refine ⟨(s.New).2, L ++ (k % s.hash_size, ps ++ [(s.New).2]) :: R,
      hins ▸ hokIns, hnf, hins ▸ hkv2, hins ▸ hkv3, ?_, ?_, ?_,
      Or.inr ⟨L, ps, R, hsegs, hiL, hiR, rfl⟩⟩
    · intro q hq
      have hqe : q ≠ (s.New).2 := fun h => hnf (h ▸ hq)
      rw [hins]
      rcases hkv1 q hqe with ⟨ha, hb⟩
      rw [ha, hb, hheap q hq]
      exact ⟨rfl, rfl⟩
    · rw [hins, hkv4, hhsz]
    · rw [hins, hkv6, hal]
  · have hmem2 : k % (s.New).1.hash_size ∉ segIdxs segs := by rw [hmod]; exact hmem
    have hsz2 : 0 < (s.New).1.hash_size := by rw [hhsz]; exact hsz
    have hokIns := segsOk_insertLink_active v hok2 hsz2 hmem2 hnf hnf2 hlt
    rw [hmod] at hokIns
    have hlast : ((s.New).1.buckets (k % (s.New).1.hash_size)).last_elem = none :=
      hok2.inactive _ hmem2
    have hkvs : (∀ q, q ≠ (s.New).2 →
        (((s.New).1.insertLink (s.New).2 k v).heap q).key = ((s.New).1.heap q).key ∧
        (((s.New).1.insertLink (s.New).2 k v).heap q).val = ((s.New).1.heap q).val) ∧
        (((s.New).1.insertLink (s.New).2 k v).heap (s.New).2).key = k ∧
        (((s.New).1.insertLink (s.New).2 k v).heap (s.New).2).val = v ∧
        ((s.New).1.insertLink (s.New).2 k v).hash_size = (s.New).1.hash_size ∧
        ((s.New).1.insertLink (s.New).2 k v).heapSize = (s.New).1.heapSize ∧
        ((s.New).1.insertLink (s.New).2 k v).allocated = (s.New).1.allocated := by
      rcases List.eq_nil_or_concat segs with rfl | ⟨segs0, tsg, hsegs⟩
      · have htail : (s.New).1.bucket_list_tail = none := by simpa using hok2.tailOk
        exact insertLink_first_kv v hlast htail
      · rw [List.concat_eq_append] at hsegs
        subst hsegs
        have htail : (s.New).1.bucket_list_tail = some tsg.1 := by
          have := hok2.tailOk
          simpa using this
        have htmem : tsg ∈ segs0 ++ [tsg] := by simp
        have hqne : tsg.2 ≠ [] := hok2.nonemptySegs tsg htmem
        obtain ⟨qs, q0, hq⟩ : ∃ qs q0, tsg.2 = qs ++ [q0] := by
          rcases List.eq_nil_or_concat tsg.2 with h | ⟨qs, q0, h⟩
          · exact absurd h hqne
          · exact ⟨qs, q0, by simpa [List.concat_eq_append] using h⟩
        have hlastt : ((s.New).1.buckets tsg.1).last_elem = some q0 := by
          have := hok2.lastElem tsg htmem
          simpa [hq] using this
        have hq_flat : q0 ∈ segFlat (segs0 ++ [tsg]) := by simp [hq]
        have hne : (s.New).2 ≠ q0 := fun h => hnf (h ▸ hq_flat)
        exact insertLink_active_kv v hlast htail hlastt hne
    obtain ⟨hkv1, hkv2, hkv3, hkv4, hkv5, hkv6⟩ := hkvs
    refine ⟨(s.New).2, segs ++ [(k % s.hash_size, [(s.New).2])],
      hins ▸ hokIns, hnf, hins ▸ hkv2, hins ▸ hkv3, ?_, ?_, ?_,
      Or.inl ⟨hmem, rfl⟩⟩
    · intro q hq
      have hqe : q ≠ (s.New).2 := fun h => hnf (h ▸ hq)
      rw [hins]
      rcases hkv1 q hqe with ⟨ha, hb⟩
      rw [ha, hb, hheap q hq]
      exact ⟨rfl, rfl⟩
    · rw [hins, hkv4, hhsz]
    · rw [hins, hkv6, hal]

/-- The bucket-resetting walk of Clear clears exactly the buckets on the
active list and preserves every prev_bucket link. -/
theorem clearBuckets_spec {bk : Nat → HashBucket} {idxs : List Nat}
    (hchain : IdxChain bk none idxs) (hnd : idxs.Nodup) :
    ∀ fuel, idxs.length ≤ fuel →
    ∀ j, (clearBuckets bk (lastD none idxs) fuel j).last_elem
          = (if j ∈ idxs then none else (bk j).last_elem) ∧
        (clearBuckets bk (lastD none idxs) fuel j).prev_bucket = (bk j).prev_bucket := by
  induction idxs using List.reverseRecOn generalizing bk with
  | nil =>
    intro fuel hf j
    cases fuel <;> simp [clearBuckets]
  | append_singleton idxs0 t ih =>
    intro fuel hf j
    have hlen : idxs0.length + 1 ≤ fuel := by simpa using hf
    obtain ⟨f, rfl⟩ : ∃ f, fuel = f + 1 := ⟨fuel - 1, by omega⟩
    have hsplit := idxChain_append_iff.1 hchain
    have hprevt : (bk t).prev_bucket = lastD none idxs0 := hsplit.2.1
    have hnd0 : idxs0.Nodup := (List.nodup_append.1 hnd).1
    have htn : t ∉ idxs0 := by
      rcases List.nodup_append.1 hnd with ⟨-, -, hd⟩
      intro hin
      exact hd hin (by simp)
    have hstep : clearBuckets bk (lastD none (idxs0 ++ [t])) (f + 1)
        = clearBuckets (Function.update bk t ⟨(bk t).prev_bucket, none⟩) ((bk t).prev_bucket) f := by
      rw [lastD_concat]
      rfl
    set bk2 := Function.update bk t (⟨(bk t).prev_bucket, none⟩ : HashBucket) with hbk2
    have hprev2 : ∀ i, (bk2 i).prev_bucket = (bk i).prev_bucket := by
      intro i
      rcases eq_or_ne i t with rfl | hi
      · simp [hbk2]
      · simp [hbk2, Function.update_noteq hi]
    have hchain2 : IdxChain bk2 none idxs0 := by
      rw [idxChain_congr (fun i _ => hprev2 i)]
      exact hsplit.1
    have ih2 := ih hchain2 hnd0 f (by omega)
    rw [hstep, hprevt]
    rcases ih2 j with ⟨ihl, ihp⟩
    constructor
    · rw [ihl]
      by_cases hj0 : j ∈ idxs0
      · rw [if_pos hj0, if_pos (by simp [hj0])]
      · rcases eq_or_ne j t with rfl | hjt
        · rw [if_neg hj0, if_pos (by simp)]
          simp [hbk2]
        · rw [if_neg hj0, if_neg (by simp [hj0, hjt])]
          simp [hbk2, Function.update_noteq hjt]
    · rw [ihp, hprev2 j]

/-- Clear resets the hash part: afterwards the invariant holds with no
segments, while the heap (hence the detached chain) and the free list are
unchanged. -/
theorem segsOk_Clear {s : HashList V} {segs : List (Nat × List Nat)} {fr : List Nat}
    (hs : SegsOk s segs fr) :
    SegsOk (s.Clear).1 [] fr ∧
    (s.Clear).2 = s.list_head ∧
    (s.Clear).1.heap = s.heap ∧
    (s.Clear).1.hash_size = s.hash_size ∧
    (s.Clear).1.heapSize = s.heapSize ∧
    (s.Clear).1.allocated = s.allocated ∧
    (s.Clear).1.freed_head = s.freed_head ∧
    (s.Clear).1.bucketsSize = s.bucketsSize := by
  have hlen : (segIdxs segs).length ≤ s.bucketsSize := by
    refine le_trans (length_le_of_nodup_lt hs.idxNodup ?_) hs.hszLe
    intro x hx
    obtain ⟨sg, hsg, rfl⟩ := List.mem_map.1 hx
    exact hs.idxLt sg hsg
  have hbspec := clearBuckets_spec hs.prevOk hs.idxNodup s.bucketsSize hlen
  refine ⟨?_, rfl, rfl, rfl, rfl, rfl, rfl, rfl⟩
  refine { chain := rfl, nodup := List.nodup_nil, bounded := by simp [segFlat],
           nonemptySegs := by simp, segKeys := by simp,
           idxNodup := List.nodup_nil, idxLt := by simp,
           lastElem := by simp, inactive := ?_,
           prevOk := trivial, tailOk := rfl,
           hszLe := hs.hszLe, heapBlocks := hs.heapBlocks,
           freeChain := hs.freeChain, freeNodup := hs.freeNodup,
           freeBounded := hs.freeBounded, freeDisj := by simp [segFlat] }
  intro j _
  show (clearBuckets s.buckets s.bucket_list_tail s.bucketsSize j).last_elem = none
  rw [hs.tailOk]
  rcases (hbspec j).1 with h
  rw [h]
  by_cases hj : j ∈ segIdxs segs
  · rw [if_pos hj]
  · rw [if_neg hj]
    exact hs.inactive j hj

/-- Delete pushes a caller-owned node (outside the stored list and the
free list) onto the free list and touches nothing else of the hash
structure. -/
theorem segsOk_Delete {s : HashList V} {segs : List (Nat × List Nat)} {fr : List Nat}
    (hs : SegsOk s segs fr) {p : Nat}
    (hp1 : p < s.heapSize) (hp2 : p ∉ segFlat segs) (hp3 : p ∉ fr) :
    SegsOk (s.Delete p) segs (p :: fr) ∧
    (∀ q, q ≠ p → (s.Delete p).heap q = s.heap q) ∧
    (s.Delete p).hash_size = s.hash_size ∧
    (s.Delete p).heapSize = s.heapSize ∧
    (s.Delete p).allocated = s.allocated ∧
    (s.Delete p).list_head = s.list_head := by
  have hother : ∀ q, q ≠ p → (s.Delete p).heap q = s.heap q := by
    intro q hq
    show Function.update s.heap p _ q = s.heap q
    rw [Function.update_noteq hq]
  have hselftail : ((s.Delete p).heap p).tail = s.freed_head := by
    show (Function.update s.heap p _ p).tail = s.freed_head
    rw [Function.update_same]
  refine ⟨?_, hother, rfl, rfl, rfl, rfl⟩
  have hagree_flat : ∀ q ∈ segFlat segs, ((s.Delete p).heap q).tail = (s.heap q).tail := by
    intro q hq
    rw [hother q (fun h => hp2 (h ▸ hq))]
  have hagree_fr : ∀ q ∈ fr, ((s.Delete p).heap q).tail = (s.heap q).tail := by
    intro q hq
    rw [hother q (fun h => hp3 (h ▸ hq))]
  refine { chain := ?_, nodup := hs.nodup, bounded := hs.bounded,
           nonemptySegs := hs.nonemptySegs, segKeys := ?_,
           idxNodup := hs.idxNodup, idxLt := hs.idxLt, lastElem := hs.lastElem,
           inactive := hs.inactive, prevOk := hs.prevOk, tailOk := hs.tailOk,
           hszLe := hs.hszLe, heapBlocks := hs.heapBlocks,
           freeChain := ?_, freeNodup := List.nodup_cons.2 ⟨hp3, hs.freeNodup⟩,
           freeBounded := ?_, freeDisj := ?_ }
  · show PtrChain (s.Delete p).heap s.list_head (segFlat segs) none
    rw [ptrChain_congr hagree_flat]
    exact hs.chain
  · intro sg hsg q hq
    show ((s.Delete p).heap q).key % s.hash_size = sg.1
    rw [hother q (fun h => hp2 (h ▸ mem_segFlat_of_mem hsg hq))]
    exact hs.segKeys sg hsg q hq
  · show PtrChain (s.Delete p).heap (some p) (p :: fr) none
    refine ⟨rfl, ?_⟩
    rw [hselftail, ptrChain_congr hagree_fr]
    exact hs.freeChain
  · intro q hq
    rcases List.mem_cons.1 hq with rfl | h
    · exact hp1
    · exact hs.freeBounded q h
  · intro q hq
    rcases List.mem_cons.1 hq with rfl | h
    · exact hp2
    · exact hs.freeDisj q h

/-- SetSize on an empty container records the new bucket count; the
invariant is preserved with no segments. -/
theorem segsOk_SetSize {s : HashList V} {fr : List Nat}
    (hs : SegsOk s [] fr) (sz : Nat) :
    SegsOk (s.SetSize sz) [] fr ∧
    (s.SetSize sz).hash_size = sz ∧
    (s.SetSize sz).heap = s.heap ∧
    (s.SetSize sz).heapSize = s.heapSize ∧
    (s.SetSize sz).allocated = s.allocated ∧
    (s.SetSize sz).list_head = s.list_head := by
  unfold HashList.SetSize
  by_cases hgt : sz > s.bucketsSize
  · rw [if_pos hgt]
    refine ⟨?_, rfl, rfl, rfl, rfl, rfl⟩
    refine { chain := hs.chain, nodup := List.nodup_nil, bounded := by simp [segFlat],
             nonemptySegs := by simp, segKeys := by simp,
             idxNodup := List.nodup_nil, idxLt := by simp,
             lastElem := by simp, inactive := ?_,
             prevOk := trivial, tailOk := hs.tailOk,
             hszLe := le_refl sz, heapBlocks := hs.heapBlocks,
             freeChain := hs.freeChain, freeNodup := hs.freeNodup,
             freeBounded := hs.freeBounded, freeDisj := by simp [segFlat] }
    intro j _
    show (if j < s.bucketsSize then s.buckets j else ⟨some 0, none⟩).last_elem = none
    by_cases hj : j < s.bucketsSize
    · rw [if_pos hj]
      exact hs.inactive j (by simp)
    · rw [if_neg hj]
  · rw [if_neg hgt]
    refine ⟨?_, rfl, rfl, rfl, rfl, rfl⟩
    exact { chain := hs.chain, nodup := List.nodup_nil, bounded := by simp [segFlat],
            nonemptySegs := by simp, segKeys := by simp,
            idxNodup := List.nodup_nil, idxLt := by simp,
            lastElem := by simp, inactive := fun j _ => hs.inactive j (by simp),
            prevOk := trivial, tailOk := hs.tailOk,
            hszLe := by show sz ≤ s.bucketsSize; omega, heapBlocks := hs.heapBlocks,
            freeChain := hs.freeChain, freeNodup := hs.freeNodup,
            freeBounded := hs.freeBounded, freeDisj := by simp [segFlat] }

/-- Updating the heap at a pointer outside the stored list and the free
list preserves the segment invariant. -/
theorem segsOk_update_fresh {s : HashList V} {segs : List (Nat × List Nat)} {fr : List Nat}
    (hs : SegsOk s segs fr) {e : Nat} (he1 : e ∉ segFlat segs) (he2 : e ∉ fr) (a : Elem V) :
    SegsOk { s with heap := Function.update s.heap e a } segs fr := by
  have hother : ∀ q, q ≠ e → Function.update s.heap e a q = s.heap q := by
    intro q hq
    rw [Function.update_noteq hq]
  refine { chain := ?_, nodup := hs.nodup, bounded := hs.bounded,
           nonemptySegs := hs.nonemptySegs, segKeys := ?_,
           idxNodup := hs.idxNodup, idxLt := hs.idxLt, lastElem := hs.lastElem,
           inactive := hs.inactive, prevOk := hs.prevOk, tailOk := hs.tailOk,
           hszLe := hs.hszLe, heapBlocks := hs.heapBlocks,
           freeChain := ?_, freeNodup := hs.freeNodup,
           freeBounded := hs.freeBounded, freeDisj := hs.freeDisj }
  · show PtrChain (Function.update s.heap e a) s.list_head (segFlat segs) none
    rw [ptrChain_congr (fun q hq => by rw [hother q (fun h => he1 (h ▸ hq))])]
    exact hs.chain
  · intro sg hsg p hp
    show (Function.update s.heap e a p).key % s.hash_size = sg.1
    rw [hother p (fun h => he1 (h ▸ mem_segFlat_of_mem hsg hp))]
    exact hs.segKeys sg hsg p hp
  · show PtrChain (Function.update s.heap e a) s.freed_head fr none
    rw [ptrChain_congr (fun q hq => by rw [hother q (fun h => he2 (h ▸ hq))])]
    exact hs.freeChain

/-- The segment pointer list of a split segment list. -/
theorem segPtrsAt_eq {segs L R : List (Nat × List Nat)} {i : Nat} {ps : List Nat}
    (hnd : (segIdxs segs).Nodup) (hsegs : segs = L ++ (i, ps) :: R) :
    segPtrsAt segs i = ps := by
  have hidx2 : (segIdxs L ++ i :: segIdxs R).Nodup := by
    rw [hsegs] at hnd
    simpa using hnd
  rcases List.nodup_append.1 hidx2 with ⟨-, -, hdisj⟩
  have hiL : i ∉ segIdxs L := fun hin => hdisj hin (by simp)
  have hfind : segs.find? (fun t => t.1 == i) = some (i, ps) := by
    rw [hsegs, List.find?_append]
    have hL : L.find? (fun t => t.1 == i) = none := by
      refine List.find?_eq_none.2 (fun t ht => ?_)
      simp only [beq_iff_eq]
      intro he
      exact hiL (he ▸ List.mem_map_of_mem Prod.fst ht)
    rw [hL]
    simp [List.find?_cons]
  simp [segPtrsAt, hfind]

/-- The run-end walk of InsertMore: starting at the head of the run of
key k, it stops exactly at the run's last element, provided the element
after the run (if any) carries a different key. -/
theorem runEnd_char {s : HashList V} {k : Nat} {C : List Nat} {c0 : Nat} {m : Option Nat}
    (hchain : PtrChain s.heap (some c0) (c0 :: C) m)
    (hCkeys : ∀ p ∈ c0 :: C, (s.heap p).key = k)
    (hstop : m = none ∨ ∃ b, m = some b ∧ (s.heap b).key ≠ k) :
    ∀ fuel, C.length ≤ fuel → s.runEnd k c0 fuel = (c0 :: C).getLast (by simp) := by
  induction C generalizing c0 with
  | nil =>
    intro fuel hf
    have htail : (s.heap c0).tail = m := by simpa using hchain.2
    cases fuel with
    | zero => simp [HashList.runEnd]
    | succ f =>
      simp only [HashList.runEnd, htail]
      rcases hstop with rfl | ⟨b, rfl, hb⟩
      · simp
      · simp [if_neg hb]
  | cons c1 C2 ih =>
    intro fuel hf
    obtain ⟨f, rfl⟩ : ∃ f, fuel = f + 1 := by
      cases fuel with
      | zero => simp at hf
      | succ f => exact ⟨f, rfl⟩
    have htail : (s.heap c0).tail = some c1 := hchain.2.1
    have hk1 : (s.heap c1).key = k := hCkeys c1 (by simp)
    have hch2 : PtrChain s.heap (some c1) (c1 :: C2) m := by
      refine ⟨rfl, ?_⟩
      exact hchain.2.2
    have hrec := ih hch2 (fun p hp => hCkeys p (List.mem_cons_of_mem _ hp)) f
      (by simp at hf; omega)
    simp only [HashList.runEnd, htail, if_pos hk1]
    rw [hrec]
    simp [List.getLast_cons]

/-- When the bucket's last element already carries the key, InsertMore
takes its fast path and performs exactly the same splice as the
occupied-bucket branch of Insert. -/
theorem insertMoreLink_fast_eq {s2 : HashList V} {e k le : Nat} (v : V)
    (hlast : (s2.buckets (k % s2.hash_size)).last_elem = some le)
    (hne : e ≠ le) (hkey : (s2.heap le).key = k) :
    s2.insertMoreLink e k v = s2.insertLink e k v := by
  unfold HashList.insertMoreLink HashList.insertLink
  simp only [hlast]
  rw [if_pos (by rw [Function.update_noteq (Ne.symm hne)]; exact hkey)]

/-- The state equation of the slow path of InsertMore: the bucket's last
element carries a different key, the chain scan finds p0 and the run-end
walk stops at q0; the new element is spliced right after q0. -/
theorem insertMoreLink_slow_eq {s2 : HashList V} {e k le p0 q0 : Nat} (v : V)
    (hlast : (s2.buckets (k % s2.hash_size)).last_elem = some le)
    (hne : e ≠ le) (hkey : (s2.heap le).key ≠ k)
    (hfind : HashList.findLoop
        { s2 with heap := Function.update s2.heap e ⟨k, v, (s2.heap e).tail⟩ } k
        (HashList.chainHead
          { s2 with heap := Function.update s2.heap e ⟨k, v, (s2.heap e).tail⟩ }
          (k % s2.hash_size))
        ((Function.update s2.heap e ⟨k, v, (s2.heap e).tail⟩ le).tail) s2.heapSize = some p0)
    (hrun : HashList.runEnd
        { s2 with heap := Function.update s2.heap e ⟨k, v, (s2.heap e).tail⟩ } k p0 s2.heapSize
        = q0)
    (hq0e : q0 ≠ e) :
    s2.insertMoreLink e k v =
      { s2 with heap := Function.update (Function.update s2.heap e ⟨k, v, (s2.heap q0).tail⟩) q0
                  { s2.heap q0 with tail := some e } } := by
  unfold HashList.insertMoreLink
  simp only [hlast]
  rw [if_neg (by rw [Function.update_noteq (Ne.symm hne)]; exact hkey)]
  rw [hfind]
  simp only [HashList.writeTail, hrun]
  congr 1
  funext r
  rcases eq_or_ne r q0 with rfl | hr
  · simp [hrun, Function.update_same, Function.update_noteq hq0e,
      Function.update_noteq (Ne.symm hq0e)]
  · rcases eq_or_ne r e with rfl | hr2
    · rw [hrun]
      simp [Function.update_noteq hr, Function.update_same,
        Function.update_noteq (Ne.symm hr), Function.update_noteq hq0e]
    · simp [hrun, Function.update_noteq hr, Function.update_noteq hr2]

/-- Splicing a fresh element e right after an interior element w of its
bucket's segment (the slow path of InsertMore) preserves the segment
invariant; the bucket table is untouched because w is not the segment's
last element. -/
theorem segsOk_splice_mid {s2 : HashList V} {segs : List (Nat × List Nat)} {fr : List Nat}
    {L R : List (Nat × List Nat)} {X Y : List Nat} {w k e : Nat} (v : V)
    (hs : SegsOk s2 segs fr)
    (hsegs : segs = L ++ (k % s2.hash_size, X ++ w :: Y) :: R)
    (hY : Y ≠ [])
    (he1 : e ∉ segFlat segs) (he2 : e ∉ fr) (he3 : e < s2.heapSize) :
    SegsOk { s2 with
        heap := Function.update (Function.update s2.heap e ⟨k, v, (s2.heap w).tail⟩) w
                  { s2.heap w with tail := some e } }
      (L ++ (k % s2.hash_size, X ++ w :: e :: Y) :: R) fr := by
  obtain ⟨Y0, y, hYdec⟩ : ∃ Y0 y, Y = Y0 ++ [y] := by
    rcases List.eq_nil_or_concat Y with h | ⟨Y0, y, h⟩
    · exact absurd h hY
    · exact ⟨Y0, y, by simpa [List.concat_eq_append] using h⟩
  have hmem_seg : (k % s2.hash_size, X ++ w :: Y) ∈ segs := hsegs ▸ (by simp)
  have hw_flat : w ∈ segFlat segs := by
    rw [hsegs]
    simp
  have hne : e ≠ w := fun h => he1 (h ▸ hw_flat)
  have hflat_eq : segFlat segs = segFlat L ++ (X ++ ([w] ++ (Y ++ segFlat R))) := by
    rw [hsegs]
    simp
  have hidx := hs.idxNodup
  rw [hsegs] at hidx
  have hidx2 : (segIdxs L ++ k % s2.hash_size :: segIdxs R).Nodup := by simpa using hidx
  rcases List.nodup_append.1 hidx2 with ⟨-, hndiR, hdisjI⟩
  have hiL : k % s2.hash_size ∉ segIdxs L := fun hin => hdisjI hin (by simp)
  have hiR : k % s2.hash_size ∉ segIdxs R := by
    have := List.Nodup.not_mem hndiR
    simpa using this
  set heap' := Function.update (Function.update s2.heap e ⟨k, v, (s2.heap w).tail⟩) w
      { s2.heap w with tail := some e } with hheap'
  have Hw : heap' w = { s2.heap w with tail := some e } := by simp [hheap']
  have He : heap' e = ⟨k, v, (s2.heap w).tail⟩ := by
    simp [hheap', Function.update_noteq hne]
  have Hother : ∀ q, q ≠ e → q ≠ w → heap' q = s2.heap q := by
    intro q hq1 hq2
    simp [hheap', Function.update_noteq hq1, Function.update_noteq hq2]
  have Hkey : ∀ q, q ≠ e → (heap' q).key = (s2.heap q).key := by
    intro q hq
    rcases eq_or_ne q w with rfl | hq2
    · rw [Hw]
    · rw [Hother q hq hq2]
  have Htail : ∀ q, q ≠ e → q ≠ w → (heap' q).tail = (s2.heap q).tail := by
    intro q hq1 hq2
    rw [Hother q hq1 hq2]
  have he_nflat : ∀ r ∈ segFlat segs, r ≠ e := fun r hr h => he1 (h ▸ hr)
  have hnodup0 : (segFlat L ++ (X ++ ([w] ++ (Y ++ segFlat R)))).Nodup := by
    have := hs.nodup
    rwa [hflat_eq] at this
  have hw_nL : w ∉ segFlat L := by
    rcases List.nodup_append.1 hnodup0 with ⟨-, -, hd⟩
    intro hin
    exact hd hin (by simp)
  have hw_nX : w ∉ X := by
    rcases List.nodup_append.1 (List.nodup_append.1 hnodup0).2.1 with ⟨-, -, hd⟩
    intro hin
    exact hd hin (by simp)
  have hw_nYR : w ∉ Y ++ segFlat R := by
    have h2 := (List.nodup_append.1 (List.nodup_append.1 hnodup0).2.1).2.1
    have h3 : ([w] ++ (Y ++ segFlat R)).Nodup := h2
    rcases List.nodup_append.1 h3 with ⟨-, -, hd⟩
    intro hin
    exact hd (by simp) hin
  -- membership in segFlat pieces
  have hsubL : ∀ r ∈ segFlat L, r ∈ segFlat segs := by
    intro r hr
    rw [hflat_eq]
    simp [hr]
  have hsubX : ∀ r ∈ X, r ∈ segFlat segs := by
    intro r hr
    rw [hflat_eq]
    simp [hr]
  have hsubYR : ∀ r ∈ Y ++ segFlat R, r ∈ segFlat segs := by
    intro r hr
    rw [hflat_eq]
    rcases List.mem_append.1 hr with h | h
    · simp [h]
    · simp [h]
  -- old chain decomposition
  have hch : PtrChain s2.heap s2.list_head (segFlat L ++ (X ++ ([w] ++ (Y ++ segFlat R)))) none := by
    have := hs.chain
    rwa [hflat_eq] at this
  obtain ⟨m1, chL, rest1⟩ := ptrChain_append_iff.1 hch
  obtain ⟨m2, chX, rest2⟩ := ptrChain_append_iff.1 rest1
  obtain ⟨m3, chW, rest3⟩ := ptrChain_append_iff.1 rest2
  have hm2 : m2 = some w := chW.1
  have hwtail : (s2.heap w).tail = m3 := by simpa using chW.2
  -- list equality facts for the new flat list
  have hflat'_eq : segFlat (L ++ (k % s2.hash_size, X ++ w :: e :: Y) :: R)
      = segFlat L ++ (X ++ ([w] ++ ([e] ++ (Y ++ segFlat R)))) := by
    simp
  have hbase_eq : ((segFlat L ++ X) ++ [w]) ++ (Y ++ segFlat R) = segFlat segs := by
    rw [hflat_eq]
    simp
  have hflat'_eq2 : segFlat (L ++ (k % s2.hash_size, X ++ w :: e :: Y) :: R)
      = ((segFlat L ++ X) ++ [w]) ++ e :: (Y ++ segFlat R) := by
    simp
  have hperm : List.Perm (((segFlat L ++ X) ++ [w]) ++ e :: (Y ++ segFlat R))
      (e :: (((segFlat L ++ X) ++ [w]) ++ (Y ++ segFlat R))) := List.perm_middle
  have hmem_iff : ∀ p, p ∈ segFlat (L ++ (k % s2.hash_size, X ++ w :: e :: Y) :: R)
      ↔ p = e ∨ p ∈ segFlat segs := by
    intro p
    rw [hflat'_eq2, hperm.mem_iff, hbase_eq]
    simp
  constructor
  -- chain
  · show PtrChain heap' s2.list_head (segFlat (L ++ (k % s2.hash_size, X ++ w :: e :: Y) :: R)) none
    rw [hflat'_eq]
    have c1 : PtrChain heap' s2.list_head (segFlat L) m1 := by
      rw [ptrChain_congr (fun r hr => Htail r (he_nflat r (hsubL r hr))
        (fun h => hw_nL (h ▸ hr)))]
      exact chL
    have c2 : PtrChain heap' m1 X m2 := by
      rw [ptrChain_congr (fun r hr => Htail r (he_nflat r (hsubX r hr))
        (fun h => hw_nX (h ▸ hr)))]
      exact chX
    have c3 : PtrChain heap' m2 [w] (some e) := by
      refine ⟨hm2, ?_⟩
      simp [Hw]
    have c4 : PtrChain heap' (some e) [e] m3 := by
      refine ⟨rfl, ?_⟩
      simp [He, hwtail]
    have c5 : PtrChain heap' m3 (Y ++ segFlat R) none := by
      rw [ptrChain_congr (fun r hr => Htail r (he_nflat r (hsubYR r hr))
        (fun h => hw_nYR (h ▸ hr)))]
      exact rest3
    exact ptrChain_append c1 (ptrChain_append c2 (ptrChain_append c3 (ptrChain_append c4 c5)))
  -- nodup
  · rw [hflat'_eq2]
    refine hperm.symm.nodup ?_
    refine List.nodup_cons.2 ⟨?_, ?_⟩
    · rw [hbase_eq]
      exact he1
    · rw [hbase_eq]
      exact hs.nodup
  -- bounded
  · intro p hp
    rcases (hmem_iff p).1 hp with rfl | h
    · exact he3
    · exact hs.bounded p h
  -- nonemptySegs
  · intro sg hsg
    rcases List.mem_append.1 hsg with h | h
    · exact hs.nonemptySegs sg (hsegs ▸ (by simp [h]))
    · rcases List.mem_cons.1 h with rfl | h2
      · simp
      · exact hs.nonemptySegs sg (hsegs ▸ (by simp [h2]))
  -- segKeys
  · intro sg hsg p hp
    show (heap' p).key % s2.hash_size = sg.1
    rcases List.mem_append.1 hsg with h | h
    · have hpf : p ∈ segFlat segs := mem_segFlat_of_mem (hsegs ▸ (by simp [h])) hp
      rw [Hkey p (he_nflat p hpf)]
      exact hs.segKeys sg (hsegs ▸ (by simp [h])) p hp
    · rcases List.mem_cons.1 h with rfl | h2
      · rcases List.mem_append.1 hp with h3 | h3
        · have hpf : p ∈ segFlat segs := by
            rw [hflat_eq]
            simp [h3]
          rw [Hkey p (he_nflat p hpf)]
          have := hs.segKeys _ hmem_seg p (by simp [h3])
          simpa using this
        · rcases List.mem_cons.1 h3 with rfl | h4
          · rw [Hkey p (he_nflat p hw_flat)]
            have := hs.segKeys _ hmem_seg p (by simp)
            simpa using this
          · rcases List.mem_cons.1 h4 with rfl | h5
            · simp [He]
            · have hpf : p ∈ segFlat segs := by
                rw [hflat_eq]
                simp [h5]
              rw [Hkey p (he_nflat p hpf)]
              have := hs.segKeys _ hmem_seg p (by simp [h5])
              simpa using this
      · have hpf : p ∈ segFlat segs := mem_segFlat_of_mem (hsegs ▸ (by simp [h2])) hp
        rw [Hkey p (he_nflat p hpf)]
        exact hs.segKeys sg (hsegs ▸ (by simp [h2])) p hp
  -- idxNodup
  · show (segIdxs (L ++ (k % s2.hash_size, X ++ w :: e :: Y) :: R)).Nodup
    simpa using hidx2
  -- idxLt
  · intro sg hsg
    rcases List.mem_append.1 hsg with h | h
    · exact hs.idxLt sg (hsegs ▸ (by simp [h]))
    · rcases List.mem_cons.1 h with rfl | h2
      · simpa using hs.idxLt _ hmem_seg
      · exact hs.idxLt sg (hsegs ▸ (by simp [h2]))
  -- lastElem
  · intro sg hsg
    rcases List.mem_append.1 hsg with h | h
    · exact hs.lastElem sg (hsegs ▸ (by simp [h]))
    · rcases List.mem_cons.1 h with rfl | h2
      · show (s2.buckets (k % s2.hash_size)).last_elem = lastD none (X ++ w :: e :: Y)
        have hold := hs.lastElem _ hmem_seg
        have h1 : lastD none (X ++ w :: Y) = some y := by
          rw [hYdec]
          have hx : X ++ w :: (Y0 ++ [y]) = (X ++ w :: Y0) ++ [y] := by simp
          rw [hx, lastD_concat]
        have h2 : lastD none (X ++ w :: e :: Y) = some y := by
          rw [hYdec]
          have hx : X ++ w :: e :: (Y0 ++ [y]) = (X ++ w :: e :: Y0) ++ [y] := by simp
          rw [hx, lastD_concat]
        rw [h2]
        rw [h1] at hold
        simpa using hold
      · exact hs.lastElem sg (hsegs ▸ (by simp [h2]))
  -- inactive
  · intro j hj
    refine hs.inactive j ?_
    intro hin
    apply hj
    rw [hsegs] at hin
    have h2 : j ∈ segIdxs L ++ k % s2.hash_size :: segIdxs R := by simpa using hin
    simpa using h2
  -- prevOk
  · show IdxChain s2.buckets none (segIdxs (L ++ (k % s2.hash_size, X ++ w :: e :: Y) :: R))
    have hidxeq : segIdxs (L ++ (k % s2.hash_size, X ++ w :: e :: Y) :: R) = segIdxs segs := by
      rw [hsegs]
      simp
    rw [hidxeq]
    exact hs.prevOk
  -- tailOk
  · show s2.bucket_list_tail = lastD none (segIdxs (L ++ (k % s2.hash_size, X ++ w :: e :: Y) :: R))
    have hidxeq : segIdxs (L ++ (k % s2.hash_size, X ++ w :: e :: Y) :: R) = segIdxs segs := by
      rw [hsegs]
      simp
    rw [hidxeq]
    exact hs.tailOk
  -- hszLe
  · exact hs.hszLe
  -- heapBlocks
  · exact hs.heapBlocks
  -- freeChain
  · show PtrChain heap' s2.freed_head fr none
    rw [ptrChain_congr (fun r hr => Htail r (fun h => he2 (h ▸ hr))
      (fun h => (hs.freeDisj r hr) (h ▸ hw_flat)))]
    exact hs.freeChain
  -- freeNodup
  · exact hs.freeNodup
  -- freeBounded
  · exact hs.freeBounded
  -- freeDisj
  · intro p hp hin
    rcases (hmem_iff p).1 hin with rfl | h
    · exact he2 hp
    · exact hs.freeDisj p hp h

theorem lastD_eq_some_getLast (l : List Nat) (h : l ≠ []) :
    lastD none l = some (l.getLast h) := by
  induction l using List.reverseRecOn with
  | nil => exact absurd rfl h
  | append_singleton l0 x _ =>
    rw [lastD_concat]
    simp [List.getLast_append]

theorem find?_run {h : Nat → Elem V} {A Cb : List Nat} {k c0 : Nat}
    (hA : ∀ p ∈ A, (h p).key ≠ k) (hc0 : (h c0).key = k) :
    (A ++ c0 :: Cb).find? (fun p => (h p).key == k) = some c0 := by
  induction A with
  | nil => simp [List.find?_cons, hc0]
  | cons a A2 ih =>
    have ha : ((h a).key == k) = false := by
      simpa using hA a (by simp)
    simp only [List.cons_append, List.find?_cons, ha]
    exact ih (fun p hp => hA p (by simp [hp]))

theorem splice_record_kv (s2 : HashList V) (e w k : Nat) (v : V) (hne : e ≠ w) :
    ((Function.update (Function.update s2.heap e ⟨k, v, (s2.heap w).tail⟩) w
        { s2.heap w with tail := some e }) e).key = k ∧
    ((Function.update (Function.update s2.heap e ⟨k, v, (s2.heap w).tail⟩) w
        { s2.heap w with tail := some e }) e).val = v ∧
    (∀ q, q ≠ e → ((Function.update (Function.update s2.heap e ⟨k, v, (s2.heap w).tail⟩) w
        { s2.heap w with tail := some e }) q).key = (s2.heap q).key ∧
      ((Function.update (Function.update s2.heap e ⟨k, v, (s2.heap w).tail⟩) w
        { s2.heap w with tail := some e }) q).val = (s2.heap q).val) := by
  refine ⟨?_, ?_, ?_⟩
  · rw [Function.update_noteq hne, Function.update_same]
  · rw [Function.update_noteq hne, Function.update_same]
  · intro q hq
    rcases eq_or_ne q w with rfl | hqw
    · rw [Function.update_same]
      exact ⟨rfl, rfl⟩
    · rw [Function.update_noteq hqw, Function.update_noteq hq]
      exact ⟨rfl, rfl⟩

/-- The effect of a full InsertMore on the segment invariant, given the
run decomposition of the key's segment: a fresh node e carrying (k, v) is
spliced directly after the last element of the run of key k, every other
stored pair is untouched. -/
theorem segsOk_InsertMore {s : HashList V} [Inhabited V] {segs : List (Nat × List Nat)}
    {fr : List Nat} {L R : List (Nat × List Nat)} {A C B : List Nat} {k : Nat} (v : V)
    (hs : SegsOk s segs fr)
    (hsegs : segs = L ++ (k % s.hash_size, A ++ C ++ B) :: R)
    (hCne : C ≠ [])
    (hAk : ∀ p ∈ A, (s.heap p).key ≠ k)
    (hCk : ∀ p ∈ C, (s.heap p).key = k)
    (hBk : ∀ p ∈ B, (s.heap p).key ≠ k) :
    ∃ e, e ∉ segFlat segs ∧
      SegsOk (s.InsertMore k v) (L ++ (k % s.hash_size, A ++ C ++ [e] ++ B) :: R) (newFr s fr) ∧
      ((s.InsertMore k v).heap e).key = k ∧ ((s.InsertMore k v).heap e).val = v ∧
      (∀ q ∈ segFlat segs, ((s.InsertMore k v).heap q).key = (s.heap q).key ∧
        ((s.InsertMore k v).heap q).val = (s.heap q).val) ∧
      (s.InsertMore k v).hash_size = s.hash_size ∧
      (s.InsertMore k v).allocated = s.allocated ++ (if fr = [] then [s.heapSize] else []) := by
  obtain ⟨hok2, hnf, hnf2, hlt, hheap, hlh, hbt, hhsz, hbk, hbsz, hal⟩ := new_all hs
  have hInsEq : s.InsertMore k v = HashList.insertMoreLink (s.New).1 (s.New).2 k v := rfl
  have hmod : k % (s.New).1.hash_size = k % s.hash_size := by rw [hhsz]
  have hsegs2 : segs = L ++ (k % (s.New).1.hash_size, A ++ C ++ B) :: R := by
    rw [hmod]
    exact hsegs
  have hmemA : ∀ p ∈ A, p ∈ segFlat segs := by
    intro p hp
    rw [hsegs]
    simp [hp]
  have hmemC : ∀ p ∈ C, p ∈ segFlat segs := by
    intro p hp
    rw [hsegs]
    simp [hp]
  have hmemB : ∀ p ∈ B, p ∈ segFlat segs := by
    intro p hp
    rw [hsegs]
    simp [hp]
  have hAk2 : ∀ p ∈ A, ((s.New).1.heap p).key ≠ k := by
    intro p hp
    rw [hheap p (hmemA p hp)]
    exact hAk p hp
  have hCk2 : ∀ p ∈ C, ((s.New).1.heap p).key = k := by
    intro p hp
    rw [hheap p (hmemC p hp)]
    exact hCk p hp
  have hBk2 : ∀ p ∈ B, ((s.New).1.heap p).key ≠ k := by
    intro p hp
    rw [hheap p (hmemB p hp)]
    exact hBk p hp
  obtain ⟨C1, cl, hCdec⟩ : ∃ C1 cl, C = C1 ++ [cl] := by
    rcases List.eq_nil_or_concat C with h | ⟨C1, cl, h⟩
    · exact absurd h hCne
    · exact ⟨C1, cl, by simpa [List.concat_eq_append] using h⟩
  have hclC : cl ∈ C := by simp [hCdec]
  have hcl_flat : cl ∈ segFlat segs := hmemC cl hclC
  have hne_ecl : (s.New).2 ≠ cl := fun h => hnf (h ▸ hcl_flat)
  cases B with
  | nil =>
    -- fast path: the bucket's last element is the run's last element
    have hlast : ((s.New).1.buckets (k % (s.New).1.hash_size)).last_elem = some cl := by
      have hmem2 : (k % (s.New).1.hash_size, A ++ C ++ []) ∈ segs := hsegs2 ▸ (by simp)
      have := hok2.lastElem _ hmem2
      have heq : lastD none (A ++ C ++ []) = some cl := by
        rw [hCdec]
        have hx : A ++ (C1 ++ [cl]) ++ [] = (A ++ C1) ++ [cl] := by simp
        rw [hx, lastD_concat]
      rw [heq] at this
      exact this
    have hkeycl : ((s.New).1.heap cl).key = k := hCk2 cl hclC
    have hfast : HashList.insertMoreLink (s.New).1 (s.New).2 k v
        = HashList.insertLink (s.New).1 (s.New).2 k v :=
      insertMoreLink_fast_eq v hlast hne_ecl hkeycl
    have hokIns := segsOk_insertLink_occupied v hok2 hsegs2 hnf hnf2 hlt
    rw [hmod] at hokIns
    obtain ⟨hkv1, hkv2, hkv3, hkv4, hkv5, hkv6⟩ := insertLink_occupied_kv v hlast hne_ecl
    have hlist_eq : L ++ (k % s.hash_size, (A ++ C ++ []) ++ [(s.New).2]) :: R
        = L ++ (k % s.hash_size, A ++ C ++ [(s.New).2] ++ []) :: R := by simp
    refine ⟨(s.New).2, hnf, ?_, ?_, ?_, ?_, ?_, ?_⟩
    · rw [hInsEq, hfast]
      rw [hlist_eq] at hokIns
      exact hokIns
    · rw [hInsEq, hfast]
      exact hkv2
    · rw [hInsEq, hfast]
      exact hkv3
    · intro q hq
      have hqe : q ≠ (s.New).2 := fun h => hnf (h ▸ hq)
      rw [hInsEq, hfast]
      rcases hkv1 q hqe with ⟨ha, hb⟩
      rw [ha, hb, hheap q hq]
      exact ⟨rfl, rfl⟩
    · rw [hInsEq, hfast, hkv4, hhsz]
    · rw [hInsEq, hfast, hkv6, hal]
  | cons b0 B2 =>
    -- slow path: the bucket's last element is beyond the run
    obtain ⟨B1, bl, hBdec⟩ : ∃ B1 bl, b0 :: B2 = B1 ++ [bl] := by
      rcases List.eq_nil_or_concat (b0 :: B2) with h | ⟨B1, bl, h⟩
      · simp at h
      · exact ⟨B1, bl, by simpa [List.concat_eq_append] using h⟩
    have hblB : bl ∈ b0 :: B2 := by simp [hBdec]
    have hbl_flat : bl ∈ segFlat segs := hmemB bl hblB
    have hne_ebl : (s.New).2 ≠ bl := fun h => hnf (h ▸ hbl_flat)
    have hlast : ((s.New).1.buckets (k % (s.New).1.hash_size)).last_elem = some bl := by
      have hmem2 : (k % (s.New).1.hash_size, A ++ C ++ b0 :: B2) ∈ segs := hsegs2 ▸ (by simp)
      have := hok2.lastElem _ hmem2
      have heq : lastD none (A ++ C ++ b0 :: B2) = some bl := by
        rw [hBdec]
        have hx : A ++ C ++ (B1 ++ [bl]) = (A ++ C ++ B1) ++ [bl] := by simp
        rw [hx, lastD_concat]
      rw [heq] at this
      exact this
    have hkbl : ((s.New).1.heap bl).key ≠ k := hBk2 bl hblB
    obtain ⟨c0, C2, hCcons⟩ : ∃ c0 C2, C = c0 :: C2 := by
      cases C with
      | nil => exact absurd rfl hCne
      | cons c0 C2 => exact ⟨c0, C2, rfl⟩
    have hc0C : c0 ∈ C := by simp [hCcons]
    have hc0_flat : c0 ∈ segFlat segs := hmemC c0 hc0C
    -- the heap state after writing the fresh node's key and value
    set s3 : HashList V :=
      { (s.New).1 with
        heap := Function.update (s.New).1.heap (s.New).2
                  ⟨k, v, ((s.New).1.heap (s.New).2).tail⟩ } with hs3
    have hok3 : SegsOk s3 segs (newFr s fr) :=
      segsOk_update_fresh hok2 hnf hnf2 _
    have hheap3 : ∀ q ∈ segFlat segs, s3.heap q = (s.New).1.heap q := by
      intro q hq
      have hqe : q ≠ (s.New).2 := fun h => hnf (h ▸ hq)
      show Function.update (s.New).1.heap (s.New).2
          ⟨k, v, ((s.New).1.heap (s.New).2).tail⟩ q = (s.New).1.heap q
      rw [Function.update_noteq hqe]
    -- the chain scan of the slow path finds the head of the run
    have hps_at : segPtrsAt segs (k % s3.hash_size) = A ++ C ++ b0 :: B2 := by
      have hmod3 : k % s3.hash_size = k % s.hash_size := hmod
      have hsegs3 : segs = L ++ (k % s3.hash_size, A ++ C ++ b0 :: B2) :: R := by
        rw [hmod3]
        exact hsegs
      exact segPtrsAt_eq hs.idxNodup hsegs3
    have hfind3 : s3.Find k = some c0 := by
      rw [find_char hok3 k, hps_at]
      have hx : A ++ C ++ b0 :: B2 = A ++ c0 :: (C2 ++ b0 :: B2) := by
        rw [hCcons]
        simp
      rw [hx]
      refine find?_run ?_ ?_
      · intro p hp
        rw [hheap3 p (hmemA p hp)]
        exact hAk2 p hp
      · rw [hheap3 c0 hc0_flat]
        exact hCk2 c0 hc0C
    have hfindLoop : HashList.findLoop s3 k (s3.chainHead (k % s3.hash_size))
        ((s3.heap bl).tail) s3.heapSize = some c0 := by
      have h2 := hfind3
      simp only [HashList.Find, hlast] at h2
      exact h2
    -- the run-end walk stops at the run's last element
    have hrunEnd : s3.runEnd k c0 s3.heapSize = cl := by
      have hflat_eq3 : segFlat segs
          = segFlat L ++ (A ++ (C ++ ((b0 :: B2) ++ segFlat R))) := by
        rw [hsegs]
        simp
      have hch := hok3.chain
      rw [hflat_eq3] at hch
      obtain ⟨mA, chL, rest1⟩ := ptrChain_append_iff.1 hch
      obtain ⟨mC, chA, rest2⟩ := ptrChain_append_iff.1 rest1
      obtain ⟨mB, chC, rest3⟩ := ptrChain_append_iff.1 rest2
      have hmB : mB = some b0 := rest3.1
      have hchC2 : PtrChain s3.heap (some c0) (c0 :: C2) (some b0) := by
        have h2 : PtrChain s3.heap mC C mB := chC
        rw [hCcons] at h2
        rw [← hmB]
        have h3 : mC = some c0 := h2.1
        rw [← h3]
        exact h2
      have hkeysC : ∀ p ∈ c0 :: C2, (s3.heap p).key = k := by
        intro p hp
        have hpC : p ∈ C := by rw [hCcons]; exact hp
        rw [hheap3 p (hmemC p hpC)]
        exact hCk2 p hpC
      have hstop : (some b0 : Option Nat) = none ∨
          ∃ b, (some b0 : Option Nat) = some b ∧ (s3.heap b).key ≠ k := by
        refine Or.inr ⟨b0, rfl, ?_⟩
        have hb0B : b0 ∈ b0 :: B2 := by simp
        rw [hheap3 b0 (hmemB b0 hb0B)]
        exact hBk2 b0 hb0B
      have hfuel : C2.length ≤ s3.heapSize := by
        have hsub : ∀ p ∈ C2, p ∈ segFlat segs := by
          intro p hp
          exact hmemC p (by rw [hCcons]; simp [hp])
        have hnd : C2.Nodup := by
          have h0 := hok3.nodup
          rw [hflat_eq3] at h0
          have h1 := (List.nodup_append.1 h0).2.1
          have h2 := (List.nodup_append.1 h1).2.1
          have h3 := (List.nodup_append.1 h2).1
          rw [hCcons] at h3
          exact (List.nodup_cons.1 h3).2
        refine length_le_of_nodup_lt hnd ?_
        intro x hx
        exact hok3.bounded x (hsub x hx)
      have hrc := runEnd_char hchC2 hkeysC hstop s3.heapSize hfuel
      rw [hrc]
      have hgl : lastD none (c0 :: C2) = some ((c0 :: C2).getLast (by simp)) :=
        lastD_eq_some_getLast _ (by simp)
      have hgl2 : lastD none (c0 :: C2) = some cl := by
        rw [← hCcons, hCdec, lastD_concat]
      have h4 : some ((c0 :: C2).getLast (by simp)) = some cl := by
        rw [← hgl, hgl2]
      exact Option.some.inj h4
    -- state equation of the slow path
    have hclne : cl ≠ (s.New).2 := Ne.symm hne_ecl
    have hSlowEq := insertMoreLink_slow_eq v hlast hne_ebl hkbl hfindLoop hrunEnd hclne
    have hsegs_spliced : segs = L ++ (k % (s.New).1.hash_size, (A ++ C1) ++ cl :: (b0 :: B2)) :: R := by
      rw [hsegs2]
      have : A ++ C ++ b0 :: B2 = (A ++ C1) ++ cl :: (b0 :: B2) := by
        rw [hCdec]
        simp
      rw [this]
    have hokSplice := segsOk_splice_mid v hok2 hsegs_spliced (by simp) hnf hnf2 hlt
    rw [hmod] at hokSplice
    have hsegs'_eq : L ++ (k % s.hash_size, (A ++ C1) ++ cl :: (s.New).2 :: (b0 :: B2)) :: R
        = L ++ (k % s.hash_size, A ++ C ++ [(s.New).2] ++ b0 :: B2) :: R := by
      rw [hCdec]
      simp
    rw [hsegs'_eq] at hokSplice
    -- key/value bookkeeping of the spliced state
    obtain ⟨hskv1, hskv2, hskv3⟩ := splice_record_kv (s.New).1 (s.New).2 cl k v hne_ecl
    refine ⟨(s.New).2, hnf, ?_, ?_, ?_, ?_, ?_, ?_⟩
    · rw [hInsEq, hSlowEq]
      exact hokSplice
    · rw [hInsEq, hSlowEq]
      exact hskv1
    · rw [hInsEq, hSlowEq]
      exact hskv2
    · intro q hq
      have hqe : q ≠ (s.New).2 := fun h => hnf (h ▸ hq)
      rw [hInsEq, hSlowEq]
      rcases hskv3 q hqe with ⟨ha, hb⟩
      refine ⟨?_, ?_⟩
      · show ((Function.update (Function.update (s.New).1.heap (s.New).2
          ⟨k, v, ((s.New).1.heap cl).tail⟩) cl
          { (s.New).1.heap cl with tail := some (s.New).2 }) q).key = (s.heap q).key
        rw [ha, hheap q hq]
      · show ((Function.update (Function.update (s.New).1.heap (s.New).2
          ⟨k, v, ((s.New).1.heap cl).tail⟩) cl
          { (s.New).1.heap cl with tail := some (s.New).2 }) q).val = (s.heap q).val
        rw [hb, hheap q hq]
    · rw [hInsEq, hSlowEq]
      show (s.New).1.hash_size = s.hash_size
      exact hhsz
    · rw [hInsEq, hSlowEq]
      show (s.New).1.allocated = s.allocated ++ (if fr = [] then [s.heapSize] else [])
      exact hal

/-
  Reachable states: the public-API operations with their documented
  preconditions, together with the trace of operations performed, and the
  per-key insertion history derived from a trace.
-/

/-- A public-API operation of the container. -/
inductive Op (V : Type) where
  | setSize (sz : Nat)
  | insert (k : Nat) (v : V)
  | insertMore (k : Nat) (v : V)
  | clear
  | delete (p : Nat)

/-- One step of the per-key insertion history: Insert and InsertMore of
the key append its value, Clear resets the history, the rest leave it
unchanged. -/
def insertedStep (k : Nat) (acc : List V) : Op V → List V
  | .insert k2 v => if k2 = k then acc ++ [v] else acc
  | .insertMore k2 v => if k2 = k then acc ++ [v] else acc
  | .clear => []
  | _ => acc

/-- The values inserted for key k since the last Clear, in insertion
order. -/
def insertedFor (k : Nat) (t : List (Op V)) : List V :=
  t.foldl (insertedStep k) []

theorem insertedFor_concat (k : Nat) (t : List (Op V)) (op : Op V) :
    insertedFor k (t ++ [op]) = insertedStep k (insertedFor k t) op := by
  simp [insertedFor, List.foldl_append]

/-- The states reachable through the public API respecting the documented
preconditions, carrying the trace of operations performed.  SetSize
requires an empty container, Insert requires a configured table and an
absent key, InsertMore requires a present key, and Delete is performed on
caller-owned nodes: valid addresses that are neither live nor already on
the free list. -/
inductive ReachT [Inhabited V] : HashList V → List (Op V) → Prop where
  | init : ReachT (HashList.init V) []
  | setSize {s : HashList V} {t : List (Op V)} {sz : Nat} :
      ReachT s t → s.list_head = none → s.bucket_list_tail = none →
      ReachT (s.SetSize sz) (t ++ [Op.setSize sz])
  | insert {s : HashList V} {t : List (Op V)} {k : Nat} {v : V} :
      ReachT s t → 0 < s.hash_size → s.Find k = none →
      ReachT (s.Insert k v) (t ++ [Op.insert k v])
  | insertMore {s : HashList V} {t : List (Op V)} {k : Nat} {v : V} :
      ReachT s t → s.Find k ≠ none →
      ReachT (s.InsertMore k v) (t ++ [Op.insertMore k v])
  | clear {s : HashList V} {t : List (Op V)} :
      ReachT s t → ReachT (s.Clear).1 (t ++ [Op.clear])
  | delete {s : HashList V} {t : List (Op V)} {p : Nat} :
      ReachT s t → p < s.heapSize →
      p ∉ s.chainPtrs s.list_head s.heapSize → p ∉ s.freedPtrs →
      ReachT (s.Delete p) (t ++ [Op.delete p])

/-- A state is reachable if some trace of precondition-respecting
operations produces it. -/
def Reach [Inhabited V] (s : HashList V) : Prop := ∃ t, ReachT s t

/-- Keys grouped: for every key, its occurrences under the key function
form one contiguous block of the pointer list. -/
def GroupedKeys (f : Nat → Nat) (ps : List Nat) : Prop :=
  ∀ k, ∃ A C B, ps = A ++ C ++ B ∧ (∀ p ∈ C, f p = k) ∧
    (∀ p ∈ A, f p ≠ k) ∧ (∀ p ∈ B, f p ≠ k)

theorem groupedKeys_nil (f : Nat → Nat) : GroupedKeys f [] :=
  fun _ => ⟨[], [], [], by simp, by simp, by simp, by simp⟩

theorem groupedKeys_singleton (f : Nat → Nat) (e : Nat) : GroupedKeys f [e] := by
  intro k
  by_cases hk : f e = k
  · exact ⟨[], [e], [], by simp, by simpa using hk, by simp, by simp⟩
  · exact ⟨[e], [], [], by simp, by simp, by simpa using hk, by simp⟩

/-- Appending an element whose key does not yet occur keeps the keys
grouped. -/
theorem groupedKeys_append_fresh {f : Nat → Nat} {ps : List Nat} {e : Nat}
    (hg : GroupedKeys f ps) (hfresh : ∀ p ∈ ps, f p ≠ f e) :
    GroupedKeys f (ps ++ [e]) := by
  intro k
  by_cases hk : f e = k
  · exact ⟨ps, [e], [], by simp, by simpa using hk,
      fun p hp => hk ▸ hfresh p hp, by simp⟩
  · obtain ⟨A, C, B, hdec, hC, hA, hB⟩ := hg k
    refine ⟨A, C, B ++ [e], by rw [hdec]; simp, hC, hA, ?_⟩
    intro p hp
    rcases List.mem_append.1 hp with h | h
    · exact hB p h
    · have : p = e := by simpa using h
      exact this ▸ hk

/-- Splicing an element of key k right after the contiguous run of key k
keeps the keys grouped. -/
theorem groupedKeys_splice {f : Nat → Nat} {A C B : List Nat} {e k : Nat}
    (hg : GroupedKeys f (A ++ C ++ B))
    (hCk : ∀ p ∈ C, f p = k) (hCne : C ≠ [])
    (hAk : ∀ p ∈ A, f p ≠ k) (hBk : ∀ p ∈ B, f p ≠ k)
    (hek : f e = k) :
    GroupedKeys f (A ++ C ++ [e] ++ B) := by
  intro k2
  by_cases hk2 : k2 = k
  · subst hk2
    refine ⟨A, C ++ [e], B, by simp, ?_, hAk, hBk⟩
    intro p hp
    rcases List.mem_append.1 hp with h | h
    · exact hCk p h
    · have : p = e := by simpa using h
      exact this ▸ hek
  · obtain ⟨A2, C2, B2, hdec, hC2, hA2, hB2⟩ := hg k2
    have hP : (A ++ C) ++ B = A2 ++ (C2 ++ B2) := by
      simpa [List.append_assoc] using hdec
    have hek2 : f e ≠ k2 := by
      rw [hek]
      exact fun h => hk2 h.symm
    rcases List.append_eq_append_iff.1 hP with ⟨w, hw1, hw2⟩ | ⟨w, hw1, hw2⟩
    · -- A2 extends past the run: A2 = (A ++ C) ++ w, B = w ++ (C2 ++ B2)
      refine ⟨((A ++ C) ++ [e]) ++ w, C2, B2, ?_, hC2, ?_, hB2⟩
      · rw [hw2]
        simp
      · intro p hp
        rcases List.mem_append.1 hp with h | h
        · rcases List.mem_append.1 h with h2 | h2
          · exact hA2 p (by rw [hw1]; exact List.mem_append.2 (Or.inl h2))
          · have hpe : p = e := by simpa using h2
            exact hpe ▸ hek2
        · exact hA2 p (by rw [hw1]; exact List.mem_append.2 (Or.inr h))
    · -- A ++ C = A2 ++ w, C2 ++ B2 = w ++ B
      rcases List.append_eq_append_iff.1 hw2 with ⟨u, hu1, hu2⟩ | ⟨u, hu1, hu2⟩
      · -- w = C2 ++ u, B2 = u ++ B: the whole k2-block lies inside A ++ C
        refine ⟨A2, C2, (u ++ [e]) ++ B, ?_, hC2, hA2, ?_⟩
        · have hx : A ++ C = A2 ++ C2 ++ u := by
            rw [hw1, hu1]
            simp
          calc A ++ C ++ [e] ++ B = (A ++ C) ++ [e] ++ B := by simp
          _ = (A2 ++ C2 ++ u) ++ [e] ++ B := by rw [hx]
          _ = A2 ++ C2 ++ ((u ++ [e]) ++ B) := by simp
        · intro p hp
          rcases List.mem_append.1 hp with h | h
          · rcases List.mem_append.1 h with h2 | h2
            · exact hB2 p (by rw [hu2]; exact List.mem_append.2 (Or.inl h2))
            · have hpe : p = e := by simpa using h2
              exact hpe ▸ hek2
          · exact hB2 p (by rw [hu2]; exact List.mem_append.2 (Or.inr h))
      · -- C2 = w ++ u, B = u ++ B2
        rcases List.eq_nil_or_concat w with rfl | ⟨w1, wl, hwdec⟩
        · -- w = []: A ++ C = A2 and the k2-block starts inside B
          refine ⟨A2 ++ [e], C2, B2, ?_, hC2, ?_, hB2⟩
          · have hx : A ++ C = A2 := by simpa using hw1
            have hu0 : C2 = u := by simpa using hu1
            calc A ++ C ++ [e] ++ B = (A ++ C) ++ [e] ++ B := by simp
            _ = A2 ++ [e] ++ (u ++ B2) := by rw [hx, hu2]
            _ = (A2 ++ [e]) ++ C2 ++ B2 := by rw [hu0]; simp
          · intro p hp
            rcases List.mem_append.1 hp with h | h
            · exact hA2 p h
            · have : p = e := by simpa using h
              exact this ▸ hek2
        · -- w ≠ []: the run of key k would end with a k2 element
          exfalso
          rw [List.concat_eq_append] at hwdec
          obtain ⟨C1, cl, hCdec⟩ : ∃ C1 cl, C = C1 ++ [cl] := by
            rcases List.eq_nil_or_concat C with h | ⟨C1, cl, h⟩
            · exact absurd h hCne
            · exact ⟨C1, cl, by simpa [List.concat_eq_append] using h⟩
          have hlast1 : lastD none (A ++ C) = some cl := by
            rw [hCdec]
            have hx : A ++ (C1 ++ [cl]) = (A ++ C1) ++ [cl] := by simp
            rw [hx, lastD_concat]
          have hlast2 : lastD none (A ++ C) = some wl := by
            rw [hw1, hwdec]
            have hx : A2 ++ (w1 ++ [wl]) = (A2 ++ w1) ++ [wl] := by simp
            rw [hx, lastD_concat]
          have hclwl : cl = wl := by
            have := hlast1.symm.trans hlast2
            exact Option.some.inj this
          have hwl_C2 : wl ∈ C2 := by
            rw [hu1, hwdec]
            simp
          have h1 : f wl = k2 := hC2 wl hwl_C2
          have h2 : f cl = k := hCk cl (by simp [hCdec])
          rw [hclwl] at h2
          rw [h2] at h1
          exact hk2 h1.symm

/-- The values stored for key k among the pointers ps, in order. -/
def keyVals (s : HashList V) (k : Nat) (ps : List Nat) : List V :=
  (ps.filter (fun p => (s.heap p).key == k)).map (fun p => (s.heap p).val)

@[simp] theorem keyVals_nil (s : HashList V) (k : Nat) : keyVals s k [] = [] := rfl

theorem keyVals_append (s : HashList V) (k : Nat) (xs ys : List Nat) :
    keyVals s k (xs ++ ys) = keyVals s k xs ++ keyVals s k ys := by
  simp [keyVals]

theorem keyVals_of_none (s : HashList V) (k : Nat) {ps : List Nat}
    (h : ∀ p ∈ ps, (s.heap p).key ≠ k) : keyVals s k ps = [] := by
  unfold keyVals
  have : ps.filter (fun p => (s.heap p).key == k) = [] := by
    refine List.filter_eq_nil.2 (fun p hp => ?_)
    simpa using h p hp
  rw [this]
  rfl

theorem keyVals_of_all (s : HashList V) (k : Nat) {ps : List Nat}
    (h : ∀ p ∈ ps, (s.heap p).key = k) :
    keyVals s k ps = ps.map (fun p => (s.heap p).val) := by
  unfold keyVals
  have : ps.filter (fun p => (s.heap p).key == k) = ps := by
    refine List.filter_eq_self.2 (fun p hp => ?_)
    simpa using h p hp
  rw [this]

theorem keyVals_congr {s s' : HashList V} (k : Nat) {ps : List Nat}
    (h : ∀ p ∈ ps, (s'.heap p).key = (s.heap p).key ∧ (s'.heap p).val = (s.heap p).val) :
    keyVals s' k ps = keyVals s k ps := by
  induction ps with
  | nil => rfl
  | cons p ps ih =>
    have hp := h p (by simp)
    have ih2 := ih (fun q hq => h q (by simp [hq]))
    unfold keyVals at ih2 ⊢
    simp only [List.filter_cons, hp.1]
    by_cases hk : (s.heap p).key == k
    · rw [if_pos hk, if_pos hk]
      simp only [List.map_cons, hp.2]
      rw [ih2]
    · rw [if_neg hk, if_neg hk]
      exact ih2

theorem keyVals_singleton (s : HashList V) (k e : Nat) (hk : (s.heap e).key = k) :
    keyVals s k [e] = [(s.heap e).val] := by
  simp [keyVals, hk]

theorem keyVals_singleton_ne (s : HashList V) (k e : Nat) (hk : (s.heap e).key ≠ k) :
    keyVals s k [e] = [] := by
  simp [keyVals, hk]

/-- An empty stored list forces an empty segment list. -/
theorem segs_nil_of_flat_nil {segs : List (Nat × List Nat)}
    (hflat : segFlat segs = []) (hne : ∀ sg ∈ segs, sg.2 ≠ []) : segs = [] := by
  cases segs with
  | nil => rfl
  | cons sg rest =>
    exfalso
    have h1 : sg.2 ++ segFlat rest = [] := by simpa using hflat
    have h2 : sg.2 = [] := by
      rcases List.append_eq_nil.1 h1 with ⟨h2, -⟩
      exact h2
    exact hne sg (by simp) h2

/-- A live pointer with key k lies in the segment of k's bucket. -/
theorem mem_segPtrsAt_of_key {s : HashList V} {segs : List (Nat × List Nat)} {fr : List Nat}
    (hs : SegsOk s segs fr) {p k : Nat}
    (hp : p ∈ segFlat segs) (hk : (s.heap p).key = k) :
    p ∈ segPtrsAt segs (k % s.hash_size) := by
  simp only [segFlat, List.mem_flatten] at hp
  obtain ⟨l, hl, hpl⟩ := hp
  obtain ⟨sg, hsg, rfl⟩ := List.mem_map.1 hl
  obtain ⟨j, ps⟩ := sg
  have hj : (s.heap p).key % s.hash_size = j := hs.segKeys (j, ps) hsg p hpl
  rw [hk] at hj
  obtain ⟨L, R, rfl⟩ := List.append_of_mem hsg
  have hat : segPtrsAt (L ++ (j, ps) :: R) j = ps :=
    segPtrsAt_eq hs.idxNodup rfl
  rw [hj, hat]
  exact hpl

/-- If Find returns none, no live element carries the key. -/
theorem no_key_of_find_none {s : HashList V} {segs : List (Nat × List Nat)} {fr : List Nat}
    (hs : SegsOk s segs fr) {k : Nat} (hfind : s.Find k = none) :
    ∀ p ∈ segFlat segs, (s.heap p).key ≠ k := by
  intro p hp hk
  have hmem := mem_segPtrsAt_of_key hs hp hk
  have hchar := find_char hs k
  rw [hfind] at hchar
  have := List.find?_eq_none.1 hchar.symm p hmem
  simp [hk] at this

/-- The grouped-runs and insertion-history invariant over reachable
states: the state satisfies the segment invariant, the keys inside every
segment are grouped into contiguous runs, and for every key the stored
values with that key, in list order, are exactly the values inserted for
it since the last Clear. -/
def Good [Inhabited V] (s : HashList V) (t : List (Op V)) : Prop :=
  ∃ segs fr, SegsOk s segs fr ∧
    (∀ sg ∈ segs, GroupedKeys (fun p => (s.heap p).key) sg.2) ∧
    (∀ k, keyVals s k (segFlat segs) = insertedFor k t)

theorem groupedKeys_congr {f f2 : Nat → Nat} {ps : List Nat}
    (hfe : ∀ p ∈ ps, f2 p = f p) (hg : GroupedKeys f ps) : GroupedKeys f2 ps := by
  intro k
  obtain ⟨A, C, B, hps, hC, hA, hB⟩ := hg k
  have hmA : ∀ p ∈ A, p ∈ ps := fun p hp => by rw [hps]; simp [hp]
  have hmC : ∀ p ∈ C, p ∈ ps := fun p hp => by rw [hps]; simp [hp]
  have hmB : ∀ p ∈ B, p ∈ ps := fun p hp => by rw [hps]; simp [hp]
  refine ⟨A, C, B, hps, ?_, ?_, ?_⟩
  · intro p hp
    rw [hfe p (hmC p hp)]
    exact hC p hp
  · intro p hp
    rw [hfe p (hmA p hp)]
    exact hA p hp
  · intro p hp
    rw [hfe p (hmB p hp)]
    exact hB p hp

theorem segsOk_init (V : Type) [Inhabited V] : SegsOk (HashList.init V) [] [] where
  chain := rfl
  nodup := by simp
  bounded := by simp
  nonemptySegs := by simp
  segKeys := by simp
  idxNodup := by simp
  idxLt := by simp
  lastElem := by simp
  inactive := fun _ _ => rfl
  prevOk := trivial
  tailOk := rfl
  hszLe := Nat.le_refl 0
  heapBlocks := by simp [HashList.init]
  freeChain := rfl
  freeNodup := by simp
  freeBounded := by simp
  freeDisj := by simp

theorem flat_nil_of_none {h : Nat → Elem V} {l : List Nat}
    (hc : PtrChain h none l none) : l = [] := by
  cases l with
  | nil => rfl
  | cons p ps => exact absurd hc.1 (by simp)

/-- Pointers stored in segments whose bucket index differs from k's bucket
cannot carry key k. -/
theorem keys_ne_of_flat_subset {s : HashList V} {segs : List (Nat × List Nat)} {fr : List Nat}
    (hs : SegsOk s segs fr) {part : List (Nat × List Nat)} {k : Nat}
    (hsub : ∀ sg ∈ part, sg ∈ segs) (hni : k % s.hash_size ∉ segIdxs part) :
    ∀ p ∈ segFlat part, (s.heap p).key ≠ k := by
  intro p hp hk
  simp only [segFlat, List.mem_flatten] at hp
  obtain ⟨l, hl, hpl⟩ := hp
  obtain ⟨sg, hsg, rfl⟩ := List.mem_map.1 hl
  have hj : (s.heap p).key % s.hash_size = sg.1 := hs.segKeys sg (hsub sg hsg) p hpl
  rw [hk] at hj
  exact hni (hj ▸ List.mem_map.2 ⟨sg, hsg, rfl⟩)

/-- Effect on the per-key value lists of splicing a new element carrying
key k into the stored list after every existing element of key k. -/
theorem keyVals_splice {s s2 : HashList V} {X Y : List Nat} {e k : Nat} {v : V}
    (hq : ∀ p ∈ X ++ Y, (s2.heap p).key = (s.heap p).key ∧ (s2.heap p).val = (s.heap p).val)
    (hek : (s2.heap e).key = k) (hev : (s2.heap e).val = v)
    (hYfree : ∀ p ∈ Y, (s.heap p).key ≠ k) (k2 : Nat) :
    keyVals s2 k2 (X ++ [e] ++ Y) =
      if k = k2 then keyVals s k2 (X ++ Y) ++ [v] else keyVals s k2 (X ++ Y) := by
  have hqX : ∀ p ∈ X, (s2.heap p).key = (s.heap p).key ∧ (s2.heap p).val = (s.heap p).val :=
    fun p hp => hq p (List.mem_append.2 (Or.inl hp))
  have hqY : ∀ p ∈ Y, (s2.heap p).key = (s.heap p).key ∧ (s2.heap p).val = (s.heap p).val :=
    fun p hp => hq p (List.mem_append.2 (Or.inr hp))
  simp only [keyVals_append]
  rw [keyVals_congr k2 hqX, keyVals_congr k2 hqY]
  by_cases hk2 : k = k2
  · subst hk2
    rw [keyVals_singleton _ _ _ hek, hev]
    have hY0 : keyVals s k Y = [] := keyVals_of_none s k hYfree
    rw [hY0, if_pos rfl]
    simp
  · rw [keyVals_singleton_ne, if_neg hk2]
    · simp
    · rw [hek]
      exact hk2

/-- Every reachable state satisfies the grouped-runs and insertion-history
invariant with respect to its trace. -/
theorem reachT_good [Inhabited V] {s : HashList V} {t : List (Op V)}
    (h : ReachT s t) : Good s t := by
  induction h with
  | init =>
    refine ⟨[], [], segsOk_init V, by simp, ?_⟩
    intro k
    simp [insertedFor]
  | @setSize s t sz hr hlh hbt ih =>
    obtain ⟨segs, fr, hs, hgr, hkv⟩ := ih
    have hflat : segFlat segs = [] := flat_nil_of_none (hlh ▸ hs.chain)
    have hsegs : segs = [] := segs_nil_of_flat_nil hflat hs.nonemptySegs
    subst hsegs
    obtain ⟨hs2, -, -, -, -, -⟩ := segsOk_SetSize hs sz
    refine ⟨[], fr, hs2, by simp, ?_⟩
    intro k
    have hkv0 := hkv k
    simp only [segFlat_nil, keyVals_nil] at hkv0
    rw [insertedFor_concat]
    simp only [segFlat_nil, keyVals_nil, insertedStep]
    exact hkv0
  | @insert s t k v hr hsz hfind ih =>
    obtain ⟨segs, fr, hs, hgr, hkv⟩ := ih
    have hfree : ∀ p ∈ segFlat segs, (s.heap p).key ≠ k := no_key_of_find_none hs hfind
    obtain ⟨e, segs2, hs2, hef, hek, hev, hq, hhsz, hall, hshape⟩ := segsOk_Insert hs k v hsz
    refine ⟨segs2, newFr s fr, hs2, ?_, ?_⟩
    · rcases hshape with ⟨hni, rfl⟩ | ⟨L, ps, R, hsegs, hiL, hiR, rfl⟩
      · intro sg hsg
        rcases List.mem_append.1 hsg with hsg | hsg
        · exact groupedKeys_congr
            (fun p hp => ((hq p (mem_segFlat_of_mem hsg hp)).1)) (hgr sg hsg)
        · have hsge : sg = (k % s.hash_size, [e]) := by simpa using hsg
          subst hsge
          exact groupedKeys_singleton _ e
      · intro sg hsg
        rcases List.mem_append.1 hsg with hsgL | hsg2
        · refine groupedKeys_congr
            (fun p hp => ((hq p (mem_segFlat_of_mem ?_ hp)).1)) (hgr sg ?_)
          · rw [hsegs]
            exact List.mem_append.2 (Or.inl hsgL)
          · rw [hsegs]
            exact List.mem_append.2 (Or.inl hsgL)
        · rcases List.mem_cons.1 hsg2 with hsge | hsgR
          · subst hsge
            have hmid : (k % s.hash_size, ps) ∈ segs := by
              rw [hsegs]
              simp
            have hgmid : GroupedKeys (fun p => ((s.Insert k v).heap p).key) ps :=
              groupedKeys_congr
                (fun p hp => ((hq p (mem_segFlat_of_mem hmid hp)).1))
                (hgr _ hmid)
            refine groupedKeys_append_fresh hgmid ?_
            intro p hp
            rw [(hq p (mem_segFlat_of_mem hmid hp)).1, hek]
            exact hfree p (mem_segFlat_of_mem hmid hp)
          · refine groupedKeys_congr
              (fun p hp => ((hq p (mem_segFlat_of_mem ?_ hp)).1)) (hgr sg ?_)
            · rw [hsegs]
              exact List.mem_append.2 (Or.inr (List.mem_cons.2 (Or.inr hsgR)))
            · rw [hsegs]
              exact List.mem_append.2 (Or.inr (List.mem_cons.2 (Or.inr hsgR)))
    · rcases hshape with ⟨hni, rfl⟩ | ⟨L, ps, R, hsegs, hiL, hiR, rfl⟩
      · intro k2
        rw [insertedFor_concat]
        have hfl2 : segFlat (segs ++ [(k % s.hash_size, [e])])
            = segFlat segs ++ [e] ++ [] := by simp
        rw [hfl2]
        have hq2 : ∀ p ∈ segFlat segs ++ [],
            (((s.Insert k v)).heap p).key = (s.heap p).key ∧
            (((s.Insert k v)).heap p).val = (s.heap p).val := by
          intro p hp
          exact hq p (by simpa using hp)
        rw [keyVals_splice hq2 hek hev (by simp) k2]
        simp only [List.append_nil]
        rw [hkv k2]
        by_cases hk2 : k = k2 <;> simp [insertedStep, hk2]
      · intro k2
        rw [insertedFor_concat]
        have hfl2 : segFlat (L ++ (k % s.hash_size, ps ++ [e]) :: R)
            = (segFlat L ++ ps) ++ [e] ++ segFlat R := by simp
        have hfl : (segFlat L ++ ps) ++ segFlat R = segFlat segs := by
          rw [hsegs]
          simp
        rw [hfl2]
        have hq2 : ∀ p ∈ (segFlat L ++ ps) ++ segFlat R,
            (((s.Insert k v)).heap p).key = (s.heap p).key ∧
            (((s.Insert k v)).heap p).val = (s.heap p).val := by
          intro p hp
          refine hq p ?_
          rw [← hfl]
          exact hp
        have hYfree : ∀ p ∈ segFlat R, (s.heap p).key ≠ k := by
          intro p hp
          refine hfree p ?_
          rw [← hfl]
          simp [hp]
        rw [keyVals_splice hq2 hek hev hYfree k2]
        rw [hfl, hkv k2]
        by_cases hk2 : k = k2 <;> simp [insertedStep, hk2]
  | @insertMore s t k v hr hfind ih =>
    obtain ⟨segs, fr, hs, hgr, hkv⟩ := ih
    have hchar := find_char hs k
    have hmem : k % s.hash_size ∈ segIdxs segs := by
      by_contra hni
      rw [segPtrsAt_of_not_mem hni] at hchar
      exact hfind (by simpa using hchar)
    obtain ⟨L, ps, R, hsegs, hiL, hiR, hat⟩ := segs_split hs.idxNodup hmem
    have hex : ∃ p ∈ ps, (s.heap p).key = k := by
      rw [hat] at hchar
      rcases ho : s.Find k with _ | p
      · exact absurd ho hfind
      · rw [ho] at hchar
        have hpr := List.find?_some hchar.symm
        have hpmem := List.mem_of_find?_eq_some hchar.symm
        exact ⟨p, hpmem, by simpa using hpr⟩
    have hgrm : GroupedKeys (fun p => (s.heap p).key) ps :=
      hgr (k % s.hash_size, ps) (by rw [hsegs]; simp)
    obtain ⟨A, C, B, hps, hCk, hAk, hBk⟩ := hgrm k
    have hCne : C ≠ [] := by
      rintro rfl
      obtain ⟨p, hp, hkp⟩ := hex
      rw [hps] at hp
      simp only [List.append_nil, List.mem_append] at hp
      rcases hp with hp | hp
      · exact hAk p hp hkp
      · exact hBk p hp hkp
    subst hps
    obtain ⟨e, hef, hs2, hek, hev, hq, hhsz, hall⟩ :=
      segsOk_InsertMore v hs hsegs hCne hAk hCk hBk
    refine ⟨L ++ (k % s.hash_size, A ++ C ++ [e] ++ B) :: R, newFr s fr, hs2, ?_, ?_⟩
    · intro sg hsg
      rcases List.mem_append.1 hsg with hsgL | hsg2
      · refine groupedKeys_congr
          (fun p hp => ((hq p (mem_segFlat_of_mem ?_ hp)).1)) (hgr sg ?_)
        · rw [hsegs]
          exact List.mem_append.2 (Or.inl hsgL)
        · rw [hsegs]
          exact List.mem_append.2 (Or.inl hsgL)
      · rcases List.mem_cons.1 hsg2 with hsge | hsgR
        · subst hsge
          have hmid : (k % s.hash_size, A ++ C ++ B) ∈ segs := by
            rw [hsegs]
            simp
          have hsub : ∀ p ∈ A ++ C ++ B, p ∈ segFlat segs :=
            fun p hp => mem_segFlat_of_mem hmid hp
          have hkey : ∀ p ∈ A ++ C ++ B,
              ((s.InsertMore k v).heap p).key = (s.heap p).key :=
            fun p hp => (hq p (hsub p hp)).1
          refine groupedKeys_splice
              (groupedKeys_congr hkey (hgr _ hmid)) ?_ hCne ?_ ?_ hek
          · intro p hp
            rw [hkey p (by simp [hp])]
            exact hCk p hp
          · intro p hp
            rw [hkey p (by simp [hp])]
            exact hAk p hp
          · intro p hp
            rw [hkey p (by simp [hp])]
            exact hBk p hp
        · refine groupedKeys_congr
            (fun p hp => ((hq p (mem_segFlat_of_mem ?_ hp)).1)) (hgr sg ?_)
          · rw [hsegs]
            exact List.mem_append.2 (Or.inr (List.mem_cons.2 (Or.inr hsgR)))
          · rw [hsegs]
            exact List.mem_append.2 (Or.inr (List.mem_cons.2 (Or.inr hsgR)))
    · intro k2
      rw [insertedFor_concat]
      have hfl2 : segFlat (L ++ (k % s.hash_size, A ++ C ++ [e] ++ B) :: R)
          = (segFlat L ++ (A ++ C)) ++ [e] ++ (B ++ segFlat R) := by simp
      have hfl : (segFlat L ++ (A ++ C)) ++ (B ++ segFlat R) = segFlat segs := by
        rw [hsegs]
        simp
      rw [hfl2]
      have hq2 : ∀ p ∈ (segFlat L ++ (A ++ C)) ++ (B ++ segFlat R),
          ((s.InsertMore k v).heap p).key = (s.heap p).key ∧
          ((s.InsertMore k v).heap p).val = (s.heap p).val := by
        intro p hp
        exact hq p (hfl ▸ hp)
      have hRfree : ∀ p ∈ segFlat R, (s.heap p).key ≠ k := by
        refine keys_ne_of_flat_subset hs ?_ hiR
        intro sg hsg
        rw [hsegs]
        exact List.mem_append.2 (Or.inr (List.mem_cons.2 (Or.inr hsg)))
      have hYfree : ∀ p ∈ B ++ segFlat R, (s.heap p).key ≠ k := by
        intro p hp
        rcases List.mem_append.1 hp with hp | hp
        · exact hBk p hp
        · exact hRfree p hp
      rw [keyVals_splice hq2 hek hev hYfree k2]
      rw [hfl, hkv k2]
      by_cases hk2 : k = k2 <;> simp [insertedStep, hk2]
  | @clear s t hr ih =>
    obtain ⟨segs, fr, hs, hgr, hkv⟩ := ih
    obtain ⟨hs2, -, -, -, -, -, -, -⟩ := segsOk_Clear hs
    refine ⟨[], fr, hs2, by simp, ?_⟩
    intro k
    rw [insertedFor_concat]
    simp [insertedStep]
  | @delete s t p hr hp1 hp2 hp3 ih =>
    obtain ⟨segs, fr, hs, hgr, hkv⟩ := ih
    have hlenf : (segFlat segs).length ≤ s.heapSize :=
      length_le_of_nodup_lt hs.nodup hs.bounded
    have hflat : s.chainPtrs s.list_head s.heapSize = segFlat segs :=
      chainPtrs_eq hs.chain hlenf
    have hp2b : p ∉ segFlat segs := by
      rw [← hflat]
      exact hp2
    have hlenr : fr.length ≤ s.heapSize :=
      length_le_of_nodup_lt hs.freeNodup hs.freeBounded
    have hp3b : p ∉ fr := by
      have hfr : s.chainPtrs s.freed_head s.heapSize = fr :=
        chainPtrs_eq hs.freeChain hlenr
      rw [← hfr]
      exact hp3
    obtain ⟨hs2, hq, hhsz, hhs, hal, hlh⟩ := segsOk_Delete hs hp1 hp2b hp3b
    refine ⟨segs, p :: fr, hs2, ?_, ?_⟩
    · intro sg hsg
      refine groupedKeys_congr (fun q hqm => ?_) (hgr sg hsg)
      rw [hq q ?_]
      intro he
      subst he
      exact hp2b (mem_segFlat_of_mem hsg hqm)
    · intro k
      rw [insertedFor_concat]
      have hq2 : ∀ q ∈ segFlat segs,
          ((s.Delete p).heap q).key = (s.heap q).key ∧
          ((s.Delete p).heap q).val = (s.heap q).val := by
        intro q hqm
        have hne : q ≠ p := fun he => hp2b (he ▸ hqm)
        rw [hq q hne]
        exact ⟨rfl, rfl⟩
      rw [keyVals_congr k hq2, hkv k]
      simp [insertedStep]

theorem mem_of_mem_keyVals {s : HashList V} {k : Nat} {ps : List Nat} {v : V}
    (hv : v ∈ keyVals s k ps) : ∃ p ∈ ps, (s.heap p).key = k ∧ (s.heap p).val = v := by
  simp only [keyVals, List.mem_map, List.mem_filter, beq_iff_eq] at hv
  obtain ⟨p, ⟨hp, hk⟩, hval⟩ := hv
  exact ⟨p, hp, hk, hval⟩

/-- In every reachable state the live pairs split around one contiguous
run holding, in insertion order, exactly the values inserted for the key
since the last reset; Find returns the head of that run. -/
theorem good_run [Inhabited V] {s : HashList V} {t : List (Op V)}
    (h : ReachT s t) (k : Nat) :
    ∃ A C B, s.liveKVs = A ++ C ++ B ∧
      C = (insertedFor k t).map (fun v => (k, v)) ∧
      (∀ q ∈ A, q.1 ≠ k) ∧ (∀ q ∈ B, q.1 ≠ k) ∧
      (s.Find k).map s.kvAt = C.head? := by
  obtain ⟨segs, fr, hs, hgr, hkv⟩ := reachT_good h
  have hlenf : (segFlat segs).length ≤ s.heapSize :=
    length_le_of_nodup_lt hs.nodup hs.bounded
  have hflat : s.chainPtrs s.list_head s.heapSize = segFlat segs :=
    chainPtrs_eq hs.chain hlenf
  have hlive : s.liveKVs = (segFlat segs).map s.kvAt := by
    unfold HashList.liveKVs HashList.chainKVs
    rw [hflat]
  have hchar := find_char hs k
  by_cases hmem : k % s.hash_size ∈ segIdxs segs
  · obtain ⟨L, ps, R, hsegs, hiL, hiR, hat⟩ := segs_split hs.idxNodup hmem
    have hgrm : GroupedKeys (fun p => (s.heap p).key) ps :=
      hgr (k % s.hash_size, ps) (by rw [hsegs]; simp)
    obtain ⟨A2, C2, B2, hps, hCk, hAk, hBk⟩ := hgrm k
    have hLfree : ∀ p ∈ segFlat L, (s.heap p).key ≠ k := by
      refine keys_ne_of_flat_subset hs ?_ hiL
      intro sg hsg
      rw [hsegs]
      exact List.mem_append.2 (Or.inl hsg)
    have hRfree : ∀ p ∈ segFlat R, (s.heap p).key ≠ k := by
      refine keys_ne_of_flat_subset hs ?_ hiR
      intro sg hsg
      rw [hsegs]
      exact List.mem_append.2 (Or.inr (List.mem_cons.2 (Or.inr hsg)))
    have hflat2 : segFlat segs = (segFlat L ++ A2) ++ C2 ++ (B2 ++ segFlat R) := by
      rw [hsegs, hps]
      simp
    have hins : insertedFor k t = C2.map (fun p => (s.heap p).val) := by
      rw [← hkv k, hflat2]
      simp only [keyVals_append]
      rw [keyVals_of_none s k hLfree, keyVals_of_none s k hAk,
          keyVals_of_none s k hBk, keyVals_of_none s k hRfree,
          keyVals_of_all s k hCk]
      simp
    have hCkv : C2.map s.kvAt = (insertedFor k t).map (fun v => (k, v)) := by
      rw [hins, List.map_map]
      refine List.map_congr_left ?_
      intro p hp
      simp [HashList.kvAt, hCk p hp]
    refine ⟨(segFlat L ++ A2).map s.kvAt, C2.map s.kvAt, (B2 ++ segFlat R).map s.kvAt,
        ?_, hCkv, ?_, ?_, ?_⟩
    · rw [hlive, hflat2]
      simp
    · intro q hq
      obtain ⟨p, hp, rfl⟩ := List.mem_map.1 hq
      show (s.heap p).key ≠ k
      rcases List.mem_append.1 hp with hp | hp
      · exact hLfree p hp
      · exact hAk p hp
    · intro q hq
      obtain ⟨p, hp, rfl⟩ := List.mem_map.1 hq
      show (s.heap p).key ≠ k
      rcases List.mem_append.1 hp with hp | hp
      · exact hBk p hp
      · exact hRfree p hp
    · rw [hchar, hat]
      cases hC2 : C2 with
      | nil =>
        have hnone : ps.find? (fun p => (s.heap p).key == k) = none := by
          refine List.find?_eq_none.2 ?_
          intro p hp
          rw [hps, hC2] at hp
          simp only [List.append_nil, List.mem_append] at hp
          rcases hp with hp | hp
          · simpa using hAk p hp
          · simpa using hBk p hp
        rw [hnone]
        simp
      | cons c0 C3 =>
        have hshape : ps = A2 ++ c0 :: (C3 ++ B2) := by
          rw [hps, hC2]
          simp
        rw [hshape, find?_run hAk (hCk c0 (by rw [hC2]; simp))]
        simp [HashList.kvAt, hCk c0 (by rw [hC2]; simp)]
  · have hat : segPtrsAt segs (k % s.hash_size) = [] := segPtrsAt_of_not_mem hmem
    have hfree : ∀ p ∈ segFlat segs, (s.heap p).key ≠ k := by
      intro p hp hk
      exact hmem (by
        have := mem_segPtrsAt_of_key hs hp hk
        rw [hat] at this
        simp at this)
    refine ⟨s.liveKVs, [], [], by simp, ?_, ?_, by simp, ?_⟩
    · rw [← hkv k, keyVals_of_none s k hfree]
      simp
    · intro q hq
      rw [hlive] at hq
      obtain ⟨p, hp, rfl⟩ := List.mem_map.1 hq
      exact hfree p hp
    · rw [hchar, hat]
      simp

theorem reach_find_kv [Inhabited V] {s : HashList V} {t : List (Op V)}
    (h : ReachT s t) (k : Nat) :
    (s.Find k).map s.kvAt = ((insertedFor k t).head?).map (fun v => (k, v)) := by
  obtain ⟨A, C, B, -, hC, -, -, hfind⟩ := good_run h k
  rw [hfind, hC, List.head?_map]

theorem reach_find_none_iff [Inhabited V] {s : HashList V} {t : List (Op V)}
    (h : ReachT s t) (k : Nat) :
    s.Find k = none ↔ insertedFor k t = [] := by
  have hkv := reach_find_kv h k
  constructor
  · intro hf
    rw [hf] at hkv
    cases hl : insertedFor k t with
    | nil => rfl
    | cons v0 vs =>
      rw [hl] at hkv
      simp at hkv
  · intro hl
    rw [hl] at hkv
    simp only [List.head?_nil, Option.map_none'] at hkv
    cases hf : s.Find k with
    | none => rfl
    | some p =>
      rw [hf] at hkv
      simp at hkv

theorem reach_find_some [Inhabited V] {s : HashList V} {t : List (Op V)}
    (h : ReachT s t) {k p : Nat} (hp : s.Find k = some p) :
    (s.heap p).key = k ∧ (insertedFor k t).head? = some (s.heap p).val := by
  have hkv := reach_find_kv h k
  rw [hp] at hkv
  cases hl : insertedFor k t with
  | nil =>
    rw [hl] at hkv
    simp at hkv
  | cons v0 vs =>
    rw [hl] at hkv
    simp only [Option.map_some', List.head?_cons] at hkv
    have : s.kvAt p = (k, v0) := by
      injection hkv
    unfold HashList.kvAt at this
    have h1 : (s.heap p).key = k := congrArg Prod.fst this
    have h2 : (s.heap p).val = v0 := congrArg Prod.snd this
    exact ⟨h1, by rw [h2]; rfl⟩

/-- Fold a list of key/value pairs into the table with Insert. -/
def insertAll [Inhabited V] (s : HashList V) (l : List (Nat × V)) : HashList V :=
  l.foldl (fun s2 kv => s2.Insert kv.1 kv.2) s

theorem insertedFor_insert_ops {k : Nat} {l : List (Nat × V)}
    (hk : ∀ kv ∈ l, kv.1 ≠ k) (acc : List V) :
    (l.map (fun kv => Op.insert kv.1 kv.2)).foldl (insertedStep k) acc = acc := by
  induction l generalizing acc with
  | nil => rfl
  | cons kv l2 ih =>
    have hk1 : kv.1 ≠ k := hk kv (by simp)
    simp only [List.map_cons, List.foldl_cons]
    rw [ih (fun q hq => hk q (by simp [hq]))]
    simp [insertedStep, hk1]

theorem insertedFor_insert_ops_mem {l : List (Nat × V)}
    (hnd : (l.map Prod.fst).Nodup) {k : Nat} {v : V} (hmem : (k, v) ∈ l) :
    (l.map (fun kv => Op.insert kv.1 kv.2)).foldl (insertedStep k) [] = [v] := by
  induction l with
  | nil => simp at hmem
  | cons kv l2 ih =>
    simp only [List.map_cons, List.nodup_cons] at hnd
    rcases List.mem_cons.1 hmem with hq | hq
    · subst hq
      simp only [List.map_cons, List.foldl_cons]
      have hstep : insertedStep k ([] : List V) (Op.insert k v) = [v] := by
        simp [insertedStep]
      rw [hstep]
      refine insertedFor_insert_ops ?_ [v]
      intro q hq2 hqk
      exact hnd.1 (by
        rw [← hqk]
        exact List.mem_map.2 ⟨q, hq2, rfl⟩)
    · have hk1 : kv.1 ≠ k := by
        intro he
        refine hnd.1 ?_
        rw [he]
        exact List.mem_map.2 ⟨(k, v), hq, rfl⟩
      simp only [List.map_cons, List.foldl_cons]
      have hstep : insertedStep k ([] : List V) (Op.insert kv.1 kv.2) = [] := by
        simp [insertedStep, hk1]
      rw [hstep]
      exact ih hnd.2 hq

theorem insertedFor_append (k : Nat) (t u : List (Op V)) :
    insertedFor k (t ++ u) = u.foldl (insertedStep k) (insertedFor k t) := by
  simp [insertedFor, List.foldl_append]

/-- Inserting pairwise-distinct fresh keys is a legal trace. -/
theorem insertAll_reachT [Inhabited V] {s : HashList V} {t : List (Op V)}
    (h : ReachT s t) (hsz : 0 < s.hash_size) {l : List (Nat × V)}
    (hnd : (l.map Prod.fst).Nodup)
    (hfresh : ∀ kv ∈ l, s.Find kv.1 = none) :
    ReachT (insertAll s l) (t ++ l.map (fun kv => Op.insert kv.1 kv.2)) := by
  induction l generalizing s t with
  | nil => simpa using h
  | cons kv l2 ih =>
    obtain ⟨k, v⟩ := kv
    simp only [List.map_cons, List.nodup_cons] at hnd
    have h1 : ReachT (s.Insert k v) (t ++ [Op.insert k v]) :=
      ReachT.insert h hsz (hfresh (k, v) (by simp))
    have hgood := reachT_good h
    obtain ⟨segs, fr, hs, -, -⟩ := hgood
    obtain ⟨e, segs2, hs2, -, -, -, -, hhsz, -, -⟩ := segsOk_Insert hs k v hsz
    have hsz2 : 0 < (s.Insert k v).hash_size := by
      rw [hhsz]
      exact hsz
    have hfresh2 : ∀ q ∈ l2, (s.Insert k v).Find q.1 = none := by
      intro q hq
      rw [reach_find_none_iff h1 q.1]
      rw [insertedFor_concat]
      have hq0 : insertedFor q.1 t = [] :=
        (reach_find_none_iff h q.1).1 (hfresh q (by simp [hq]))
      have hkq : k ≠ q.1 := by
        intro he
        exact hnd.1 (he ▸ List.mem_map.2 ⟨q, hq, rfl⟩)
      rw [hq0]
      simp [insertedStep, hkq]
    have hrest := ih h1 hsz2 hnd.2 hfresh2
    have htr : (t ++ [Op.insert k v]) ++ l2.map (fun kv => Op.insert kv.1 kv.2)
        = t ++ ((k, v) :: l2).map (fun kv => Op.insert kv.1 kv.2) := by
      simp
    rw [htr] at hrest
    exact hrest

theorem insertLink_frame (s2 : HashList V) (e k : Nat) (v : V) :
    (s2.insertLink e k v).hash_size = s2.hash_size ∧
    (s2.insertLink e k v).allocated = s2.allocated ∧
    (s2.insertLink e k v).heapSize = s2.heapSize ∧
    (s2.insertLink e k v).bucketsSize = s2.bucketsSize ∧
    (s2.insertLink e k v).freed_head = s2.freed_head := by
  unfold HashList.insertLink HashList.writeTail
  dsimp only
  repeat' split
  all_goals exact ⟨rfl, rfl, rfl, rfl, rfl⟩

theorem insertMoreLink_frame (s2 : HashList V) (e k : Nat) (v : V) :
    (s2.insertMoreLink e k v).hash_size = s2.hash_size ∧
    (s2.insertMoreLink e k v).allocated = s2.allocated ∧
    (s2.insertMoreLink e k v).heapSize = s2.heapSize ∧
    (s2.insertMoreLink e k v).bucketsSize = s2.bucketsSize ∧
    (s2.insertMoreLink e k v).freed_head = s2.freed_head := by
  unfold HashList.insertMoreLink HashList.writeTail
  dsimp only
  repeat' split
  all_goals exact ⟨rfl, rfl, rfl, rfl, rfl⟩

theorem New_frame [Inhabited V] (s : HashList V) :
    (s.New).1.hash_size = s.hash_size ∧
    (s.New).1.allocated
      = s.allocated ++ (if s.freed_head = none then [s.heapSize] else []) ∧
    (s.New).1.bucketsSize = s.bucketsSize := by
  unfold HashList.New
  cases hf : s.freed_head with
  | none => exact ⟨rfl, by simp, rfl⟩
  | some p => exact ⟨rfl, by simp, rfl⟩

theorem Insert_frame [Inhabited V] (s : HashList V) (k : Nat) (v : V) :
    (s.Insert k v).hash_size = s.hash_size ∧
    (s.Insert k v).allocated
      = s.allocated ++ (if s.freed_head = none then [s.heapSize] else []) := by
  obtain ⟨h1, h2, -, -, -⟩ := insertLink_frame (s.New).1 (s.New).2 k v
  obtain ⟨g1, g2, -⟩ := New_frame s
  exact ⟨h1.trans g1, h2.trans g2⟩

theorem InsertMore_frame [Inhabited V] (s : HashList V) (k : Nat) (v : V) :
    (s.InsertMore k v).hash_size = s.hash_size ∧
    (s.InsertMore k v).allocated
      = s.allocated ++ (if s.freed_head = none then [s.heapSize] else []) := by
  obtain ⟨h1, h2, -, -, -⟩ := insertMoreLink_frame (s.New).1 (s.New).2 k v
  obtain ⟨g1, g2, -⟩ := New_frame s
  exact ⟨h1.trans g1, h2.trans g2⟩

theorem SetSize_size (s : HashList V) (sz : Nat) : (s.SetSize sz).Size = sz := by
  unfold HashList.SetSize HashList.Size
  split
  all_goals rfl

/-- Walk the chain from cur, stopping at the stop pointer, collecting the
visited pointers. -/
def HashList.chainPtrsUntil (s : HashList V) : Option Nat → Option Nat → Nat → List Nat
  | _, _, 0 => []
  | cur, stop, fuel + 1 =>
    if cur = stop then []
    else
      match cur with
      | none => []
      | some p => p :: s.chainPtrsUntil (s.heap p).tail stop fuel

/-- The chain of elements belonging to the bucket at index i, as Find
scans it: from the bucket's chain head up to the element after the
bucket's last element; empty when the bucket's last element is null. -/
def HashList.bucketPtrs (s : HashList V) (i : Nat) : List Nat :=
  match (s.buckets i).last_elem with
  | none => []
  | some le => s.chainPtrsUntil (s.chainHead i) ((s.heap le).tail) s.heapSize

theorem chainPtrsUntil_char {s : HashList V} {start stop : Option Nat} {ps : List Nat}
    {fuel : Nat} (hc : PtrChain s.heap start ps stop)
    (hstop : ∀ p ∈ ps, some p ≠ stop) (hf : ps.length ≤ fuel) :
    s.chainPtrsUntil start stop fuel = ps := by
  induction ps generalizing start fuel with
  | nil =>
    have ha : start = stop := hc
    subst ha
    cases fuel <;> simp [HashList.chainPtrsUntil]
  | cons p ps ih =>
    obtain ⟨rfl, hrest⟩ := hc
    cases fuel with
    | zero => simp at hf
    | succ f =>
      have hne : (some p : Option Nat) ≠ stop := hstop p (by simp)
      simp only [HashList.chainPtrsUntil, if_neg hne]
      rw [ih hrest (fun q hq => hstop q (by simp [hq])) (by simpa using hf)]

/-- In a well-formed state, the scan region of the bucket at index i is
exactly that bucket's stored segment. -/
theorem bucketPtrs_eq {s : HashList V} {segs : List (Nat × List Nat)} {fr : List Nat}
    (hs : SegsOk s segs fr) (i : Nat) :
    s.bucketPtrs i = segPtrsAt segs i := by
  by_cases hmem : i ∈ segIdxs segs
  · obtain ⟨L, ps, R, hsegs, hiL, hiR, hat⟩ := segs_split hs.idxNodup hmem
    rw [hat]
    have hpsne : ps ≠ [] := hs.nonemptySegs (i, ps) (hsegs ▸ (by simp))
    obtain ⟨ps1, le, hps⟩ : ∃ ps1 le, ps = ps1 ++ [le] := by
      rcases List.eq_nil_or_concat ps with h | ⟨ps1, le, h⟩
      · exact absurd h hpsne
      · exact ⟨ps1, le, by simpa [List.concat_eq_append] using h⟩
    have hlast : (s.buckets i).last_elem = some le := by
      have := hs.lastElem (i, ps) (hsegs ▸ (by simp))
      simpa [hps] using this
    have hchain0 : PtrChain s.heap s.list_head (segFlat L ++ (ps ++ segFlat R)) none := by
      have hc := hs.chain
      rw [hsegs] at hc
      simpa using hc
    obtain ⟨mid, hmidL, hmidR⟩ := ptrChain_append_iff.1 hchain0
    have hprev : (s.buckets i).prev_bucket = lastD none (segIdxs L) := by
      have hprevOk := hs.prevOk
      rw [hsegs] at hprevOk
      have h2 : IdxChain s.buckets none (segIdxs L ++ i :: segIdxs R) := by
        simpa using hprevOk
      exact ((idxChain_append_iff.1 h2).2).1
    have hhead : s.chainHead i = mid := by
      rcases List.eq_nil_or_concat L with rfl | ⟨L1, lsg, hL⟩
      · have hm : s.list_head = mid := hmidL
        simp [HashList.chainHead, hprev, hm]
      · rw [List.concat_eq_append] at hL
        subst hL
        have hqne : lsg.2 ≠ [] := hs.nonemptySegs lsg (hsegs ▸ (by simp))
        obtain ⟨qs1, q, hq⟩ : ∃ qs1 q, lsg.2 = qs1 ++ [q] := by
          rcases List.eq_nil_or_concat lsg.2 with h | ⟨qs1, q, h⟩
          · exact absurd h hqne
          · exact ⟨qs1, q, by simpa [List.concat_eq_append] using h⟩
        have hlastq : (s.buckets lsg.1).last_elem = some q := by
          have := hs.lastElem lsg (hsegs ▸ (by simp))
          simpa [hq] using this
        have hprev2 : (s.buckets i).prev_bucket = some lsg.1 := by
          rw [hprev]
          simp
        have htailq : (s.heap q).tail = mid := by
          have hmidL2 : PtrChain s.heap s.list_head ((segFlat L1 ++ qs1) ++ [q]) mid := by
            have : segFlat (L1 ++ [lsg]) = (segFlat L1 ++ qs1) ++ [q] := by
              simp [hq, List.append_assoc]
            rw [this] at hmidL
            exact hmidL
          exact ptrChain_concat_tail hmidL2
        simp [HashList.chainHead, hprev2, hlastq, htailq]
    obtain ⟨stp, hps_chain, hR_chain⟩ := ptrChain_append_iff.1 hmidR
    have hstop_eq : (s.heap le).tail = stp := by
      have : PtrChain s.heap mid (ps1 ++ [le]) stp := hps ▸ hps_chain
      exact ptrChain_concat_tail this
    have hnodupMR : (ps ++ segFlat R).Nodup := by
      have hnd := hs.nodup
      rw [hsegs] at hnd
      have : (segFlat L ++ (ps ++ segFlat R)).Nodup := by simpa using hnd
      exact (List.nodup_append.1 this).2.1
    have hstop_notin : ∀ p ∈ ps, some p ≠ stp := by
      intro p hp
      cases hRl : segFlat R with
      | nil =>
        rw [hRl] at hR_chain
        have : stp = none := hR_chain
        rw [this]
        simp
      | cons r rest =>
        rw [hRl] at hR_chain
        have hstp : stp = some r := ptrChain_start hR_chain
        rw [hstp]
        intro he
        have hpr : p = r := by simpa using he
        exact nodup_append_ne hnodupMR hp (by rw [hRl]; simp) hpr
    have hfuel : ps.length ≤ s.heapSize := by
      have hsub : ∀ p ∈ ps, p < s.heapSize := by
        intro p hp
        exact hs.bounded p (by rw [hsegs]; simp [hp])
      exact length_le_of_nodup_lt (List.nodup_append.1 hnodupMR).1 hsub
    simp only [HashList.bucketPtrs, hlast, hhead, hstop_eq]
    exact chainPtrsUntil_char hps_chain hstop_notin hfuel
  · have hlast := hs.inactive _ hmem
    rw [segPtrsAt_of_not_mem hmem]
    simp [HashList.bucketPtrs, hlast]

/-- Walking the prev_bucket links from the last of a chained index list
visits exactly the list, reversed. -/
theorem activeLoop_eq {bk : Nat → HashBucket} {idxs : List Nat}
    (hchain : IdxChain bk none idxs) :
    ∀ {fuel : Nat}, idxs.length ≤ fuel →
    activeLoop bk (lastD none idxs) fuel = idxs.reverse := by
  induction idxs using List.reverseRecOn with
  | nil =>
    intro fuel hf
    cases fuel <;> simp [activeLoop, lastD]
  | append_singleton ys y ih =>
    intro fuel hf
    obtain ⟨hys, hy⟩ := idxChain_append_iff.1 hchain
    have hprev : (bk y).prev_bucket = lastD none ys := hy.1
    cases fuel with
    | zero => simp at hf
    | succ f =>
      rw [lastD_concat]
      show y :: activeLoop bk (bk y).prev_bucket f = (ys ++ [y]).reverse
      rw [hprev, ih hys (by simpa using hf)]
      simp

theorem fresh_after_insert [Inhabited V] {s : HashList V} {t : List (Op V)}
    (h : ReachT s t) (hsz : 0 < s.hash_size)
    {k : Nat} {v : V} (hk : s.Find k = none) {l2 : List (Nat × V)}
    (hknot : k ∉ l2.map Prod.fst)
    (hfresh : ∀ kv ∈ l2, s.Find kv.1 = none) :
    ∀ kv ∈ l2, (s.Insert k v).Find kv.1 = none := by
  intro q hq
  have h1 : ReachT (s.Insert k v) (t ++ [Op.insert k v]) := ReachT.insert h hsz hk
  rw [reach_find_none_iff h1 q.1, insertedFor_concat]
  have hq0 : insertedFor q.1 t = [] := (reach_find_none_iff h q.1).1 (hfresh q hq)
  have hkq : k ≠ q.1 := fun he => hknot (he ▸ List.mem_map.2 ⟨q, hq, rfl⟩)
  rw [hq0]
  simp [insertedStep, hkq]

/-- Inserting fresh distinct keys grows the stored list by one element per
insertion. -/
theorem segsOk_insertAll [Inhabited V] {s : HashList V} {t : List (Op V)}
    {segs : List (Nat × List Nat)} {fr : List Nat}
    (h : ReachT s t) (hs : SegsOk s segs fr) (hsz : 0 < s.hash_size)
    {l : List (Nat × V)} (hnd : (l.map Prod.fst).Nodup)
    (hfresh : ∀ kv ∈ l, s.Find kv.1 = none) :
    ∃ segs2 fr2, SegsOk (insertAll s l) segs2 fr2 ∧
      (segFlat segs2).length = (segFlat segs).length + l.length := by
  induction l generalizing s t segs fr with
  | nil => exact ⟨segs, fr, hs, by simp⟩
  | cons kv l2 ih =>
    obtain ⟨k, v⟩ := kv
    simp only [List.map_cons, List.nodup_cons] at hnd
    have h1 : ReachT (s.Insert k v) (t ++ [Op.insert k v]) :=
      ReachT.insert h hsz (hfresh (k, v) (by simp))
    obtain ⟨e, segs1, hs1, hef, hek, hev, hq, hhsz, hall, hshape⟩ := segsOk_Insert hs k v hsz
    have hsz1 : 0 < (s.Insert k v).hash_size := by
      rw [hhsz]
      exact hsz
    have hfresh2 : ∀ q ∈ l2, (s.Insert k v).Find q.1 = none :=
      fresh_after_insert h hsz (hfresh (k, v) (by simp)) hnd.1
        (fun q hq => hfresh q (by simp [hq]))
    have hlen1 : (segFlat segs1).length = (segFlat segs).length + 1 := by
      rcases hshape with ⟨-, rfl⟩ | ⟨L, ps, R, hsegs, -, -, rfl⟩
      · simp
      · rw [hsegs]
        simp
        omega
    obtain ⟨segs2, fr2, hs2, hlen2⟩ := ih h1 hs1 hsz1 hnd.2 hfresh2
    refine ⟨segs2, fr2, hs2, ?_⟩
    rw [hlen2, hlen1]
    simp
    omega

/-- Release a list of nodes back to the pool with Delete. -/
def deleteAll (s : HashList V) (ps : List Nat) : HashList V := ps.foldl HashList.Delete s

/-- Deleting caller-owned distinct nodes into an empty container is a
legal trace that grows the free list by one entry per node. -/
theorem deleteAll_reach [Inhabited V] {s : HashList V} {t : List (Op V)} {fr : List Nat}
    (h : ReachT s t) (hs : SegsOk s [] fr) {ps : List Nat} (hnd : ps.Nodup)
    (hb : ∀ p ∈ ps, p < s.heapSize) (hdisj : ∀ p ∈ ps, p ∉ fr) :
    ReachT (deleteAll s ps) (t ++ ps.map Op.delete) ∧
    ∃ fr2, SegsOk (deleteAll s ps) [] fr2 ∧ fr2.length = ps.length + fr.length ∧
      (deleteAll s ps).allocated = s.allocated ∧
      (deleteAll s ps).hash_size = s.hash_size := by
  induction ps generalizing s t fr with
  | nil => exact ⟨by simpa using h, fr, hs, by simp, rfl, rfl⟩
  | cons p ps2 ih =>
    simp only [List.nodup_cons] at hnd
    have hlive : s.chainPtrs s.list_head s.heapSize = [] :=
      chainPtrs_eq hs.chain (by simp)
    have hfreed : s.freedPtrs = fr :=
      chainPtrs_eq hs.freeChain (length_le_of_nodup_lt hs.freeNodup hs.freeBounded)
    have h1 : ReachT (s.Delete p) (t ++ [Op.delete p]) := by
      refine ReachT.delete h (hb p (by simp)) ?_ ?_
      · rw [hlive]
        simp
      · rw [hfreed]
        exact hdisj p (by simp)
    obtain ⟨hs1, hq, hhsz, hhs, hal, hlh⟩ :=
      segsOk_Delete hs (hb p (by simp)) (by simp) (hdisj p (by simp))
    have hb2 : ∀ q ∈ ps2, q < (s.Delete p).heapSize := by
      intro q hq2
      rw [hhs]
      exact hb q (by simp [hq2])
    have hdisj2 : ∀ q ∈ ps2, q ∉ p :: fr := by
      intro q hq2 hmem
      rcases List.mem_cons.1 hmem with he | hmem2
      · exact hnd.1 (he ▸ hq2)
      · exact hdisj q (by simp [hq2]) hmem2
    obtain ⟨hre, fr2, hsd, hlen, hald, hhszd⟩ := ih h1 hs1 hnd.2 hb2 hdisj2
    have htr : (t ++ [Op.delete p]) ++ ps2.map Op.delete
        = t ++ (p :: ps2).map Op.delete := by
      simp
    rw [htr] at hre
    refine ⟨hre, fr2, hsd, ?_, ?_, ?_⟩
    · rw [hlen]
      simp
      omega
    · show (deleteAll (s.Delete p) ps2).allocated = s.allocated
      rw [hald, hal]
    · show (deleteAll (s.Delete p) ps2).hash_size = s.hash_size
      rw [hhszd, hhsz]

theorem insertedFor_delete_ops (k : Nat) (ps : List Nat) (acc : List V) :
    (ps.map (fun p => (Op.delete p : Op V))).foldl (insertedStep k) acc = acc := by
  induction ps generalizing acc with
  | nil => rfl
  | cons p ps2 ih =>
    simp only [List.map_cons, List.foldl_cons]
    rw [show insertedStep k acc (Op.delete p : Op V) = acc from rfl]
    exact ih acc

/-- When the free list holds at least as many nodes as there are keys to
insert, inserting them allocates no new block. -/
theorem insertAll_no_alloc [Inhabited V] {s : HashList V} {t : List (Op V)}
    {segs : List (Nat × List Nat)} {fr : List Nat}
    (h : ReachT s t) (hs : SegsOk s segs fr) (hsz : 0 < s.hash_size)
    {l : List (Nat × V)} (hnd : (l.map Prod.fst).Nodup)
    (hfresh : ∀ kv ∈ l, s.Find kv.1 = none)
    (hlen : l.length ≤ fr.length) :
    (insertAll s l).allocated = s.allocated := by
  induction l generalizing s t segs fr with
  | nil => rfl
  | cons kv l2 ih =>
    obtain ⟨k, v⟩ := kv
    simp only [List.map_cons, List.nodup_cons] at hnd
    obtain ⟨f0, fr2, rfl⟩ : ∃ f0 fr2, fr = f0 :: fr2 := by
      cases fr with
      | nil => simp at hlen
      | cons f0 fr2 => exact ⟨f0, fr2, rfl⟩
    have h1 : ReachT (s.Insert k v) (t ++ [Op.insert k v]) :=
      ReachT.insert h hsz (hfresh (k, v) (by simp))
    obtain ⟨e, segs1, hs1, -, -, -, -, hhsz, hall, -⟩ := segsOk_Insert hs k v hsz
    have hsz1 : 0 < (s.Insert k v).hash_size := by
      rw [hhsz]
      exact hsz
    have hall2 : (s.Insert k v).allocated = s.allocated := by
      rw [hall]
      simp
    have hs1b : SegsOk (s.Insert k v) segs1 fr2 := hs1
    have hfresh2 : ∀ q ∈ l2, (s.Insert k v).Find q.1 = none :=
      fresh_after_insert h hsz (hfresh (k, v) (by simp)) hnd.1
        (fun q hq => hfresh q (by simp [hq]))
    have hrec := ih h1 hs1b hsz1 hnd.2 hfresh2 (by simpa using Nat.le_of_succ_le_succ hlen)
    show (insertAll (s.Insert k v) l2).allocated = s.allocated
    rw [hrec, hall2]

theorem reachT_base (V : Type) [Inhabited V] (sz : Nat) :
    ReachT ((HashList.init V).SetSize sz) [Op.setSize sz] :=
  ReachT.setSize ReachT.init rfl rfl

theorem base_hash_size (V : Type) [Inhabited V] {sz : Nat} (hsz : 0 < sz) :
    ((HashList.init V).SetSize sz).hash_size = sz := by
  unfold HashList.SetSize HashList.init
  simp only
  rw [if_pos hsz]

theorem base_fresh (V : Type) [Inhabited V] (sz : Nat) (l : List (Nat × V)) :
    ∀ kv ∈ l, ((HashList.init V).SetSize sz).Find kv.1 = none := by
  intro kv _
  rw [reach_find_none_iff (reachT_base V sz) kv.1]
  rfl

theorem insertAll_base_reach [Inhabited V] (sz : Nat) (hsz : 0 < sz)
    {l : List (Nat × V)} (hnd : (l.map Prod.fst).Nodup) :
    ReachT (insertAll ((HashList.init V).SetSize sz) l)
      ([Op.setSize sz] ++ l.map (fun kv => Op.insert kv.1 kv.2)) :=
  insertAll_reachT (reachT_base V sz)
    (by rw [base_hash_size V hsz]; exact hsz) hnd (base_fresh V sz l)

theorem insertedFor_base (k : Nat) (sz : Nat) (l : List (Nat × V)) :
    insertedFor k ([Op.setSize sz] ++ l.map (fun kv => Op.insert kv.1 kv.2))
      = (l.map (fun kv => Op.insert kv.1 kv.2)).foldl (insertedStep k) [] := by
  rw [insertedFor_append]
  rfl

theorem find?_congr_pred {pr1 pr2 : Nat → Bool} {l : List Nat}
    (hpr : ∀ x ∈ l, pr1 x = pr2 x) : l.find? pr1 = l.find? pr2 := by
  induction l with
  | nil => rfl
  | cons a l2 ih =>
    have ha := hpr a (by simp)
    cases h2 : pr2 a with
    | true =>
      rw [List.find?_cons_of_pos _ (ha.trans h2), List.find?_cons_of_pos _ h2]
    | false =>
      rw [List.find?_cons_of_neg _ (by rw [ha, h2]; simp), List.find?_cons_of_neg _ (by rw [h2]; simp)]
      exact ih (fun x hx => hpr x (by simp [hx]))

theorem find?_append_some {pr : Nat → Bool} {xs ys : List Nat} {a : Nat}
    (h : xs.find? pr = some a) : (xs ++ ys).find? pr = some a := by
  induction xs with
  | nil => simp at h
  | cons x xs2 ih =>
    cases hx : pr x with
    | true =>
      rw [List.find?_cons_of_pos _ hx] at h
      rw [List.cons_append, List.find?_cons_of_pos _ hx]
      exact h
    | false =>
      rw [List.find?_cons_of_neg _ (by rw [hx]; simp)] at h
      rw [List.cons_append, List.find?_cons_of_neg _ (by rw [hx]; simp)]
      exact ih h

theorem chainPtrs_heap_eq (s2 s : HashList V) (hh : s2.heap = s.heap) :
    ∀ (a : Option Nat) (f : Nat), s2.chainPtrs a f = s.chainPtrs a f := by
  intro a f
  induction f generalizing a with
  | zero => cases a <;> rfl
  | succ f ih =>
    cases a with
    | none => rfl
    | some p =>
      show p :: s2.chainPtrs (s2.heap p).tail f = p :: s.chainPtrs (s.heap p).tail f
      rw [hh, ih]

/-- C1: inserting any sequence of pairwise-distinct keys into a freshly
configured table makes Find return, for each inserted key, an element
holding that key and its matching value; Find on a key never inserted
returns none, and Find on the empty (just configured) container returns
none for every key. -/
theorem C1_insert_find [Inhabited V] (sz : Nat) (hsz : 0 < sz) (l : List (Nat × V))
    (hnd : (l.map Prod.fst).Nodup) :
    (∀ k v, (k, v) ∈ l →
      ∃ p, (insertAll ((HashList.init V).SetSize sz) l).Find k = some p ∧
        ((insertAll ((HashList.init V).SetSize sz) l).heap p).key = k ∧
        ((insertAll ((HashList.init V).SetSize sz) l).heap p).val = v) ∧
    (∀ k2, k2 ∉ l.map Prod.fst →
      (insertAll ((HashList.init V).SetSize sz) l).Find k2 = none) ∧
    (∀ k3, ((HashList.init V).SetSize sz).Find k3 = none) := by
  have hre := insertAll_base_reach sz hsz hnd
  refine ⟨?_, ?_, ?_⟩
  · intro k v hmem
    have hins : insertedFor k ([Op.setSize sz] ++ l.map (fun kv => Op.insert kv.1 kv.2))
        = [v] := by
      rw [insertedFor_base]
      exact insertedFor_insert_ops_mem hnd hmem
    have hkv := reach_find_kv hre k
    rw [hins] at hkv
    cases hf : (insertAll ((HashList.init V).SetSize sz) l).Find k with
    | none =>
      rw [hf] at hkv
      simp at hkv
    | some p =>
      rw [hf] at hkv
      simp only [Option.map_some', List.head?_cons] at hkv
      have hp : (insertAll ((HashList.init V).SetSize sz) l).kvAt p = (k, v) := by
        injection hkv
      unfold HashList.kvAt at hp
      exact ⟨p, rfl, congrArg Prod.fst hp, congrArg Prod.snd hp⟩
  · intro k2 hk2
    rw [reach_find_none_iff hre k2, insertedFor_base]
    refine insertedFor_insert_ops ?_ []
    intro kv hkv he
    exact hk2 (he ▸ List.mem_map.2 ⟨kv, hkv, rfl⟩)
  · intro k3
    rw [reach_find_none_iff (reachT_base V sz) k3]
    rfl

theorem C1_insert_find_witness :
    (0 < 4 ∧ (([(1, 10), (5, 11)] : List (Nat × Nat)).map Prod.fst).Nodup) ∧
    ((insertAll ((HashList.init Nat).SetSize 4) [(1, 10), (5, 11)]).Find 2 = none ∧
     ∃ p, (insertAll ((HashList.init Nat).SetSize 4) [(1, 10), (5, 11)]).Find 5 = some p ∧
       ((insertAll ((HashList.init Nat).SetSize 4) [(1, 10), (5, 11)]).heap p).key = 5 ∧
       ((insertAll ((HashList.init Nat).SetSize 4) [(1, 10), (5, 11)]).heap p).val = 11) := by
  refine ⟨⟨by decide, by decide⟩, ?_, ?_⟩
  · obtain ⟨-, hb, -⟩ := C1_insert_find 4 (by decide) [(1, 10), (5, 11)] (by decide)
    exact hb 2 (by decide)
  · obtain ⟨ha, -, -⟩ := C1_insert_find 4 (by decide) [(1, 10), (5, 11)] (by decide)
    exact ha 5 11 (by decide)

/-- C2: after Clear, a fresh Find on any key (in particular any key
inserted before the Clear) returns none, while the detached chain handed
back by Clear still contains every key/value pair inserted since the
previous reset. -/
theorem C2_clear_semantics [Inhabited V] {s : HashList V} {t : List (Op V)}
    (h : ReachT s t) :
    (∀ k, (s.Clear).1.Find k = none) ∧
    (∀ k v, v ∈ insertedFor k t → (k, v) ∈ (s.Clear).1.chainKVs (s.Clear).2) := by
  have hclr : ReachT (s.Clear).1 (t ++ [Op.clear]) := ReachT.clear h
  constructor
  · intro k
    rw [reach_find_none_iff hclr k, insertedFor_concat]
    rfl
  · intro k v hv
    obtain ⟨segs, fr, hs, -, hkv⟩ := reachT_good h
    rw [← hkv k] at hv
    obtain ⟨p, hp, hpk, hpv⟩ := mem_of_mem_keyVals hv
    have hckv : (s.Clear).1.chainKVs (s.Clear).2 = s.liveKVs := by
      unfold HashList.chainKVs HashList.liveKVs
      rw [chainPtrs_heap_eq (s.Clear).1 s rfl]
      rfl
    rw [hckv]
    have hlive : s.liveKVs = (segFlat segs).map s.kvAt := by
      unfold HashList.liveKVs HashList.chainKVs
      rw [chainPtrs_eq hs.chain (length_le_of_nodup_lt hs.nodup hs.bounded)]
    rw [hlive]
    refine List.mem_map.2 ⟨p, hp, ?_⟩
    unfold HashList.kvAt
    rw [hpk, hpv]

theorem C2_clear_semantics_witness :
    ((insertAll ((HashList.init Nat).SetSize 4) [(2, 20), (6, 21)]).Clear).1.Find 2 = none ∧
    (2, 20) ∈ (((insertAll ((HashList.init Nat).SetSize 4) [(2, 20), (6, 21)]).Clear).1.chainKVs
      ((insertAll ((HashList.init Nat).SetSize 4) [(2, 20), (6, 21)]).Clear).2) := by
  have hre : ReachT (insertAll ((HashList.init Nat).SetSize 4) [(2, 20), (6, 21)])
      ([Op.setSize 4] ++
        ([(2, 20), (6, 21)] : List (Nat × Nat)).map (fun kv => Op.insert kv.1 kv.2)) :=
    insertAll_base_reach 4 (by decide) (by decide)
  obtain ⟨ha, hb⟩ := C2_clear_semantics hre
  exact ⟨ha 2, hb 2 20 (by decide)⟩

/-- C3 (corrected): for every (k, v) inserted with pairwise-distinct keys
since the last reset, the chain detached by the next Clear contains
exactly one node carrying key k, and it holds the value v; in the concrete
scenario configure(4); Insert(1, a); Insert(5, b); Clear(), the detached
chain holds the two nodes in insertion order — key 1 first, then key 5 —
not in reverse-insertion order. -/
theorem C3_round_trip [Inhabited V] (sz : Nat) (hsz : 0 < sz) (l : List (Nat × V))
    (hnd : (l.map Prod.fst).Nodup) :
    (∀ k v, (k, v) ∈ l →
      (((insertAll ((HashList.init V).SetSize sz) l).Clear).1.chainKVs
        ((insertAll ((HashList.init V).SetSize sz) l).Clear).2).filter
          (fun q => q.1 == k) = [(k, v)]) ∧
    ((((insertAll ((HashList.init Nat).SetSize 4) [(1, 10), (5, 11)]).Clear).1.chainKVs
        ((insertAll ((HashList.init Nat).SetSize 4) [(1, 10), (5, 11)]).Clear).2)
      = [(1, 10), (5, 11)]) := by
  refine ⟨?_, by decide⟩
  intro k v hmem
  have hre := insertAll_base_reach sz hsz hnd
  obtain ⟨segs, fr, hs, -, hkv⟩ := reachT_good hre
  have hins : keyVals (insertAll ((HashList.init V).SetSize sz) l) k (segFlat segs)
      = [v] := by
    rw [hkv k, insertedFor_base]
    exact insertedFor_insert_ops_mem hnd hmem
  set sF := insertAll ((HashList.init V).SetSize sz) l with hsF
  have hckv : (sF.Clear).1.chainKVs (sF.Clear).2 = sF.liveKVs := by
    unfold HashList.chainKVs HashList.liveKVs
    rw [chainPtrs_heap_eq (sF.Clear).1 sF rfl]
    rfl
  have hlive : sF.liveKVs = (segFlat segs).map sF.kvAt := by
    unfold HashList.liveKVs HashList.chainKVs
    rw [chainPtrs_eq hs.chain (length_le_of_nodup_lt hs.nodup hs.bounded)]
  rw [hckv, hlive]
  have hfm : ((segFlat segs).map sF.kvAt).filter (fun q => q.1 == k)
      = ((segFlat segs).filter (fun p => (sF.heap p).key == k)).map sF.kvAt := by
    rw [List.filter_map]
    rfl
  rw [hfm]
  have hlen1 : ((segFlat segs).filter (fun p => (sF.heap p).key == k)).length = 1 := by
    have : (((segFlat segs).filter (fun p => (sF.heap p).key == k)).map
        (fun p => (sF.heap p).val)).length = 1 := by
      rw [show ((segFlat segs).filter (fun p => (sF.heap p).key == k)).map
            (fun p => (sF.heap p).val) = keyVals sF k (segFlat segs) from rfl, hins]
      rfl
    simpa using this
  obtain ⟨p0, hp0⟩ := List.length_eq_one.1 hlen1
  rw [hp0]
  have hpk : (sF.heap p0).key = k := by
    have : p0 ∈ (segFlat segs).filter (fun p => (sF.heap p).key == k) := by
      rw [hp0]
      simp
    simpa using (List.mem_filter.1 this).2
  have hpv : (sF.heap p0).val = v := by
    have hkv1 : keyVals sF k (segFlat segs) = [(sF.heap p0).val] := by
      unfold keyVals
      rw [hp0]
      rfl
    have h2 : [(sF.heap p0).val] = [v] := hkv1.symm.trans hins
    simpa using h2
  unfold HashList.kvAt
  rw [List.map_cons, hpk, hpv]
  rfl

theorem C3_round_trip_witness :
    (0 < 4 ∧ (([(1, 10), (5, 11)] : List (Nat × Nat)).map Prod.fst).Nodup) ∧
    ((((insertAll ((HashList.init Nat).SetSize 4) [(1, 10), (5, 11)]).Clear).1.chainKVs
        ((insertAll ((HashList.init Nat).SetSize 4) [(1, 10), (5, 11)]).Clear).2).filter
          (fun q => q.1 == 5) = [(5, 11)]) := by
  refine ⟨⟨by decide, by decide⟩, ?_⟩
  obtain ⟨ha, -⟩ := C3_round_trip 4 (by decide) [(1, 10), (5, 11)] (by decide)
  exact ha 5 11 (by decide)

/-- C3 counterexample: in the claim's concrete scenario configure(4);
Insert(1, a); Insert(5, b); Clear(), the detached chain holds the nodes in
insertion order (key 1 first), not in the claimed reverse-insertion order
(key 5 first). -/
theorem C3_reverse_order_cex :
    ¬((((insertAll ((HashList.init Nat).SetSize 4) [(1, 10), (5, 11)]).Clear).1.chainKVs
        ((insertAll ((HashList.init Nat).SetSize 4) [(1, 10), (5, 11)]).Clear).2)
      = [(5, 11), (1, 10)]) := by decide

/-- C4: in every reachable state, the live nodes carrying one key form one
contiguous block of the stored list, holding — in insertion order —
exactly the values inserted for that key since the last reset, and Find
returns the head of that block, i.e. the earliest-inserted node with that
key still present. -/
theorem C4_same_key_contiguous [Inhabited V] {s : HashList V} {t : List (Op V)}
    (h : ReachT s t) (k : Nat) :
    ∃ A C B, s.liveKVs = A ++ C ++ B ∧
      C = (insertedFor k t).map (fun v => (k, v)) ∧
      (∀ q ∈ A, q.1 ≠ k) ∧ (∀ q ∈ B, q.1 ≠ k) ∧
      (s.Find k).map s.kvAt = C.head? :=
  good_run h k

theorem C4_same_key_contiguous_witness :
    ∃ A C B,
      ((insertAll ((HashList.init Nat).SetSize 4) [(3, 30), (7, 31)]).InsertMore 3 32).liveKVs
        = A ++ C ++ B ∧
      C = (insertedFor 3
            (([Op.setSize 4] ++
              ([(3, 30), (7, 31)] : List (Nat × Nat)).map (fun kv => Op.insert kv.1 kv.2))
              ++ [Op.insertMore 3 32])).map (fun v => (3, v)) ∧
      (∀ q ∈ A, q.1 ≠ 3) ∧ (∀ q ∈ B, q.1 ≠ 3) ∧
      (((insertAll ((HashList.init Nat).SetSize 4) [(3, 30), (7, 31)]).InsertMore 3 32).Find 3).map
        ((insertAll ((HashList.init Nat).SetSize 4) [(3, 30), (7, 31)]).InsertMore 3 32).kvAt
        = C.head? := by
  have hre : ReachT (insertAll ((HashList.init Nat).SetSize 4) [(3, 30), (7, 31)])
      ([Op.setSize 4] ++
        ([(3, 30), (7, 31)] : List (Nat × Nat)).map (fun kv => Op.insert kv.1 kv.2)) :=
    insertAll_base_reach 4 (by decide) (by decide)
  have hre2 : ReachT
      ((insertAll ((HashList.init Nat).SetSize 4) [(3, 30), (7, 31)]).InsertMore 3 32)
      (([Op.setSize 4] ++
        ([(3, 30), (7, 31)] : List (Nat × Nat)).map (fun kv => Op.insert kv.1 kv.2))
        ++ [Op.insertMore 3 32]) :=
    ReachT.insertMore hre (by decide)
  exact C4_same_key_contiguous hre2 3

/-- C5: calling Insert for a key that is already present (violating the
documented precondition) creates a shadow duplicate: the new element is
live and carries the key and new value, yet Find still returns the
first-added element, not the duplicate. -/
theorem C5_duplicate_shadow [Inhabited V] {s : HashList V} {t : List (Op V)}
    (h : ReachT s t) (hsz : 0 < s.hash_size) {k p0 : Nat}
    (hfound : s.Find k = some p0) (v2 : V) :
    (s.Insert k v2).Find k = some p0 ∧
    ∃ e, e ≠ p0 ∧
      e ∈ (s.Insert k v2).chainPtrs (s.Insert k v2).list_head (s.Insert k v2).heapSize ∧
      p0 ∈ (s.Insert k v2).chainPtrs (s.Insert k v2).list_head (s.Insert k v2).heapSize ∧
      ((s.Insert k v2).heap e).key = k ∧ ((s.Insert k v2).heap e).val = v2 ∧
      ((s.Insert k v2).heap p0).key = k ∧
      (s.Insert k v2).Find k ≠ some e := by
  obtain ⟨segs, fr, hs, -, -⟩ := reachT_good h
  have hchar : (segPtrsAt segs (k % s.hash_size)).find? (fun p => (s.heap p).key == k)
      = some p0 := by
    rw [← find_char hs k]
    exact hfound
  have hmem : k % s.hash_size ∈ segIdxs segs := by
    by_contra hni
    rw [segPtrsAt_of_not_mem hni] at hchar
    simp at hchar
  obtain ⟨e, segs2, hs2, hef, hek, hev, hq, hhsz, hall, hshape⟩ := segsOk_Insert hs k v2 hsz
  rcases hshape with ⟨hni, -⟩ | ⟨L, ps, R, hsegs, hiL, hiR, hseq⟩
  · exact absurd hmem hni
  have hat : segPtrsAt segs (k % s.hash_size) = ps := segPtrsAt_eq hs.idxNodup hsegs
  rw [hat] at hchar
  have hp0ps : p0 ∈ ps := List.mem_of_find?_eq_some hchar
  have hp0flat : p0 ∈ segFlat segs := by
    rw [hsegs]
    simp [hp0ps]
  have hfind2 : (s.Insert k v2).Find k = some p0 := by
    rw [find_char hs2 k, hhsz]
    rw [segPtrsAt_eq hs2.idxNodup hseq]
    refine find?_append_some ?_
    have hpr : ∀ x ∈ ps,
        (fun p => (((s.Insert k v2).heap p).key == k)) x
          = (fun p => ((s.heap p).key == k)) x := by
      intro x hx
      show (((s.Insert k v2).heap x).key == k) = ((s.heap x).key == k)
      rw [(hq x (by rw [hsegs]; simp [hx])).1]
    rw [find?_congr_pred hpr]
    exact hchar
  have hflat2 : (s.Insert k v2).chainPtrs (s.Insert k v2).list_head (s.Insert k v2).heapSize
      = segFlat segs2 :=
    chainPtrs_eq hs2.chain (length_le_of_nodup_lt hs2.nodup hs2.bounded)
  have hep0 : e ≠ p0 := fun he => hef (he ▸ hp0flat)
  refine ⟨hfind2, e, hep0, ?_, ?_, hek, hev, ?_, ?_⟩
  · rw [hflat2, hseq]
    simp
  · rw [hflat2, hseq]
    rw [hsegs] at hp0flat
    simp only [segFlat_append, segFlat_cons, List.mem_append] at hp0flat ⊢
    rcases hp0flat with hx | hx
    · exact Or.inl hx
    · rcases hx with hx | hx
      · exact Or.inr (Or.inl (by simp [hx]))
      · exact Or.inr (Or.inr hx)
  · have hkey : (s.heap p0).key = k := by
      have := List.find?_some hchar
      simpa using this
    rw [(hq p0 hp0flat).1]
    exact hkey
  · rw [hfind2]
    intro hcon
    have : p0 = e := by
      injection hcon
    exact hep0 this.symm

theorem C5_duplicate_shadow_witness :
    (0 < (insertAll ((HashList.init Nat).SetSize 4) [(1, 10)]).hash_size ∧
     (insertAll ((HashList.init Nat).SetSize 4) [(1, 10)]).Find 1 = some 0) ∧
    (((insertAll ((HashList.init Nat).SetSize 4) [(1, 10)]).Insert 1 99).Find 1 = some 0 ∧
     ∃ e, e ≠ 0 ∧
      e ∈ ((insertAll ((HashList.init Nat).SetSize 4) [(1, 10)]).Insert 1 99).chainPtrs
        ((insertAll ((HashList.init Nat).SetSize 4) [(1, 10)]).Insert 1 99).list_head
        ((insertAll ((HashList.init Nat).SetSize 4) [(1, 10)]).Insert 1 99).heapSize ∧
      0 ∈ ((insertAll ((HashList.init Nat).SetSize 4) [(1, 10)]).Insert 1 99).chainPtrs
        ((insertAll ((HashList.init Nat).SetSize 4) [(1, 10)]).Insert 1 99).list_head
        ((insertAll ((HashList.init Nat).SetSize 4) [(1, 10)]).Insert 1 99).heapSize ∧
      (((insertAll ((HashList.init Nat).SetSize 4) [(1, 10)]).Insert 1 99).heap e).key = 1 ∧
      (((insertAll ((HashList.init Nat).SetSize 4) [(1, 10)]).Insert 1 99).heap e).val = 99 ∧
      (((insertAll ((HashList.init Nat).SetSize 4) [(1, 10)]).Insert 1 99).heap 0).key = 1 ∧
      ((insertAll ((HashList.init Nat).SetSize 4) [(1, 10)]).Insert 1 99).Find 1 ≠ some e) := by
  have hre : ReachT (insertAll ((HashList.init Nat).SetSize 4) [(1, 10)])
      ([Op.setSize 4] ++ ([(1, 10)] : List (Nat × Nat)).map (fun kv => Op.insert kv.1 kv.2)) :=
    insertAll_base_reach 4 (by decide) (by decide)
  exact ⟨⟨by decide, by decide⟩, C5_duplicate_shadow hre (by decide) (by decide) 99⟩

/-- C6: in every reachable state the active-bucket list — walked from
bucket_list_tail through the buckets' prev_bucket links — contains,
without repetition, exactly the bucket indices that currently hold at
least one live element. -/
theorem C6_active_bucket_list [Inhabited V] {s : HashList V} {t : List (Op V)}
    (h : ReachT s t) :
    s.activeBuckets.Nodup ∧
    (∀ i, i ∈ s.activeBuckets ↔
      ∃ p ∈ s.chainPtrs s.list_head s.heapSize, (s.heap p).key % s.hash_size = i) := by
  obtain ⟨segs, fr, hs, -, -⟩ := reachT_good h
  have hact : s.activeBuckets = (segIdxs segs).reverse := by
    unfold HashList.activeBuckets
    rw [hs.tailOk]
    refine activeLoop_eq hs.prevOk ?_
    refine le_trans (length_le_of_nodup_lt hs.idxNodup ?_) hs.hszLe
    intro x hx
    obtain ⟨sg, hsg, rfl⟩ := List.mem_map.1 hx
    exact hs.idxLt sg hsg
  have hflat : s.chainPtrs s.list_head s.heapSize = segFlat segs :=
    chainPtrs_eq hs.chain (length_le_of_nodup_lt hs.nodup hs.bounded)
  constructor
  · rw [hact]
    exact List.nodup_reverse.2 hs.idxNodup
  · intro i
    rw [hact, List.mem_reverse, hflat]
    constructor
    · intro hi
      obtain ⟨sg, hsg, rfl⟩ := List.mem_map.1 hi
      have hne : sg.2 ≠ [] := hs.nonemptySegs sg hsg
      obtain ⟨p, hp⟩ := List.exists_mem_of_ne_nil sg.2 hne
      exact ⟨p, mem_segFlat_of_mem hsg hp, hs.segKeys sg hsg p hp⟩
    · rintro ⟨p, hp, hkey⟩
      simp only [segFlat, List.mem_flatten] at hp
      obtain ⟨l2, hl2, hpl⟩ := hp
      obtain ⟨sg, hsg, rfl⟩ := List.mem_map.1 hl2
      have := hs.segKeys sg hsg p hpl
      rw [hkey] at this
      exact this ▸ List.mem_map.2 ⟨sg, hsg, rfl⟩

theorem C6_active_bucket_list_witness :
    (insertAll ((HashList.init Nat).SetSize 4) [(1, 10), (5, 11)]).activeBuckets.Nodup ∧
    (∀ i, i ∈ (insertAll ((HashList.init Nat).SetSize 4) [(1, 10), (5, 11)]).activeBuckets ↔
      ∃ p ∈ (insertAll ((HashList.init Nat).SetSize 4) [(1, 10), (5, 11)]).chainPtrs
          (insertAll ((HashList.init Nat).SetSize 4) [(1, 10), (5, 11)]).list_head
          (insertAll ((HashList.init Nat).SetSize 4) [(1, 10), (5, 11)]).heapSize,
        ((insertAll ((HashList.init Nat).SetSize 4) [(1, 10), (5, 11)]).heap p).key % 
          (insertAll ((HashList.init Nat).SetSize 4) [(1, 10), (5, 11)]).hash_size = i) := by
  have hre : ReachT (insertAll ((HashList.init Nat).SetSize 4) [(1, 10), (5, 11)])
      ([Op.setSize 4] ++
        ([(1, 10), (5, 11)] : List (Nat × Nat)).map (fun kv => Op.insert kv.1 kv.2)) :=
    insertAll_base_reach 4 (by decide) (by decide)
  exact C6_active_bucket_list hre

/-- C7 (corrected): Find discovers a bucket's chain with no explicit
per-chain terminator, but not by a sentinel-by-hash-mismatch scan from the
bucket's last node: it computes the chain's bounds from the hash
structure, scanning from the element that follows the previously
activated bucket's last element (or from the list head) and stopping at
the element that follows this bucket's own last element; Find equals the
first key match on that bounded region, and every element of the region
belongs to the target bucket. -/
theorem C7_find_scan_region [Inhabited V] {s : HashList V} {t : List (Op V)}
    (h : ReachT s t) (k : Nat) :
    s.Find k = (s.bucketPtrs (k % s.hash_size)).find? (fun p => (s.heap p).key == k) ∧
    (∀ p ∈ s.bucketPtrs (k % s.hash_size),
      (s.heap p).key % s.hash_size = k % s.hash_size) := by
  obtain ⟨segs, fr, hs, -, -⟩ := reachT_good h
  have hbp := bucketPtrs_eq hs (k % s.hash_size)
  constructor
  · rw [hbp]
    exact find_char hs k
  · intro p hp
    rw [hbp] at hp
    by_cases hmem : k % s.hash_size ∈ segIdxs segs
    · obtain ⟨L, ps, R, hsegs, hiL, hiR, hat⟩ := segs_split hs.idxNodup hmem
      rw [hat] at hp
      exact hs.segKeys (k % s.hash_size, ps) (hsegs ▸ (by simp)) p hp
    · rw [segPtrsAt_of_not_mem hmem] at hp
      simp at hp

theorem C7_find_scan_region_witness :
    ((insertAll ((HashList.init Nat).SetSize 4) [(1, 10), (5, 11)]).Find 5
      = ((insertAll ((HashList.init Nat).SetSize 4) [(1, 10), (5, 11)]).bucketPtrs (5 % 
          (insertAll ((HashList.init Nat).SetSize 4) [(1, 10), (5, 11)]).hash_size)).find?
            (fun p => (((insertAll ((HashList.init Nat).SetSize 4) [(1, 10), (5, 11)]).heap p).key
              == 5))) ∧
    (∀ p ∈ (insertAll ((HashList.init Nat).SetSize 4) [(1, 10), (5, 11)]).bucketPtrs
        (5 % (insertAll ((HashList.init Nat).SetSize 4) [(1, 10), (5, 11)]).hash_size),
      ((insertAll ((HashList.init Nat).SetSize 4) [(1, 10), (5, 11)]).heap p).key % 
        (insertAll ((HashList.init Nat).SetSize 4) [(1, 10), (5, 11)]).hash_size
        = 5 % (insertAll ((HashList.init Nat).SetSize 4) [(1, 10), (5, 11)]).hash_size) := by
  have hre : ReachT (insertAll ((HashList.init Nat).SetSize 4) [(1, 10), (5, 11)])
      ([Op.setSize 4] ++
        ([(1, 10), (5, 11)] : List (Nat × Nat)).map (fun kv => Op.insert kv.1 kv.2)) :=
    insertAll_base_reach 4 (by decide) (by decide)
  exact C7_find_scan_region hre 5

/-- C7 counterexample: in the state reached by configure(4); Insert(1, a);
Insert(5, b), both keys hash to bucket 1 and the bucket's stored chain
holds the key-1 element; Find(1) returns it, while the spec's
sentinel-by-hash-mismatch procedure — start at the bucket's last node,
follow links, stop at the first node whose key hashes elsewhere — fails
to reach it and returns nothing: the claimed stopping rule is not the
mechanism Find uses. -/
theorem C7_hash_mismatch_cex :
    (insertAll ((HashList.init Nat).SetSize 4) [(1, 10), (5, 11)]).Find 1 = some 0 ∧
    (insertAll ((HashList.init Nat).SetSize 4) [(1, 10), (5, 11)]).findByHashMismatch 1
      = none := by decide

/-- C8: New draws from the free list when it is non-empty (changing no
pool block), and otherwise allocates a fresh block of exactly
allocate_block_size = 1024 node slots, records it, and returns its first
slot; no operation ever removes a recorded block. -/
theorem C8_allocation [Inhabited V] (s : HashList V) (k p sz : Nat) (v : V) :
    (∀ q, s.freed_head = some q → (s.New).2 = q ∧ (s.New).1.allocated = s.allocated ∧
      (s.New).1.heapSize = s.heapSize) ∧
    (s.freed_head = none → (s.New).2 = s.heapSize ∧
      (s.New).1.allocated = s.allocated ++ [s.heapSize] ∧
      (s.New).1.heapSize = s.heapSize + allocate_block_size) ∧
    allocate_block_size = 1024 ∧
    (∃ u, (s.New).1.allocated = s.allocated ++ u) ∧
    (∃ u, (s.Insert k v).allocated = s.allocated ++ u) ∧
    (∃ u, (s.InsertMore k v).allocated = s.allocated ++ u) ∧
    (s.Clear).1.allocated = s.allocated ∧
    (s.Delete p).allocated = s.allocated ∧
    (s.SetSize sz).allocated = s.allocated := by
  refine ⟨?_, ?_, rfl, ?_, ?_, ?_, rfl, rfl, ?_⟩
  · intro q hq
    unfold HashList.New
    rw [hq]
    exact ⟨rfl, rfl, rfl⟩
  · intro hq
    unfold HashList.New
    rw [hq]
    exact ⟨rfl, rfl, rfl⟩
  · obtain ⟨-, h2, -⟩ := New_frame s
    exact ⟨_, h2⟩
  · exact ⟨_, (Insert_frame s k v).2⟩
  · exact ⟨_, (InsertMore_frame s k v).2⟩
  · unfold HashList.SetSize
    split
    · rfl
    · rfl

theorem insertAll_hash_size [Inhabited V] (s : HashList V) (l : List (Nat × V)) :
    (insertAll s l).hash_size = s.hash_size := by
  induction l generalizing s with
  | nil => rfl
  | cons kv l2 ih =>
    show (insertAll (s.Insert kv.1 kv.2) l2).hash_size = s.hash_size
    rw [ih, (Insert_frame s kv.1 kv.2).1]

/-- C9: insert a batch of distinct keys, Clear, Delete every node of the
returned chain; a second batch of at most as many inserts allocates no
new pool block — the block list stays at its high-water mark. -/
theorem C9_block_reuse [Inhabited V] (sz : Nat) (hsz : 0 < sz)
    (l1 l2 : List (Nat × V))
    (hnd1 : (l1.map Prod.fst).Nodup) (hnd2 : (l2.map Prod.fst).Nodup)
    (hlen : l2.length ≤ l1.length) :
    (insertAll
      (deleteAll ((insertAll ((HashList.init V).SetSize sz) l1).Clear).1
        (((insertAll ((HashList.init V).SetSize sz) l1).Clear).1.chainPtrs
          ((insertAll ((HashList.init V).SetSize sz) l1).Clear).2
          ((insertAll ((HashList.init V).SetSize sz) l1).Clear).1.heapSize))
      l2).allocated
    = (insertAll ((HashList.init V).SetSize sz) l1).allocated := by
  have hs0 : SegsOk ((HashList.init V).SetSize sz) [] [] :=
    (segsOk_SetSize (segsOk_init V) sz).1
  have hsz0 : 0 < ((HashList.init V).SetSize sz).hash_size := by
    rw [base_hash_size V hsz]
    exact hsz
  have hr1 := insertAll_base_reach sz hsz hnd1
  obtain ⟨segs1, fr1, hs1, hlen1⟩ :=
    segsOk_insertAll (reachT_base V sz) hs0 hsz0 hnd1 (base_fresh V sz l1)
  set s1 := insertAll ((HashList.init V).SetSize sz) l1 with hs1def
  obtain ⟨hs1c, hret, hheap, hhscl, hhs, halcl, hfhcl, hbszcl⟩ := segsOk_Clear hs1
  have hrc : ReachT (s1.Clear).1
      (([Op.setSize sz] ++ l1.map (fun kv => Op.insert kv.1 kv.2)) ++ [Op.clear]) :=
    ReachT.clear hr1
  have hps : (s1.Clear).1.chainPtrs (s1.Clear).2 (s1.Clear).1.heapSize = segFlat segs1 := by
    rw [hret, hhs, chainPtrs_heap_eq (s1.Clear).1 s1 hheap]
    exact chainPtrs_eq hs1.chain (length_le_of_nodup_lt hs1.nodup hs1.bounded)
  rw [hps]
  have hb : ∀ p ∈ segFlat segs1, p < (s1.Clear).1.heapSize := by
    intro p hp
    rw [hhs]
    exact hs1.bounded p hp
  have hdisj : ∀ p ∈ segFlat segs1, p ∉ fr1 := by
    intro p hp hpf
    exact hs1.freeDisj p hpf hp
  obtain ⟨hr2, fr2, hs2, hlen2, hal2, hhsz2⟩ :=
    deleteAll_reach hrc hs1c hs1.nodup hb hdisj
  have hsz2 : 0 < (deleteAll (s1.Clear).1 (segFlat segs1)).hash_size := by
    rw [hhsz2, hhscl, hs1def, insertAll_hash_size, base_hash_size V hsz]
    exact hsz
  have hfresh2 : ∀ kv ∈ l2, (deleteAll (s1.Clear).1 (segFlat segs1)).Find kv.1 = none := by
    intro kv _
    rw [reach_find_none_iff hr2 kv.1, insertedFor_append]
    have hc1 : insertedFor kv.1
        (([Op.setSize sz] ++ l1.map (fun q => Op.insert q.1 q.2)) ++ [Op.clear]) = [] := by
      rw [insertedFor_concat]
      rfl
    rw [hc1]
    exact insertedFor_delete_ops kv.1 (segFlat segs1) []
  have hlenfr : l2.length ≤ fr2.length := by
    rw [hlen2]
    have hl1 : (segFlat segs1).length = l1.length := by simpa using hlen1
    rw [hl1]
    omega
  have hfin := insertAll_no_alloc hr2 hs2 hsz2 hnd2 hfresh2 hlenfr
  rw [hfin, hal2, halcl]

theorem C9_block_reuse_witness :
    ((0 < 4 ∧ (([(1, 10), (5, 11)] : List (Nat × Nat)).map Prod.fst).Nodup) ∧
      (([(2, 50)] : List (Nat × Nat)).map Prod.fst).Nodup ∧
      ([(2, 50)] : List (Nat × Nat)).length ≤ ([(1, 10), (5, 11)] : List (Nat × Nat)).length) ∧
    (insertAll
      (deleteAll ((insertAll ((HashList.init Nat).SetSize 4) [(1, 10), (5, 11)]).Clear).1
        (((insertAll ((HashList.init Nat).SetSize 4) [(1, 10), (5, 11)]).Clear).1.chainPtrs
          ((insertAll ((HashList.init Nat).SetSize 4) [(1, 10), (5, 11)]).Clear).2
          ((insertAll ((HashList.init Nat).SetSize 4) [(1, 10), (5, 11)]).Clear).1.heapSize))
      [(2, 50)]).allocated
    = (insertAll ((HashList.init Nat).SetSize 4) [(1, 10), (5, 11)]).allocated :=
  ⟨⟨⟨by decide, by decide⟩, by decide, by decide⟩,
    C9_block_reuse 4 (by decide) [(1, 10), (5, 11)] [(2, 50)] (by decide) (by decide) (by decide)⟩

/-- C10: Clear leaves the configured bucket count unchanged — Size returns
the same value right after a Clear as right before it — and so do Insert,
InsertMore and Delete; only SetSize changes the bucket count, so repeated
insert/Clear/Delete generations need no reconfiguration. -/
theorem C10_clear_preserves_size [Inhabited V] (s : HashList V) (k p sz : Nat) (v : V) :
    (s.Clear).1.Size = s.Size ∧
    (s.Insert k v).Size = s.Size ∧
    (s.InsertMore k v).Size = s.Size ∧
    (s.Delete p).Size = s.Size ∧
    (s.SetSize sz).Size = sz := by
  refine ⟨rfl, ?_, ?_, rfl, SetSize_size s sz⟩
  · exact (Insert_frame s k v).1
  · exact (InsertMore_frame s k v).1
